import Mathlib

/-!
Verification of the embedded-script recovery and consolidation subsystem of the
calendar pipeline (`python/fetch/calendar/03_extract_from_document.py` and its
callers).  Texts are modelled as `List Char`.  Modelling conventions, applied
uniformly and noted at the definitions they concern:

* Python `str` indexing-based loops are translated to structural recursion over
  the remaining character list, with the emitted output carried in reverse
  order (`revOut`) so that the source's look-back at the last emitted
  characters is a list head operation.
* Python's class-based character predicates (`isspace`, `isalpha`, `isalnum`,
  `lower`, `strip`) are Unicode-aware; they are modelled here on the character
  ranges that actually occur in this pipeline's data (ASCII plus the common
  Latin-1 space characters).  All concrete inputs used in theorems stay inside
  the modelled ranges.
* Python `bool` is a subtype of `int`: `isinstance(True, int)` holds and
  `int(True) = 1`.  The helpers `pyIsInt` / `pyAsInt` reproduce this.
* Python `dict` preserves insertion order, updates in place, and appends new
  keys at the end; association lists with `pyDictGet` / `pyDictSet` reproduce
  this.
* JSON numbers are modelled as arbitrary-precision integers; floating-point
  literals are outside the model (the pipeline's identity keys and scores are
  integers).
-/

namespace Calendar

/-- Approximation of Python `str.isspace` on the characters this pipeline can
meet: ASCII whitespace plus the Latin-1 space characters.  (Rarer Unicode
space characters are outside the model.) -/
def pyIsSpace (c : Char) : Bool :=
  c == ' ' || c == '\t' || c == '\n' || c == '\r' ||
  c == '\x0b' || c == '\x0c' || c == '\x1c' || c == '\x1d' ||
  c == '\x1e' || c == '\x1f' || c == '\x85' || c == '\xa0'

/-- Approximation of Python `str.isalpha` (ASCII letters; the identifiers in
this pipeline are ASCII). -/
def pyIsAlpha (c : Char) : Bool :=
  ('a' ≤ c && c ≤ 'z') || ('A' ≤ c && c ≤ 'Z')

/-- Approximation of Python `str.isalnum` (ASCII letters and digits). -/
def pyIsAlnum (c : Char) : Bool :=
  pyIsAlpha c || c.isDigit

/-- Approximation of Python `str.lower`, character by character (ASCII). -/
def pyToLower (c : Char) : Char :=
  if 'A' ≤ c && c ≤ 'Z' then Char.ofNat (c.toNat + 32) else c

/-- Python `str.strip()`: drop leading and trailing whitespace. -/
def pyStrip (s : List Char) : List Char :=
  ((s.dropWhile pyIsSpace).reverse.dropWhile pyIsSpace).reverse

deriving instance DecidableEq for Except

/-- Decoded JSON values / Python objects flowing through the pipeline
(`DecodedTree` of the spec).  Objects are association lists in insertion
order; numbers are integers (see the header note). -/
inductive Value where
  | null
  | bool (b : Bool)
  | int (n : Int)
  | str (s : List Char)
  | arr (xs : List Value)
  | obj (kvs : List (List Char × Value))
deriving Repr

mutual
def Value.beq : Value → Value → Bool
  | .null, .null => true
  | .bool a, .bool b => a == b
  | .int a, .int b => a == b
  | .str a, .str b => a == b
  | .arr a, .arr b => Value.beqList a b
  | .obj a, .obj b => Value.beqKvs a b
  | _, _ => false
def Value.beqList : List Value → List Value → Bool
  | [], [] => true
  | x :: xs, y :: ys => Value.beq x y && Value.beqList xs ys
  | _, _ => false
def Value.beqKvs : List (List Char × Value) → List (List Char × Value) → Bool
  | [], [] => true
  | (k1, v1) :: xs, (k2, v2) :: ys => k1 == k2 && Value.beq v1 v2 && Value.beqKvs xs ys
  | _, _ => false
end

mutual
theorem Value.beq_iff : ∀ a b : Value, Value.beq a b = true ↔ a = b
  | .null, b => by cases b <;> simp [Value.beq]
  | .bool a, b => by cases b <;> simp [Value.beq]
  | .int a, b => by cases b <;> simp [Value.beq]
  | .str a, b => by cases b <;> simp [Value.beq]
  | .arr a, b => by
      cases b <;> simp [Value.beq]
      exact Value.beqList_iff a _
  | .obj a, b => by
      cases b <;> simp [Value.beq]
      exact Value.beqKvs_iff a _
theorem Value.beqList_iff : ∀ a b : List Value, Value.beqList a b = true ↔ a = b
  | [], b => by cases b <;> simp [Value.beqList]
  | x :: xs, b => by
      cases b with
      | nil => simp [Value.beqList]
      | cons y ys =>
        simp [Value.beqList, Value.beq_iff x y, Value.beqList_iff xs ys]
theorem Value.beqKvs_iff : ∀ a b : List (List Char × Value), Value.beqKvs a b = true ↔ a = b
  | [], b => by cases b <;> simp [Value.beqKvs]
  | (k1, v1) :: xs, b => by
      cases b with
      | nil => simp [Value.beqKvs]
      | cons y ys =>
        obtain ⟨k2, v2⟩ := y
        simp [Value.beqKvs, Value.beq_iff v1 v2, Value.beqKvs_iff xs ys, Prod.ext_iff]
end

instance : DecidableEq Value := fun a b => decidable_of_iff _ (Value.beq_iff a b)

/-- Python `isinstance(v, int)`: true for integers and booleans. -/
def pyIsInt : Value → Bool
  | .int _ => true
  | .bool _ => true
  | _ => false

/-- Python `int(v)` on a value passing `pyIsInt` (booleans count as 0/1). -/
def pyAsInt : Value → Int
  | .int n => n
  | .bool b => if b then 1 else 0
  | _ => 0

/-- Python truthiness test on the modelled values. -/
def pyFalsy : Value → Bool
  | .null => true
  | .bool b => !b
  | .int n => n == 0
  | .str s => s.isEmpty
  | .arr xs => xs.isEmpty
  | .obj kvs => kvs.isEmpty

/-- Python `dict` lookup over an insertion-ordered association list. -/
def pyDictGet {α β : Type} [BEq α] (m : List (α × β)) (k : α) : Option β :=
  (m.find? (fun e => e.1 == k)).map (·.2)

/-- Python `dict` store: update the existing entry in place, else append. -/
def pyDictSet {α β : Type} [BEq α] (m : List (α × β)) (k : α) (v : β) : List (α × β) :=
  if (m.find? (fun e => e.1 == k)).isSome then
    m.map (fun e => if e.1 == k then (k, v) else e)
  else
    m ++ [(k, v)]

/-- A Python dict with string keys and decoded values (one event record, one
day node, and so on). -/
abbrev Row := List (List Char × Value)

/-- Field read `row.get(k)` (absent key gives Python `None` at call sites that
use the one-argument form; here the caller distinguishes). -/
def dictGet (r : Row) (k : List Char) : Option Value :=
  pyDictGet r k

/-- Field write `row[k] = v`. -/
def dictSet (r : Row) (k : List Char) (v : Value) : Row :=
  pyDictSet r k v

/-! ## Literal Locator: `extract_object_literal` -/

/-- Python `str.find(pat)`: index of the first occurrence, if any. -/
def strFind (hay pat : List Char) : Option Nat :=
  (List.range (hay.length + 1)).find? (fun i => pat.isPrefixOf (hay.drop i))

/-- Python `str.find(c, i)`: index of the first occurrence of character `c`
at or after position `i`, if any. -/
def charFindFrom (hay : List Char) (c : Char) (i : Nat) : Option Nat :=
  ((hay.drop i).findIdx? (· == c)).map (i + ·)

/-- Failure kinds of `extract_object_literal` (the three `RuntimeError`s of
the source, in order). -/
inductive ExtractErr where
  | markerNotFound
  | objectStartNotFound
  | unbalanced
deriving DecidableEq, Repr

/-- Brace-counting scan of `extract_object_literal`, from the opening brace:
quote-aware (single or double quotes, backslash escapes), depth up on an
unquoted `{`, down on an unquoted `}`; the span is returned when depth hits
zero, and exhausting the input raises the unbalanced-braces error. -/
def extractScan (acc : List Char) (inStr esc : Bool) (qc : Char) (depth : Int) :
    List Char → Except ExtractErr (List Char)
  | [] => .error .unbalanced
  | ch :: rest =>
    if inStr then
      let esc' := if esc then false else ch == '\\'
      let inStr' := if esc then true else if ch == '\\' then true else !(ch == qc)
      extractScan (ch :: acc) inStr' esc' qc depth rest
    else if ch == '\'' || ch == '"' then
      extractScan (ch :: acc) true false ch depth rest
    else if ch == '{' then
      extractScan (ch :: acc) false esc qc (depth + 1) rest
    else if ch == '}' then
      if depth - 1 == 0 then .ok (ch :: acc).reverse
      else extractScan (ch :: acc) false esc qc (depth - 1) rest
    else
      extractScan (ch :: acc) false esc qc depth rest

/-- The source's `extract_object_literal(html, marker)`: find the marker, find
the first `{` from the marker's position on, then brace-count to the matching
`}`. -/
def extract_object_literal (html marker : List Char) : Except ExtractErr (List Char) :=
  match strFind html marker with
  | none => .error .markerNotFound
  | some i =>
    match charFindFrom html '{' i with
    | none => .error .objectStartNotFound
    | some j => extractScan [] false false ' ' 0 (html.drop j)

/-- Index of the matching close brace, following the spec's §4.2 description:
a signed depth counter over the quote-aware scan, counting only braces outside
quoted strings; `some n` means the scan returns to depth zero at offset `n`
from the opening brace, `none` means the text ends first. -/
def specCloseIdx : List Char → Bool → Bool → Char → Int → Option Nat
  | [], _, _, _, _ => none
  | ch :: rest, inStr, esc, qc, depth =>
    if inStr then
      let esc' := if esc then false else ch == '\\'
      let inStr' := if esc then true else if ch == '\\' then true else !(ch == qc)
      (specCloseIdx rest inStr' esc' qc depth).map (· + 1)
    else if ch == '\'' || ch == '"' then
      (specCloseIdx rest true false ch depth).map (· + 1)
    else if ch == '{' then
      (specCloseIdx rest false esc qc (depth + 1)).map (· + 1)
    else if ch == '}' then
      if depth - 1 == 0 then some 0
      else (specCloseIdx rest false esc qc (depth - 1)).map (· + 1)
    else
      (specCloseIdx rest false esc qc depth).map (· + 1)

/-- Locator as the spec words it: first occurrence of the marker, first `{`
at or after the marker's end, then the span up to the matching `}` inclusive,
matching determined by the quote-aware depth counter. -/
def specLocate (html marker : List Char) : Option (List Char) :=
  match strFind html marker with
  | none => none
  | some i =>
    match charFindFrom html '{' (i + marker.length) with
    | none => none
    | some j =>
      match specCloseIdx (html.drop j) false false ' ' 0 with
      | none => none
      | some n => some ((html.drop j).take (n + 1))

theorem extractScan_ok_of_close : ∀ (chars acc : List Char) (inStr esc : Bool) (qc : Char)
    (depth : Int) (n : Nat),
    specCloseIdx chars inStr esc qc depth = some n →
    extractScan acc inStr esc qc depth chars = .ok (acc.reverse ++ chars.take (n + 1))
  | [], _, _, _, _, _, _, h => by simp [specCloseIdx] at h
  | ch :: rest, acc, inStr, esc, qc, depth, n, h => by
    simp only [specCloseIdx] at h
    simp only [extractScan]
    split_ifs at h ⊢ with h1 h2 h3 h4 h5
    all_goals
      first
      | (rw [Option.map_eq_some'] at h
         obtain ⟨m, hm, hn⟩ := h
         subst hn
         rw [extractScan_ok_of_close rest _ _ _ _ _ m hm]
         simp)
      | (obtain rfl : (0 : Nat) = n := by simpa using h
         simp)

theorem extractScan_err_of_close_none : ∀ (chars acc : List Char) (inStr esc : Bool) (qc : Char)
    (depth : Int),
    specCloseIdx chars inStr esc qc depth = none →
    extractScan acc inStr esc qc depth chars = .error .unbalanced
  | [], _, _, _, _, _, _ => by simp [specCloseIdx, extractScan]
  | ch :: rest, acc, inStr, esc, qc, depth, h => by
    simp only [specCloseIdx] at h
    simp only [extractScan]
    split_ifs at h ⊢ with h1 h2 h3 h4 h5
    all_goals simp only [Option.map_eq_none'] at h <;>
      first
      | exact extractScan_err_of_close_none rest _ _ _ _ _ h
      | simp at h

theorem strFind_prefixOf {html marker : List Char} {i : Nat}
    (h : strFind html marker = some i) : marker.isPrefixOf (html.drop i) := by
  have := List.find?_some h
  simpa using this

theorem charFindFrom_skip_marker {html marker : List Char} {i : Nat}
    (hpre : marker.isPrefixOf (html.drop i)) (hb : '{' ∉ marker) :
    charFindFrom html '{' i = charFindFrom html '{' (i + marker.length) := by
  have hpre' : marker <+: html.drop i := List.isPrefixOf_iff_prefix.mp hpre
  obtain ⟨t, ht⟩ := hpre'
  have hdrop : html.drop (i + marker.length) = t := by
    rw [← List.drop_drop, ← ht, List.drop_left]
  have hnone : marker.findIdx? (· == '{') = none := by
    rw [List.findIdx?_eq_none_iff]
    intro x hx
    simp only [beq_eq_false_iff_ne, ne_eq]
    rintro rfl
    exact hb hx
  unfold charFindFrom
  rw [← ht, hdrop, List.findIdx?_append, hnone]
  cases hfi : t.findIdx? (· == '{') with
  | none => simp
  | some k =>
    simp only [Option.none_or, Option.map_map, Option.map_some', Function.comp_apply,
      Option.some_inj]
    omega

/-- C3: with the marker present and the marker itself brace-free (true of
this pipeline's fixed marker), `extract_object_literal` returns exactly the
span the spec describes: from the first `{` at or after the marker's end to
the matching `}` under the quote-aware depth counter. -/
theorem extract_matches_specLocate (html marker span : List Char)
    (hb : '{' ∉ marker) (h : specLocate html marker = some span) :
    extract_object_literal html marker = .ok span := by
  unfold specLocate at h
  unfold extract_object_literal
  cases hf : strFind html marker with
  | none => rw [hf] at h; simp at h
  | some i =>
    rw [hf] at h
    dsimp only at h ⊢
    have hskip := charFindFrom_skip_marker (strFind_prefixOf hf) hb
    rw [hskip]
    cases hcf : charFindFrom html '{' (i + marker.length) with
    | none => rw [hcf] at h; simp at h
    | some j =>
      rw [hcf] at h
      dsimp only at h ⊢
      cases hc : specCloseIdx (html.drop j) false false ' ' 0 with
      | none => rw [hc] at h; simp at h
      | some n =>
        rw [hc] at h
        dsimp only at h
        simp only [Option.some_inj] at h
        rw [extractScan_ok_of_close _ _ _ _ _ _ _ hc]
        simp [h]

/-- C3: Locator span correctness — for every document containing the marker
(any marker that itself contains no `{`, as this pipeline's fixed marker does
not), `extract_object_literal` returns the substring starting at the first `{`
at or after the marker's end and ending at the matching `}` inclusive, where
matching is determined by a depth counter that counts only braces outside
quoted strings. -/
theorem claim_C3 (html marker span : List Char)
    (hb : '{' ∉ marker) (h : specLocate html marker = some span) :
    extract_object_literal html marker = .ok span :=
  extract_matches_specLocate html marker span hb h

/-- Marker of the claim's brace-in-string example. -/
def exC3marker : List Char := "marker =".toList

/-- The claim's example document text: `marker = {"a": "}", "b": 1}`. -/
def exC3html : List Char :=
  "marker = ".toList ++ '{' :: "\"a\": \"".toList ++ '}' :: "\", \"b\": 1".toList ++ ['}']

/-- The full-object span of the example, ending at the true final brace. -/
def exC3span : List Char :=
  '{' :: "\"a\": \"".toList ++ '}' :: "\", \"b\": 1".toList ++ ['}']

/-- Witness for C3 at the claim's own example: the extracted span is the full
object, not truncated at the `}` inside the string. -/
theorem claim_C3_witness :
    ('{' ∉ exC3marker) ∧ specLocate exC3html exC3marker = some exC3span ∧
    extract_object_literal exC3html exC3marker = .ok exC3span :=
  ⟨by decide, by decide, claim_C3 _ _ _ (by decide) (by decide)⟩

/-! ## Consolidator: `merge_events` and `sort_events_desc` -/

/-- Field name `event_id`. -/
def keyEventId : List Char := "event_id".toList

/-- Field name `dateline_epoch`. -/
def keyEpoch : List Char := "dateline_epoch".toList

/-- Field name `actual`. -/
def keyActual : List Char := "actual".toList

/-- Identity key of a record. -/
abbrev EventKey := Int × Int

/-- The source's `key_of(row)` inside `merge_events`: the `(event_id,
dateline_epoch)` pair when both pass `isinstance(_, int)` (booleans included,
entering the dict key as 0/1, exactly as Python hashes them). -/
def key_of (row : Row) : Option EventKey :=
  match dictGet row keyEventId, dictGet row keyEpoch with
  | some ev, some ep =>
    if pyIsInt ev && pyIsInt ep then some (pyAsInt ev, pyAsInt ep) else none
  | _, _ => none

/-- Python's `value not in (None, "")`: non-blank means neither `None` nor the
empty string.  (A whitespace-only string is non-blank here.) -/
def pyNotBlank (v : Value) : Bool :=
  !(v == Value.null) && !(v == Value.str [])

/-- Field loop of the merge body: `for field, value in row.items()`, skipping
`actual`, overwriting with every non-blank value. -/
def foldFields (acc : Row) : Row → Row
  | [] => acc
  | kv :: rest =>
    if kv.1 == keyActual then foldFields acc rest
    else if pyNotBlank kv.2 then foldFields (dictSet acc kv.1 kv.2) rest
    else foldFields acc rest

/-- Merge body of the source for a matched key: copy the stored record,
overwrite `actual` first when the incoming value is non-blank, then overwrite
every other incoming field with a non-blank value, in insertion order. -/
def mergeRow (old new : Row) : Row :=
  let r1 :=
    match dictGet new keyActual with
    | some v => if pyNotBlank v then dictSet old keyActual v else old
    | none => old
  foldFields r1 new

/-- First loop of `merge_events`: index the existing store by key, dropping
rows without a usable key. -/
def mergeExist (m : List (EventKey × Row)) : List Row → List (EventKey × Row)
  | [] => m
  | row :: rest =>
    match key_of row with
    | some k => mergeExist (pyDictSet m k row) rest
    | none => mergeExist m rest

/-- Second loop of `merge_events`: fold the incoming records in — keyless
rows skipped, new keys appended, matched keys merged via `mergeRow`. -/
def mergeIncoming (m : List (EventKey × Row)) : List Row → List (EventKey × Row)
  | [] => m
  | row :: rest =>
    match key_of row with
    | none => mergeIncoming m rest
    | some k =>
      match pyDictGet m k with
      | none => mergeIncoming (pyDictSet m k row) rest
      | some old => mergeIncoming (pyDictSet m k (mergeRow old row)) rest

/-- The source's `merge_events(existing, incoming)`: both loops, then the
dict's values in insertion order. -/
def merge_events (existing incoming : List Row) : List Row :=
  (mergeIncoming (mergeExist [] existing) incoming).map (·.2)

/-- Sort component of `sort_events_desc`: the field's integer value
(`int(x)` of a value passing `isinstance(x, int)`, booleans as 0/1), else -1. -/
def sortIntVal (row : Row) (k : List Char) : Int :=
  match dictGet row k with
  | some v => if pyIsInt v then pyAsInt v else -1
  | none => -1

/-- Python's ascending sort key `(-epoch_val, -event_val)`. -/
def sortKey (row : Row) : Int × Int :=
  (-(sortIntVal row keyEpoch), -(sortIntVal row keyEventId))

/-- Lexicographic order on integer pairs (Python tuple comparison). -/
def pairLe (p q : Int × Int) : Prop :=
  p.1 < q.1 ∨ (p.1 = q.1 ∧ p.2 ≤ q.2)

instance : DecidableRel pairLe := fun p q => by unfold pairLe; infer_instance

/-- Row comparison used by `sort_events_desc`. -/
def rowLe (a b : Row) : Prop := pairLe (sortKey a) (sortKey b)

instance : DecidableRel rowLe := fun a b => by unfold rowLe; infer_instance

instance : IsTotal Row rowLe :=
  ⟨by intro a b; unfold rowLe pairLe; omega⟩

instance : IsTrans Row rowLe :=
  ⟨by intro a b c hab hbc; unfold rowLe pairLe at *; omega⟩

/-- The source's `sort_events_desc`: Python's `sorted` is a stable sort by
the ascending key `(-epoch, -id)`; a stable sort over a total preorder is
extensionally unique, and the structural insertion sort below is stable, so
it computes the same list. -/
def sort_events_desc (rows : List Row) : List Row :=
  List.insertionSort rowLe rows

/-- Consolidator step of the pipeline's main: merge then re-sort. -/
def consolidate (existing incoming : List Row) : List Row :=
  sort_events_desc (merge_events existing incoming)

/-! ### Dictionary semantics lemmas -/

section DictLemmas

variable {α β : Type} [BEq α] [LawfulBEq α]

theorem pyDictGet_set_self (m : List (α × β)) (k : α) (v : β) :
    pyDictGet (pyDictSet m k v) k = some v := by
  unfold pyDictSet
  split_ifs with hfind
  · induction m with
    | nil => simp at hfind
    | cons x xs ih =>
      by_cases hx : x.1 == k
      · simp [pyDictGet, List.find?_cons_of_pos _ (show (fun (e : α × β) => e.1 == k) x = true from hx)]
        simp [hx]
      · have hfind' : (xs.find? (fun e => e.1 == k)).isSome := by
          rw [List.find?_cons_of_neg _ (by simpa using hx)] at hfind
          exact hfind
        have := ih hfind'
        simp only [pyDictGet, List.map_cons] at this ⊢
        rw [if_neg (by simpa using hx), List.find?_cons_of_neg _ (by simpa using hx)]
        exact this
  · have hnone : m.find? (fun e => e.1 == k) = none := by
      cases h : m.find? (fun e => e.1 == k) with
      | none => rfl
      | some e => rw [h] at hfind; simp at hfind
    unfold pyDictGet
    rw [List.find?_append, hnone]
    simp

theorem pyDictGet_set_ne (m : List (α × β)) (k k' : α) (v : β) (hne : ¬(k' == k)) :
    pyDictGet (pyDictSet m k v) k' = pyDictGet m k' := by
  unfold pyDictSet
  split_ifs with hfind
  · induction m with
    | nil => simp
    | cons x xs ih =>
      by_cases hx : x.1 == k
      · have hx' : x.1 = k := by simpa using hx
        have h1 : ¬((k, v).1 == k') := by
          simp only [beq_iff_eq] at hne ⊢
          intro h; exact hne h.symm
        have h2 : ¬(x.1 == k') := by
          rw [hx']
          simp only [beq_iff_eq] at hne ⊢
          intro h; exact hne h.symm
        simp only [pyDictGet, List.map_cons, if_pos hx]
        rw [List.find?_cons_of_neg _ (by simpa using h1),
            List.find?_cons_of_neg _ (by simpa using h2)]
        by_cases hrest : (xs.find? (fun e => e.1 == k)).isSome
        · exact ih hrest
        · have hnone : xs.find? (fun e => e.1 == k) = none := by
            cases h : xs.find? (fun e => e.1 == k) with
            | none => rfl
            | some e => rw [h] at hrest; simp at hrest
          have hid : xs.map (fun e => if e.1 == k then (k, v) else e) = xs := by
            rw [show xs.map (fun e => if e.1 == k then (k, v) else e) = xs.map id from ?_,
               List.map_id]
            apply List.map_congr_left
            intro e he
            rw [List.find?_eq_none] at hnone
            have hek := hnone e he
            simp only [Bool.not_eq_true] at hek
            simp [hek]
          rw [hid]
      · simp only [pyDictGet, List.map_cons, if_neg hx]
        by_cases hk' : x.1 == k'
        · rw [List.find?_cons_of_pos _ (by simpa using hk'),
              List.find?_cons_of_pos _ (by simpa using hk')]
        · rw [List.find?_cons_of_neg _ (by simpa using hk'),
              List.find?_cons_of_neg _ (by simpa using hk')]
          have hfind' : (xs.find? (fun e => e.1 == k)).isSome := by
            rw [List.find?_cons_of_neg _ (by simpa using hx)] at hfind
            exact hfind
          exact ih hfind'
  · unfold pyDictGet
    rw [List.find?_append]
    have h1 : ¬((k, v).1 == k') := by
      simp only [beq_iff_eq] at hne ⊢
      intro h; exact hne h.symm
    have : List.find? (fun e => e.1 == k') [(k, v)] = none := by
      simp only [List.find?]
      simp only [Bool.not_eq_true] at h1 ⊢
      cases h : ((k, v).1 == k') with
      | false => rfl
      | true => rw [h] at h1; simp at h1
    rw [this]
    cases List.find? (fun e => e.1 == k') m <;> simp

theorem pyDictSet_mem (m : List (α × β)) (k : α) (v : β) (e : α × β)
    (he : e ∈ pyDictSet m k v) : e = (k, v) ∨ e ∈ m := by
  unfold pyDictSet at he
  split_ifs at he with hfind
  · rw [List.mem_map] at he
    obtain ⟨x, hx, hfx⟩ := he
    by_cases hxk : x.1 == k
    · left; rw [← hfx, if_pos hxk]
    · right; rw [← hfx, if_neg hxk]; exact hx
  · rw [List.mem_append] at he
    rcases he with h | h
    · right; exact h
    · left; simpa using h

theorem pyDictSet_keys (m : List (α × β)) (k : α) (v : β) :
    (pyDictSet m k v).map (·.1) = m.map (·.1) ∨
    ((pyDictSet m k v).map (·.1) = m.map (·.1) ++ [k] ∧ k ∉ m.map (·.1)) := by
  unfold pyDictSet
  split_ifs with hfind
  · left
    rw [List.map_map]
    apply List.map_congr_left
    intro e _
    by_cases he : e.1 == k
    · have : e.1 = k := by simpa using he
      simp [he, this, Function.comp]
    · simp [he, Function.comp]
  · right
    constructor
    · simp
    · have hnone : m.find? (fun e => e.1 == k) = none := by
        cases h : m.find? (fun e => e.1 == k) with
        | none => rfl
        | some e => rw [h] at hfind; simp at hfind
      rw [List.find?_eq_none] at hnone
      rw [List.mem_map]
      rintro ⟨e, he, rfl⟩
      exact absurd (by simp) (hnone e he)

theorem pyDictGet_mem (m : List (α × β)) (k : α) (r : β)
    (h : pyDictGet m k = some r) : (k, r) ∈ m := by
  unfold pyDictGet at h
  cases hf : m.find? (fun e => e.1 == k) with
  | none => rw [hf] at h; simp at h
  | some e =>
    rw [hf] at h
    simp only [Option.map_some', Option.some_inj] at h
    have hmem := List.mem_of_find?_eq_some hf
    have hpred := List.find?_some hf
    have : e.1 = k := by simpa using hpred
    have : e = (k, r) := by
      cases e; simp_all
    rw [← this]; exact hmem

theorem pyDictGet_eq_none {α β : Type} [BEq α] [LawfulBEq α] {m : List (α × β)} {k : α} :
    pyDictGet m k = none ↔ k ∉ m.map (·.1) := by
  unfold pyDictGet
  rw [Option.map_eq_none', List.find?_eq_none]
  constructor
  · intro h hk
    rw [List.mem_map] at hk
    obtain ⟨e, he, hek⟩ := hk
    exact absurd (by simp [hek]) (h e he)
  · intro h e he
    simp only [Bool.not_eq_true, beq_eq_false_iff_ne, ne_eq]
    intro hek
    exact h (List.mem_map.mpr ⟨e, he, hek⟩)

end DictLemmas

/-! ### Per-field characterization of the merge body (C4) -/

/-- Reference per-field merge outcome: a present, non-blank incoming value
wins; an absent or blank incoming field keeps the stored value. -/
def mergeFieldSpec (old new : Row) (f : List Char) : Option Value :=
  match dictGet new f with
  | some v => if pyNotBlank v then some v else dictGet old f
  | none => dictGet old f

theorem foldFields_get_not_mem (items : Row) (acc : Row) (f : List Char)
    (hf : f ∉ items.map (·.1)) :
    dictGet (foldFields acc items) f = dictGet acc f := by
  induction items generalizing acc with
  | nil => rfl
  | cons kv rest ih =>
    have hne : f ≠ kv.1 := by
      intro h
      exact hf (by rw [List.map_cons, h]; exact List.mem_cons_self _ _)
    have hrest : f ∉ rest.map (·.1) := by
      intro h
      exact hf (by rw [List.map_cons]; exact List.mem_cons_of_mem _ h)
    simp only [foldFields]
    split_ifs with h1 h2
    · exact ih _ hrest
    · rw [ih _ hrest]
      exact pyDictGet_set_ne _ _ _ _ (by simpa using hne)
    · exact ih _ hrest

theorem foldFields_get_actual (items : Row) (acc : Row) :
    dictGet (foldFields acc items) keyActual = dictGet acc keyActual := by
  induction items generalizing acc with
  | nil => rfl
  | cons kv rest ih =>
    simp only [foldFields]
    split_ifs with h1 h2
    · exact ih _
    · rw [ih _]
      refine pyDictGet_set_ne _ _ _ _ ?_
      simp only [beq_iff_eq] at h1 ⊢
      intro h; exact h1 h.symm
    · exact ih _

theorem foldFields_get_mem (items : Row) (acc : Row) (f : List Char) (v : Value)
    (hnd : (items.map (·.1)).Nodup) (hmem : (f, v) ∈ items) (hact : f ≠ keyActual) :
    dictGet (foldFields acc items) f =
      if pyNotBlank v then some v else dictGet acc f := by
  induction items generalizing acc with
  | nil => simp at hmem
  | cons kv rest ih =>
    simp only [List.map_cons, List.nodup_cons] at hnd
    obtain ⟨hkv, hndr⟩ := hnd
    rcases List.mem_cons.mp hmem with hhd | htl
    · -- the head is the (f, v) entry; f does not recur in the tail
      subst hhd
      have hfr : f ∉ rest.map (·.1) := hkv
      simp only [foldFields]
      rw [if_neg (by simpa using hact)]
      by_cases hb : pyNotBlank v
      · rw [if_pos hb, foldFields_get_not_mem rest _ f hfr]
        simp [hb, dictGet, dictSet, pyDictGet_set_self]
      · rw [if_neg hb, foldFields_get_not_mem rest _ f hfr]
        simp [hb]
    · -- the entry lives in the tail; the head's key differs from f
      have hkf : kv.1 ≠ f := by
        intro h
        exact hkv (h ▸ List.mem_map.mpr ⟨(f, v), htl, rfl⟩)
      simp only [foldFields]
      by_cases h1 : (kv.1 == keyActual) = true
      · rw [if_pos h1]
        exact ih acc hndr htl
      · rw [if_neg h1]
        by_cases h2 : pyNotBlank kv.2 = true
        · rw [if_pos h2, ih _ hndr htl]
          by_cases hb : pyNotBlank v
          · simp [hb]
          · simp only [hb, Bool.false_eq_true, if_false]
            exact pyDictGet_set_ne _ _ _ _ (by simpa using fun h => hkf h.symm)
        · rw [if_neg h2]
          exact ih acc hndr htl

/-- C4's per-field policy holds of `mergeRow` with non-blank meaning
"neither null nor the empty string". -/
theorem mergeRow_get (old new : Row) (f : List Char)
    (hnd : (new.map (·.1)).Nodup) :
    dictGet (mergeRow old new) f = mergeFieldSpec old new f := by
  unfold mergeRow mergeFieldSpec
  by_cases hact : f = keyActual
  · rw [hact, foldFields_get_actual]
    cases hv : dictGet new keyActual with
    | none => simp
    | some v =>
      by_cases hb : pyNotBlank v
      · simp [hb, dictGet, dictSet, pyDictGet_set_self]
      · simp [hb]
  · cases hv : dictGet new f with
    | none =>
      have hfnew : f ∉ new.map (·.1) := pyDictGet_eq_none.mp hv
      rw [foldFields_get_not_mem _ _ _ hfnew]
      cases hva : dictGet new keyActual with
      | none => simp
      | some va =>
        by_cases hb : pyNotBlank va
        · simp only [hva, hb, if_pos]
          exact pyDictGet_set_ne _ _ _ _ (by simpa using hact)
        · simp [hva, hb]
    | some v =>
      have hmem : (f, v) ∈ new := pyDictGet_mem _ _ _ hv
      rw [foldFields_get_mem _ _ _ _ hnd hmem hact]
      by_cases hb : pyNotBlank v
      · simp [hb]
      · simp only [hb, Bool.false_eq_true, if_false]
        cases hva : dictGet new keyActual with
        | none => simp
        | some va =>
          by_cases hba : pyNotBlank va
          · simp only [hva, hba, if_pos]
            exact pyDictGet_set_ne _ _ _ _ (by simpa using hact)
          · simp [hva, hba]

/-- C4 (amended): last-non-blank-wins per field, where blank means exactly
Python `None` or the empty string — a whitespace-only string is non-blank and
does overwrite.  For an existing record and an incoming record sharing the
identity key, the Consolidator's merged record takes, for each field present
in the incoming record, the incoming value exactly when it is non-blank, and
keeps the existing value when the field is absent or blank. -/
theorem claim_C4 (old new : Row) (k : EventKey)
    (hok : key_of old = some k) (hnk : key_of new = some k)
    (hnd : (new.map (·.1)).Nodup) :
    merge_events [old] [new] = [mergeRow old new] ∧
    ∀ f, dictGet (mergeRow old new) f = mergeFieldSpec old new f := by
  constructor
  · have h2 : pyDictGet [(k, old)] k = some old := by
      simp [pyDictGet, List.find?_cons]
    have h3 : pyDictSet [(k, old)] k (mergeRow old new) = [(k, mergeRow old new)] := by
      simp [pyDictSet, List.find?_cons]
    have e1 : mergeExist [] [old] = [(k, old)] := by
      simp only [mergeExist, hok]
      rfl
    have e2 : mergeIncoming [(k, old)] [new] = [(k, mergeRow old new)] := by
      simp only [mergeIncoming, hnk, h2, h3]
    unfold merge_events
    rw [e1, e2]
    rfl
  · intro f
    exact mergeRow_get old new f hnd

/-- Existing record of the C4 counterexample. -/
def exC4old : Row :=
  [(keyEventId, .int 5), (keyEpoch, .int 10), ("forecast".toList, .str ['x'])]

/-- Incoming record of the C4 counterexample, its forecast a single space. -/
def exC4new : Row :=
  [(keyEventId, .int 5), (keyEpoch, .int 10), ("forecast".toList, .str [' '])]

/-- C4 counterexample: the claim says a whitespace-only incoming string is
blank and never erases the stored value, but the code's test is only
`value not in (None, "")`, so the single-space forecast overwrites `"x"`. -/
theorem claim_C4_cex :
    merge_events [exC4old] [exC4new] = [mergeRow exC4old exC4new] ∧
    dictGet (mergeRow exC4old exC4new) "forecast".toList = some (.str [' ']) ∧
    ¬ dictGet (mergeRow exC4old exC4new) "forecast".toList = some (.str ['x']) :=
  ⟨by decide, by decide, by decide⟩

/-- Existing record for the C4 witness (the spec's merge-monotonicity row). -/
def wexC4old : Row :=
  [(keyEventId, .int 5), (keyEpoch, .int 10), (keyActual, .null),
   ("forecast".toList, .str "1.0".toList)]

/-- Incoming record for the C4 witness. -/
def wexC4new : Row :=
  [(keyEventId, .int 5), (keyEpoch, .int 10), (keyActual, .str "1.2".toList),
   ("forecast".toList, .str "1.1".toList)]

/-- Witness for C4 at the spec's own merge-monotonicity example. -/
theorem claim_C4_witness :
    merge_events [wexC4old] [wexC4new] = [mergeRow wexC4old wexC4new] ∧
    dictGet (mergeRow wexC4old wexC4new) keyActual =
      mergeFieldSpec wexC4old wexC4new keyActual :=
  ⟨(claim_C4 wexC4old wexC4new (5, 10) (by decide) (by decide) (by decide)).1,
   (claim_C4 wexC4old wexC4new (5, 10) (by decide) (by decide) (by decide)).2 keyActual⟩

/-! ### Store invariants of the merge (C9) -/

/-- Every entry of the merge dict carries its own identity key. -/
def mapKeyConsistent (m : List (EventKey × Row)) : Prop :=
  ∀ e ∈ m, key_of e.2 = some e.1

theorem key_of_eq_some {row : Row} {k : EventKey} (h : key_of row = some k) :
    ∃ ev ep, dictGet row keyEventId = some ev ∧ dictGet row keyEpoch = some ep ∧
      pyIsInt ev = true ∧ pyIsInt ep = true ∧ pyAsInt ev = k.1 ∧ pyAsInt ep = k.2 := by
  unfold key_of at h
  cases hev : dictGet row keyEventId with
  | none => rw [hev] at h; simp at h
  | some ev =>
    cases hep : dictGet row keyEpoch with
    | none => rw [hev, hep] at h; simp at h
    | some ep =>
      rw [hev, hep] at h
      dsimp only at h
      by_cases hii : (pyIsInt ev && pyIsInt ep) = true
      · rw [if_pos hii] at h
        simp only [Option.some_inj] at h
        simp only [Bool.and_eq_true] at hii
        exact ⟨ev, ep, rfl, rfl, hii.1, hii.2, by rw [← h], by rw [← h]⟩
      · rw [if_neg hii] at h
        exact absurd h (by simp)

theorem pyNotBlank_of_pyIsInt {v : Value} (h : pyIsInt v = true) : pyNotBlank v = true := by
  cases v <;> simp_all [pyIsInt, pyNotBlank]

/-- The merge body preserves the identity key of the incoming record. -/
theorem mergeRow_key (old new : Row) (k : EventKey)
    (hnk : key_of new = some k) (hnd : (new.map (·.1)).Nodup) :
    key_of (mergeRow old new) = some k := by
  obtain ⟨ev, ep, hev, hep, hiev, hiep, hav, hap⟩ := key_of_eq_some hnk
  have h1 : dictGet (mergeRow old new) keyEventId = some ev := by
    rw [mergeRow_get old new keyEventId hnd]
    unfold mergeFieldSpec
    rw [hev]
    dsimp only
    rw [if_pos (pyNotBlank_of_pyIsInt hiev)]
  have h2 : dictGet (mergeRow old new) keyEpoch = some ep := by
    rw [mergeRow_get old new keyEpoch hnd]
    unfold mergeFieldSpec
    rw [hep]
    dsimp only
    rw [if_pos (pyNotBlank_of_pyIsInt hiep)]
  unfold key_of
  rw [h1, h2]
  dsimp only
  rw [if_pos (by rw [hiev, hiep]; rfl)]
  rw [hav, hap]

theorem pyDictSet_preserves (m : List (EventKey × Row)) (k : EventKey) (r : Row)
    (hm : mapKeyConsistent m) (hmk : (m.map (·.1)).Nodup) (hr : key_of r = some k) :
    mapKeyConsistent (pyDictSet m k r) ∧ ((pyDictSet m k r).map (·.1)).Nodup := by
  constructor
  · intro e he
    rcases pyDictSet_mem m k r e he with h | h
    · rw [h]; exact hr
    · exact hm e h
  · rcases pyDictSet_keys m k r with h | ⟨h, hk⟩
    · rw [h]; exact hmk
    · rw [h, List.nodup_append]
      refine ⟨hmk, List.nodup_singleton k, ?_⟩
      intro x hx hxk
      rw [List.mem_singleton] at hxk
      exact hk (hxk ▸ hx)

theorem mergeExist_invariant : ∀ (existing : List Row) (m : List (EventKey × Row)),
    mapKeyConsistent m → (m.map (·.1)).Nodup →
    mapKeyConsistent (mergeExist m existing) ∧ ((mergeExist m existing).map (·.1)).Nodup
  | [], m, hm, hmk => ⟨hm, hmk⟩
  | row :: rest, m, hm, hmk => by
    cases hr : key_of row with
    | none =>
      simp only [mergeExist, hr]
      exact mergeExist_invariant rest m hm hmk
    | some k =>
      simp only [mergeExist, hr]
      obtain ⟨hm', hmk'⟩ := pyDictSet_preserves m k row hm hmk hr
      exact mergeExist_invariant rest _ hm' hmk'

theorem mergeIncoming_invariant : ∀ (incoming : List Row) (m : List (EventKey × Row)),
    mapKeyConsistent m → (m.map (·.1)).Nodup →
    (∀ r ∈ incoming, (r.map (·.1)).Nodup) →
    mapKeyConsistent (mergeIncoming m incoming) ∧
      ((mergeIncoming m incoming).map (·.1)).Nodup
  | [], m, hm, hmk, _ => ⟨hm, hmk⟩
  | row :: rest, m, hm, hmk, hnd => by
    have hndrest : ∀ r ∈ rest, (r.map (·.1)).Nodup :=
      fun r hr => hnd r (List.mem_cons_of_mem _ hr)
    cases hr : key_of row with
    | none =>
      simp only [mergeIncoming, hr]
      exact mergeIncoming_invariant rest m hm hmk hndrest
    | some k =>
      cases hg : pyDictGet m k with
      | none =>
        simp only [mergeIncoming, hr, hg]
        obtain ⟨hm', hmk'⟩ := pyDictSet_preserves m k row hm hmk hr
        exact mergeIncoming_invariant rest _ hm' hmk' hndrest
      | some old =>
        simp only [mergeIncoming, hr, hg]
        have hkey : key_of (mergeRow old row) = some k :=
          mergeRow_key old row k hr (hnd row (List.mem_cons_self _ _))
        obtain ⟨hm', hmk'⟩ := pyDictSet_preserves m k (mergeRow old row) hm hmk hkey
        exact mergeIncoming_invariant rest _ hm' hmk' hndrest

theorem merge_events_invariant (existing incoming : List Row)
    (hnd : ∀ r ∈ incoming, (r.map (·.1)).Nodup) :
    (∀ r ∈ merge_events existing incoming, ∃ k, key_of r = some k) ∧
    List.Pairwise (fun a b => key_of a ≠ key_of b) (merge_events existing incoming) := by
  obtain ⟨hm0, hmk0⟩ := mergeExist_invariant existing [] (by intro e he; simp at he) (by simp)
  obtain ⟨hm1, hmk1⟩ := mergeIncoming_invariant incoming _ hm0 hmk0 hnd
  set m := mergeIncoming (mergeExist [] existing) incoming with hmdef
  constructor
  · intro r hr
    rw [merge_events, ← hmdef, List.mem_map] at hr
    obtain ⟨e, he, rfl⟩ := hr
    exact ⟨e.1, hm1 e he⟩
  · rw [merge_events, ← hmdef]
    have hpw : List.Pairwise (fun a b : EventKey × Row => a.1 ≠ b.1) m := by
      rw [List.Nodup, List.pairwise_map] at hmk1
      exact hmk1
    have hpw2 : List.Pairwise (fun a b : EventKey × Row => key_of a.2 ≠ key_of b.2) m := by
      refine List.Pairwise.imp_of_mem ?_ hpw
      intro a b ha hb hne
      rw [hm1 a ha, hm1 b hb]
      simp only [ne_eq, Option.some_inj]
      exact hne
    rw [List.pairwise_map]
    exact hpw2

/-- C9 (amended): every record in the output of `merge_events` has `event_id`
and `dateline_epoch` values passing Python's integer test (which admits
booleans, counted as 0/1), the identity keys of the output are pairwise
distinct, and any stored record lacking a usable integer identity pair is
silently dropped by the next merge. -/
theorem claim_C9 (existing incoming : List Row)
    (hnd : ∀ r ∈ incoming, (r.map (·.1)).Nodup) :
    (∀ r ∈ merge_events existing incoming, ∃ ev ep,
        dictGet r keyEventId = some ev ∧ pyIsInt ev = true ∧
        dictGet r keyEpoch = some ep ∧ pyIsInt ep = true) ∧
    List.Pairwise (fun a b => key_of a ≠ key_of b) (merge_events existing incoming) ∧
    ∀ r ∈ existing, key_of r = none → r ∉ merge_events existing incoming := by
  obtain ⟨hkeys, hpw⟩ := merge_events_invariant existing incoming hnd
  refine ⟨?_, hpw, ?_⟩
  · intro r hr
    obtain ⟨k, hk⟩ := hkeys r hr
    obtain ⟨ev, ep, hev, hep, hiev, hiep, _, _⟩ := key_of_eq_some hk
    exact ⟨ev, ep, hev, hiev, hep, hiep⟩
  · intro r _ hnone hr
    obtain ⟨k, hk⟩ := hkeys r hr
    rw [hnone] at hk
    exact Option.noConfusion hk

/-- A record whose `event_id` is the boolean `true` (as a decoded JSON value
can be). -/
def exC9row : Row := [(keyEventId, .bool true), (keyEpoch, .int 0)]

/-- Helper for the counterexamples: is a value an integer proper (booleans
are not integers in the decoded data model)? -/
def isIntValue : Value → Bool
  | .int _ => true
  | _ => false

/-- C9 counterexample: the claim as stated says every output record has an
integer `event_id`, but Python's `isinstance(_, int)` admits booleans, so the
record with `event_id = true` survives the merge with a non-integer id. -/
theorem claim_C9_cex :
    merge_events [] [exC9row] = [exC9row] ∧
    dictGet exC9row keyEventId = some (.bool true) ∧
    isIntValue (.bool true) = false :=
  ⟨by decide, by decide, by decide⟩

/-- Witness for C9 on a small concrete store. -/
theorem claim_C9_witness :
    (∀ r ∈ merge_events [[(keyEventId, .str ['x'])]] [exC9row], ∃ ev ep,
        dictGet r keyEventId = some ev ∧ pyIsInt ev = true ∧
        dictGet r keyEpoch = some ep ∧ pyIsInt ep = true) ∧
    List.Pairwise (fun a b => key_of a ≠ key_of b)
      (merge_events [[(keyEventId, .str ['x'])]] [exC9row]) ∧
    ∀ r ∈ [[(keyEventId, .str ['x'])]], key_of r = none →
      r ∉ merge_events [[(keyEventId, .str ['x'])]] [exC9row] :=
  claim_C9 [[(keyEventId, .str ['x'])]] [exC9row] (by decide)

/-! ### Store ordering (C5) -/

/-- Descending order on the `(epoch, id)` sort values, as the spec words it:
primary key epoch descending, secondary key id descending. -/
def rowDesc (a b : Row) : Prop :=
  sortIntVal b keyEpoch < sortIntVal a keyEpoch ∨
  (sortIntVal b keyEpoch = sortIntVal a keyEpoch ∧
   sortIntVal b keyEventId ≤ sortIntVal a keyEventId)

theorem rowLe_iff_rowDesc (a b : Row) : rowLe a b ↔ rowDesc a b := by
  unfold rowLe pairLe sortKey rowDesc
  omega

theorem sort_events_desc_sorted (rows : List Row) :
    List.Sorted rowDesc (sort_events_desc rows) := by
  have h := List.sorted_insertionSort rowLe rows
  exact h.imp (fun hab => (rowLe_iff_rowDesc _ _).mp hab)

/-- C5 (amended): after every merge the Consolidator's store is sorted with
primary key `dateline_epoch` descending and secondary key `event_id`
descending, the field values read through Python's integer test (booleans as
0/1, anything else as -1); and every record in the store actually carries
values passing that integer test, since the merge drops all others. -/
theorem claim_C5 (existing incoming : List Row)
    (hnd : ∀ r ∈ incoming, (r.map (·.1)).Nodup) :
    List.Sorted rowDesc (consolidate existing incoming) ∧
    ∀ r ∈ consolidate existing incoming, ∃ ev ep,
      dictGet r keyEventId = some ev ∧ pyIsInt ev = true ∧
      dictGet r keyEpoch = some ep ∧ pyIsInt ep = true := by
  constructor
  · exact sort_events_desc_sorted _
  · intro r hr
    have hperm : (consolidate existing incoming).Perm (merge_events existing incoming) :=
      List.perm_insertionSort rowLe _
    have hr' : r ∈ merge_events existing incoming := hperm.mem_iff.mp hr
    obtain ⟨hkeys, _⟩ := merge_events_invariant existing incoming hnd
    obtain ⟨k, hk⟩ := hkeys r hr'
    obtain ⟨ev, ep, hev, hep, hiev, hiep, _, _⟩ := key_of_eq_some hk
    exact ⟨ev, ep, hev, hiev, hep, hiep⟩

/-- Record with boolean `event_id` for the C5 counterexample. -/
def exC5rowTrue : Row := [(keyEventId, .bool true), (keyEpoch, .int 0)]

/-- Record with `event_id` 5. -/
def exC5row5 : Row := [(keyEventId, .int 5), (keyEpoch, .int 0)]

/-- Record with `event_id` -3. -/
def exC5rowNeg : Row := [(keyEventId, .int (-3)), (keyEpoch, .int 0)]

/-- C5 counterexample: the claim says a record whose `event_id` is not an
integer sorts as the lowest possible value and appears last; but the record
with `event_id = true` passes Python's integer test as 1 and sorts between
5 and -3, not last. -/
theorem claim_C5_cex :
    consolidate [] [exC5row5, exC5rowTrue, exC5rowNeg] =
      [exC5row5, exC5rowTrue, exC5rowNeg] ∧
    dictGet exC5rowTrue keyEventId = some (.bool true) ∧
    isIntValue (.bool true) = false ∧
    (consolidate [] [exC5row5, exC5rowTrue, exC5rowNeg]).getLast? = some exC5rowNeg ∧
    exC5rowTrue ≠ exC5rowNeg :=
  ⟨by decide, by decide, by decide, by decide, by decide⟩

/-- Witness for C5 on a small concrete store. -/
theorem claim_C5_witness :
    List.Sorted rowDesc (consolidate [exC5row5] [exC5rowNeg]) ∧
    ∀ r ∈ consolidate [exC5row5] [exC5rowNeg], ∃ ev ep,
      dictGet r keyEventId = some ev ∧ pyIsInt ev = true ∧
      dictGet r keyEpoch = some ep ∧ pyIsInt ep = true :=
  claim_C5 [exC5row5] [exC5rowNeg] (by decide)

/-! ## Strict Decoder

The source hands normalized text to `json.loads`.  The decoder below is
modelled from the spec's §4.4 Strict Decoder (a conformant data-interchange
parser): objects, arrays, strings with standard escapes, integers, `true`,
`false`, `null`, strict about raw control characters in strings, trailing
commas, unquoted keys and single quotes.  Out of the model: floating-point
literals (`1.5`, `NaN`, …) and surrogate `\uXXXX` escapes — the parser
rejects them. -/

/-- JSON whitespace. -/
def jsonWs (c : Char) : Bool :=
  c == ' ' || c == '\t' || c == '\n' || c == '\r'

/-- Value of a hex digit. -/
def hexVal (c : Char) : Option Nat :=
  if '0' ≤ c && c ≤ '9' then some (c.toNat - 48)
  else if 'a' ≤ c && c ≤ 'f' then some (c.toNat - 87)
  else if 'A' ≤ c && c ≤ 'F' then some (c.toNat - 55)
  else none

/-- Parse a JSON string body after the opening quote: content up to the
closing quote, decoding the standard escapes, rejecting raw control
characters and surrogate escapes. -/
def parseStrBody : List Char → Option (List Char × List Char)
  | [] => none
  | c :: rest =>
    if c == '"' then some ([], rest)
    else if c == '\\' then
      match rest with
      | [] => none
      | e :: rest2 =>
        if e == '"' then (parseStrBody rest2).map (fun p => ('"' :: p.1, p.2))
        else if e == '\\' then (parseStrBody rest2).map (fun p => ('\\' :: p.1, p.2))
        else if e == '/' then (parseStrBody rest2).map (fun p => ('/' :: p.1, p.2))
        else if e == 'b' then (parseStrBody rest2).map (fun p => ('\x08' :: p.1, p.2))
        else if e == 'f' then (parseStrBody rest2).map (fun p => ('\x0c' :: p.1, p.2))
        else if e == 'n' then (parseStrBody rest2).map (fun p => ('\n' :: p.1, p.2))
        else if e == 'r' then (parseStrBody rest2).map (fun p => ('\r' :: p.1, p.2))
        else if e == 't' then (parseStrBody rest2).map (fun p => ('\t' :: p.1, p.2))
        else if e == 'u' then
          match rest2 with
          | h1 :: h2 :: h3 :: h4 :: rest3 =>
            match hexVal h1, hexVal h2, hexVal h3, hexVal h4 with
            | some a, some b, some c2, some d =>
              let code := ((a * 16 + b) * 16 + c2) * 16 + d
              if 0xD800 ≤ code && code < 0xE000 then none
              else (parseStrBody rest3).map (fun p => (Char.ofNat code :: p.1, p.2))
            | _, _, _, _ => none
          | _ => none
        else none
    else if c.toNat < 0x20 then none
    else (parseStrBody rest).map (fun p => (c :: p.1, p.2))

/-- Numeric value of a digit character. -/
def digitVal (c : Char) : Nat := c.toNat - 48

/-- Consume a digit run, folding it onto an accumulator. -/
def parseDigits (acc : Nat) : List Char → Nat × List Char
  | [] => (acc, [])
  | c :: rest =>
    if c.isDigit then parseDigits (acc * 10 + digitVal c) rest else (acc, c :: rest)

/-- Parse an unsigned JSON integer part: `0`, or a nonzero digit followed by
a digit run (no leading zeros). -/
def parseUNum : List Char → Option (Nat × List Char)
  | [] => none
  | c :: rest =>
    if c == '0' then some (0, rest)
    else if c.isDigit then some (parseDigits (digitVal c) rest)
    else none

/-- Parse a JSON integer token (optional minus); a following `.`, `e` or `E`
would start a floating-point literal, which is outside the model, and makes
the parse fail. -/
def parseIntTok : List Char → Option (Int × List Char)
  | '-' :: rest =>
    (parseUNum rest).bind fun p =>
      match p.2 with
      | c :: _ => if c == '.' || c == 'e' || c == 'E' then none else some (-(p.1 : Int), p.2)
      | [] => some (-(p.1 : Int), [])
  | s =>
    (parseUNum s).bind fun p =>
      match p.2 with
      | c :: _ => if c == '.' || c == 'e' || c == 'E' then none else some ((p.1 : Int), p.2)
      | [] => some ((p.1 : Int), [])

mutual
/-- Parse one JSON value (fuel-indexed recursion; the entry point supplies
ample fuel). -/
def parseVal : Nat → List Char → Option (Value × List Char)
  | 0, _ => none
  | fuel + 1, s =>
    match s.dropWhile jsonWs with
    | '{' :: rest =>
      match rest.dropWhile jsonWs with
      | '}' :: rest2 => some (Value.obj [], rest2)
      | _ => parseMembers fuel rest []
    | '[' :: rest =>
      match rest.dropWhile jsonWs with
      | ']' :: rest2 => some (Value.arr [], rest2)
      | _ => parseItems fuel rest []
    | '"' :: rest => (parseStrBody rest).map (fun p => (Value.str p.1, p.2))
    | 't' :: 'r' :: 'u' :: 'e' :: rest => some (Value.bool true, rest)
    | 'f' :: 'a' :: 'l' :: 's' :: 'e' :: rest => some (Value.bool false, rest)
    | 'n' :: 'u' :: 'l' :: 'l' :: rest => some (Value.null, rest)
    | s1 => (parseIntTok s1).map (fun p => (Value.int p.1, p.2))
/-- Member loop after `{` when the object is not empty; objects accumulate
with Python's dict semantics (a repeated key keeps its first position and the
last value). -/
def parseMembers : Nat → List Char → List (List Char × Value) →
    Option (Value × List Char)
  | 0, _, _ => none
  | fuel + 1, s, acc =>
    match s.dropWhile jsonWs with
    | '"' :: rest =>
      match parseStrBody rest with
      | none => none
      | some (key, rest2) =>
        match rest2.dropWhile jsonWs with
        | ':' :: rest3 =>
          match parseVal fuel rest3 with
          | none => none
          | some (v, rest4) =>
            match rest4.dropWhile jsonWs with
            | ',' :: rest5 => parseMembers fuel rest5 (pyDictSet acc key v)
            | '}' :: rest5 => some (Value.obj (pyDictSet acc key v), rest5)
            | _ => none
        | _ => none
    | _ => none
/-- Item loop after `[` when the array is not empty. -/
def parseItems : Nat → List Char → List Value → Option (Value × List Char)
  | 0, _, _ => none
  | fuel + 1, s, acc =>
    match parseVal fuel s with
    | none => none
    | some (v, rest) =>
      match rest.dropWhile jsonWs with
      | ',' :: rest2 => parseItems fuel rest2 (acc ++ [v])
      | ']' :: rest2 => some (Value.arr (acc ++ [v]), rest2)
      | _ => none
end

/-- Modelled from the spec: the Strict Decoder (`json.loads` in the source,
outside this repository) — parse one value and require only whitespace after
it. -/
def parseJson (s : List Char) : Option Value :=
  match parseVal (3 * s.length + 9) s with
  | some (v, rest) => if (rest.dropWhile jsonWs).isEmpty then some v else none
  | none => none

/-! ## Record Flattener -/

/-- The source's `load_existing_events`: a missing file, undecodable JSON, or
a non-list payload yield the empty list; list elements that are not objects
are dropped (`[r for r in payload if isinstance(r, dict)]`). -/
def load_existing_events (file : Option (List Char)) : List Row :=
  match file with
  | none => []
  | some text =>
    match parseJson text with
    | none => []
    | some (Value.arr xs) =>
      xs.filterMap (fun x => match x with | Value.obj kvs => some kvs | _ => none)
    | some _ => []

/-- Index of the first `>` before any newline in the remaining text (the
regex dot of `<.*?>` does not match newlines, and the match is non-greedy). -/
def findTagEnd : List Char → Option Nat
  | [] => none
  | c :: rest =>
    if c == '>' then some 0
    else if c == '\n' then none
    else (findTagEnd rest).map (· + 1)

/-- Fuel-indexed scan of `re.sub(r"<.*?>", "", s)`: drop every `<...>` span
whose closing `>` appears before a newline, keep a `<` that never closes.
The fuel is the input length — each step consumes at least one character. -/
def stripTagsGo : Nat → List Char → List Char
  | 0, _ => []
  | _, [] => []
  | fuel + 1, c :: rest =>
    if c == '<' then
      match findTagEnd rest with
      | some n => stripTagsGo fuel (rest.drop (n + 1))
      | none => c :: stripTagsGo fuel rest
    else c :: stripTagsGo fuel rest

/-- The source's `strip_html_tags` (the `s or ""` coercion is applied at the
call sites, where the decoded value is at hand). -/
def strip_html_tags (s : List Char) : List Char :=
  stripTagsGo s.length s

/-- Lowest epoch Python's `datetime.fromtimestamp(_, timezone.utc)` accepts
(0001-01-01T00:00:00 UTC). -/
def EPOCH_MIN : Int := -62135596800

/-- Highest epoch whose Bangkok (+7h) timestamp still falls in year 9999. -/
def EPOCH_MAX : Int := 253402300799 - 25200

/-- Civil date from days since the Unix epoch (standard civil-from-days
computation, as `datetime` performs internally). -/
def civilFromDays (z0 : Int) : Int × Nat × Nat :=
  let z := z0 + 719468
  let era : Int := z.fdiv 146097
  let doe : Nat := (z - era * 146097).toNat
  let yoe : Nat := (doe - doe / 1460 + doe / 36524 - doe / 146096) / 365
  let y : Int := (yoe : Int) + era * 400
  let doy : Nat := doe - (365 * yoe + yoe / 4 - yoe / 100)
  let mp : Nat := (5 * doy + 2) / 153
  let d : Nat := doy - (153 * mp + 2) / 5 + 1
  let m : Nat := if mp < 10 then mp + 3 else mp - 9
  (if m ≤ 2 then y + 1 else y, m, d)

/-- Decimal digits of a natural number (fuel-indexed so that it reduces in
the kernel; the fuel `n + 1` always suffices since `n / 10 < n`). -/
def natDigitsAux : Nat → Nat → List Char
  | 0, _ => []
  | fuel + 1, n =>
    if n < 10 then [Char.ofNat (48 + n)]
    else natDigitsAux fuel (n / 10) ++ [Char.ofNat (48 + n % 10)]

/-- Decimal digits of a natural number. -/
def natDigits (n : Nat) : List Char := natDigitsAux (n + 1) n

/-- Zero-padded decimal rendering. -/
def padNum (width : Nat) (n : Nat) : List Char :=
  List.replicate (width - (natDigits n).length) '0' ++ natDigits n

/-- ISO timestamp of an in-range epoch in Asia/Bangkok (fixed UTC+7, no
daylight saving), as `datetime.fromtimestamp(epoch, utc).astimezone(BKK)
.isoformat()` renders it. -/
def bkkIso (epoch : Int) : List Char :=
  let t := epoch + 7 * 3600
  let days := t.fdiv 86400
  let secs := (t - days * 86400).toNat
  let c := civilFromDays days
  let hh := secs / 3600
  let mm := secs % 3600 / 60
  let ss := secs % 60
  padNum 4 c.1.toNat ++ '-' :: padNum 2 c.2.1 ++ '-' :: padNum 2 c.2.2 ++
    'T' :: padNum 2 hh ++ ':' :: padNum 2 mm ++ ':' :: padNum 2 ss ++ "+07:00".toList

/-- The source's `parse_epoch_to_bkk_iso`: the empty string for values that
are not Python ints, the Bangkok ISO timestamp otherwise; epochs outside the
`datetime` range raise in Python, modelled as failure. -/
def parse_epoch_to_bkk_iso (v : Value) : Except Unit (List Char) :=
  if pyIsInt v then
    let e := pyAsInt v
    if EPOCH_MIN ≤ e ∧ e ≤ EPOCH_MAX then .ok (bkkIso e) else .error ()
  else .ok []

/-- The source's `IMPACT_SCORE` table. -/
def IMPACT_SCORE : List (List Char × Int) :=
  [("high".toList, 3), ("medium".toList, 2), ("low".toList, 1)]

/-- Case-fold of the source: `.lower().strip()` (lower first, then strip). -/
def impactFold (s : List Char) : List Char :=
  pyStrip (s.map pyToLower)

/-- Score lookup `IMPACT_SCORE.get(impact, 0)`. -/
def impactScoreOf (impact : List Char) : Int :=
  (pyDictGet IMPACT_SCORE impact).getD 0

/-- Evaluation of `(x or "").lower().strip()` on the decoded `impactName`
value: falsy values give the empty label, strings fold; a truthy non-string
has no `.lower` and raises, modelled as failure. -/
def impactLabel (v : Value) : Except Unit (List Char) :=
  if pyFalsy v then .ok []
  else match v with
    | .str s => .ok (impactFold s)
    | _ => .error ()

/-- One flattened record, exactly as `rows.append({...})` builds it, in the
source's field order; the impact label is computed before the record (as in
the source), so a bad label fails before a bad epoch. -/
def eventRow (day_label : List Char) (ev : Row) (event_id epoch : Value) :
    Except Unit Row := do
  let impact ← impactLabel ((dictGet ev "impactName".toList).getD .null)
  let dtb ← parse_epoch_to_bkk_iso epoch
  pure [
    ("day_label".toList, .str day_label),
    (keyEventId, event_id),
    (keyEpoch, epoch),
    ("datetime_bkk".toList, .str dtb),
    ("currency".toList, (dictGet ev "currency".toList).getD .null),
    ("country".toList, (dictGet ev "country".toList).getD .null),
    ("impact".toList, .str impact),
    ("impact_score".toList, .int (impactScoreOf impact)),
    ("timeLabel".toList, (dictGet ev "timeLabel".toList).getD .null),
    ("name".toList, (dictGet ev "name".toList).getD .null),
    ("prefixedName".toList, (dictGet ev "prefixedName".toList).getD .null),
    (keyActual, (dictGet ev "actual".toList).getD .null),
    ("forecast".toList, (dictGet ev "forecast".toList).getD .null),
    ("previous".toList, (dictGet ev "previous".toList).getD .null),
    ("revision".toList, (dictGet ev "revision".toList).getD .null),
    ("url".toList, (dictGet ev "url".toList).getD .null),
    ("soloUrl".toList, (dictGet ev "soloUrl".toList).getD .null)]

/-- Python iteration over a `x.get(key, [])` value: lists iterate their
elements; empty dicts and empty strings iterate nothing; a non-empty dict or
string would feed non-dict nodes into `.get` and a scalar is not iterable —
both raise, modelled as failure. -/
def iterNodes : Value → Except Unit (List Value)
  | .arr xs => .ok xs
  | .obj [] => .ok []
  | .str [] => .ok []
  | _ => .error ()

/-- Flattener state: emitted rows and the set of seen identity keys. -/
structure FlatState where
  rows : List Row
  seen : List EventKey
deriving Repr, DecidableEq

/-- Event loop of the source's main for one day: skip events whose id or
dateline fails the Python integer test, skip already-seen identity keys,
append the flattened record otherwise. -/
def flattenEvents (day_label : List Char) : FlatState → List Value → Except Unit FlatState
  | st, [] => .ok st
  | st, ev :: rest =>
    match ev with
    | .obj evr =>
      let event_id := (dictGet evr "id".toList).getD .null
      let epoch := (dictGet evr "dateline".toList).getD .null
      if pyIsInt event_id && pyIsInt epoch then
        let k : EventKey := (pyAsInt event_id, pyAsInt epoch)
        if st.seen.contains k then flattenEvents day_label st rest
        else
          match eventRow day_label evr event_id epoch with
          | .error e => .error e
          | .ok row => flattenEvents day_label ⟨st.rows ++ [row], k :: st.seen⟩ rest
      else flattenEvents day_label st rest
    | _ => .error ()

/-- Day label: `strip_html_tags(day.get("date", ""))` with Python's
`s or ""` coercion; a truthy non-string raises. -/
def dayLabelOf (day : Row) : Except Unit (List Char) :=
  match dictGet day "date".toList with
  | none => .ok (strip_html_tags [])
  | some v =>
    if pyFalsy v then .ok (strip_html_tags [])
    else match v with
      | .str s => .ok (strip_html_tags s)
      | _ => .error ()

/-- Day loop of the source's main. -/
def flattenDays : FlatState → List Value → Except Unit FlatState
  | st, [] => .ok st
  | st, day :: rest =>
    match day with
    | .obj dayr =>
      match dayLabelOf dayr with
      | .error e => .error e
      | .ok label =>
        match iterNodes ((dictGet dayr "events".toList).getD (.arr [])) with
        | .error e => .error e
        | .ok evs =>
          match flattenEvents label st evs with
          | .error e => .error e
          | .ok st' => flattenDays st' rest
    | _ => .error ()

/-- The Record Flattener of the source's main: the normalize-and-dedupe loop
over `data.get("days", [])`. -/
def flatten (data : Value) : Except Unit (List Row) :=
  match data with
  | .obj kvs =>
    match iterNodes ((pyDictGet kvs "days".toList).getD (.arr [])) with
    | .error e => .error e
    | .ok days =>
      match flattenDays ⟨[], []⟩ days with
      | .error e => .error e
      | .ok st => .ok st.rows
  | _ => .error ()

/-! ### Claims C10 (store loading) and C8 (impact scoring) -/

/-- C10: resilience of store loading — a missing file, contents that do not
decode as JSON, or a decoded payload that is not a list all yield the empty
list, and list elements that are not objects are dropped (in order); a
missing or corrupted store silently resets the merge baseline instead of
failing the run. -/
theorem claim_C10 :
    load_existing_events none = [] ∧
    (∀ text, parseJson text = none → load_existing_events (some text) = []) ∧
    (∀ text v, parseJson text = some v → (∀ xs, v ≠ Value.arr xs) →
      load_existing_events (some text) = []) ∧
    (∀ text xs, parseJson text = some (Value.arr xs) →
      load_existing_events (some text) =
        xs.filterMap (fun x => match x with | Value.obj kvs => some kvs | _ => none)) := by
  refine ⟨rfl, ?_, ?_, ?_⟩
  · intro text h
    unfold load_existing_events
    dsimp only
    rw [h]
  · intro text v h hv
    unfold load_existing_events
    dsimp only
    rw [h]
    cases v with
    | arr xs => exact absurd rfl (hv xs)
    | null => rfl
    | bool b => rfl
    | int n => rfl
    | str s => rfl
    | obj kvs => rfl
  · intro text xs h
    unfold load_existing_events
    dsimp only
    rw [h]

/-- Witness for C10: a non-JSON text resets the baseline, and a list with a
non-object element keeps only the object. -/
theorem claim_C10_witness :
    load_existing_events (some "xyz".toList) = [] ∧
    load_existing_events
        (some ('[' :: "1, ".toList ++ '{' :: "\"a\": 2".toList ++ [')', '}', ']'])) = [] ∧
    load_existing_events
        (some ('[' :: "1, ".toList ++ '{' :: "\"a\": 2".toList ++ ['}', ']'])) =
      [[("a".toList, Value.int 2)]] := by
  refine ⟨claim_C10.2.1 _ (by decide), claim_C10.2.1 _ (by decide), ?_⟩
  have h := claim_C10.2.2.2 ('[' :: "1, ".toList ++ '{' :: "\"a\": 2".toList ++ ['}', ']'])
    [Value.int 1, Value.obj [("a".toList, Value.int 2)]] (by decide)
  rw [h]
  decide

/-- C8: impact scoring is an exact case-folded table lookup — score 3 when
the folded label is exactly `high`, 2 for `medium`, 1 for `low`, 0 for
anything else, including absent labels and containing variants like
`high-impact`; and the Flattener's record carries exactly this score. -/
theorem claim_C8 :
    (∀ s : List Char,
      impactScoreOf (impactFold s) =
        if impactFold s = "high".toList then 3
        else if impactFold s = "medium".toList then 2
        else if impactFold s = "low".toList then 1
        else 0) ∧
    (impactLabel Value.null = .ok [] ∧ impactScoreOf [] = 0) ∧
    impactScoreOf (impactFold "high-impact".toList) = 0 ∧
    impactScoreOf (impactFold " High ".toList) = 3 ∧
    (∀ label evr event_id epoch row,
      eventRow label evr event_id epoch = .ok row →
      ∀ s, dictGet evr "impactName".toList = some (Value.str s) →
      dictGet row "impact_score".toList = some (.int (impactScoreOf (impactFold s))) ∨
        (pyFalsy (Value.str s) = true ∧
         dictGet row "impact_score".toList = some (.int (impactScoreOf [])))) := by
  refine ⟨?_, ⟨rfl, rfl⟩, by decide, by decide, ?_⟩
  · intro s
    generalize impactFold s = t
    by_cases h1 : t = "high".toList
    · simp [impactScoreOf, pyDictGet, IMPACT_SCORE, List.find?_cons, h1]
    · by_cases h2 : t = "medium".toList
      · simp [impactScoreOf, pyDictGet, IMPACT_SCORE, List.find?_cons, h1, h2]
      · by_cases h3 : t = "low".toList
        · simp [impactScoreOf, pyDictGet, IMPACT_SCORE, List.find?_cons, h1, h2, h3]
        · have hb1 : ("high".toList == t) = false := by
            rw [beq_eq_false_iff_ne]; exact fun hh => h1 hh.symm
          have hb2 : ("medium".toList == t) = false := by
            rw [beq_eq_false_iff_ne]; exact fun hh => h2 hh.symm
          have hb3 : ("low".toList == t) = false := by
            rw [beq_eq_false_iff_ne]; exact fun hh => h3 hh.symm
          simp only [impactScoreOf, pyDictGet, IMPACT_SCORE, List.find?_cons, List.find?_nil,
            hb1, hb2, hb3, Option.map_none', Option.getD_none]
          rw [if_neg h1, if_neg h2, if_neg h3]
  · intro label evr event_id epoch row h s hs
    unfold eventRow at h
    rw [hs] at h
    simp only [Option.getD_some] at h
    by_cases hf : pyFalsy (Value.str s) = true
    · right
      refine ⟨hf, ?_⟩
      rw [show impactLabel (Value.str s) = .ok [] from by unfold impactLabel; rw [if_pos hf]] at h
      cases hd : parse_epoch_to_bkk_iso epoch with
      | error e => rw [hd] at h; simp [Bind.bind, Except.bind] at h
      | ok dtb =>
        rw [hd] at h
        simp only [Bind.bind, Except.bind, Pure.pure, Except.pure, Except.ok.injEq] at h
        rw [← h]
        rfl
    · left
      have hl : impactLabel (Value.str s) = .ok (impactFold s) := by
        unfold impactLabel
        rw [if_neg hf]
      rw [hl] at h
      cases hd : parse_epoch_to_bkk_iso epoch with
      | error e => rw [hd] at h; simp [Bind.bind, Except.bind] at h
      | ok dtb =>
        rw [hd] at h
        simp only [Bind.bind, Except.bind, Pure.pure, Except.pure, Except.ok.injEq] at h
        rw [← h]
        rfl

/-- Event node for the C8 witness. -/
def wC8ev : Row := [("impactName".toList, Value.str "High".toList)]

/-- The record the Flattener builds for the C8 witness event. -/
def wC8row : Row := (eventRow [] wC8ev (.int 1) (.int 0)).toOption.getD []

/-- Witness for C8: the record of an event labelled `High` carries score 3. -/
theorem claim_C8_witness :
    dictGet wC8row "impact_score".toList = some (.int 3) := by
  have h := claim_C8.2.2.2.2 [] wC8ev (.int 1) (.int 0) wC8row (by decide)
    "High".toList (by decide)
  rcases h with h | ⟨hf, _⟩
  · rw [h]; decide
  · exact absurd hf (by decide)

/-! ### Flattener skip and dedupe (C6) -/

/-- Identity key the flattener reads off an event node (`id`, `dateline`),
through Python's integer test. -/
def eventKeyOf (evr : Row) : Option EventKey :=
  let event_id := (dictGet evr "id".toList).getD .null
  let epoch := (dictGet evr "dateline".toList).getD .null
  if pyIsInt event_id && pyIsInt epoch then
    some (pyAsInt event_id, pyAsInt epoch)
  else none

/-- Event nodes of one day paired with the day node, as the flattener walks
them (non-object nodes make the flattener fail, so they carry no pair). -/
def dayPairs (day : Value) : List (Row × Row) :=
  match day with
  | .obj dayr =>
    (match (dictGet dayr "events".toList).getD (.arr []) with
     | .arr evs => evs.filterMap (fun ev => match ev with
        | .obj evr => some (dayr, evr)
        | _ => none)
     | _ => [])
  | _ => []

/-- All event nodes of the decoded tree in traversal order: days in order,
events in order within each day. -/
def traversal (data : Value) : List (Row × Row) :=
  match data with
  | .obj kvs =>
    match (pyDictGet kvs "days".toList).getD (.arr []) with
    | .arr days => days.flatMap dayPairs
    | _ => []
  | _ => []

/-- A record originates from the first event of the walk that carries its
identity key. -/
def originates (trav : List (Row × Row)) (row : Row) : Prop :=
  ∃ pre post dayr evr k label,
    trav = pre ++ (dayr, evr) :: post ∧
    eventKeyOf evr = some k ∧
    key_of row = some k ∧
    dayLabelOf dayr = .ok label ∧
    eventRow label evr ((dictGet evr "id".toList).getD .null)
      ((dictGet evr "dateline".toList).getD .null) = .ok row ∧
    ∀ p ∈ pre, eventKeyOf p.2 ≠ some k

/-- Loop invariant of the flattener over the walked prefix `trav`. -/
def FlatInv (trav : List (Row × Row)) (st : FlatState) : Prop :=
  (∀ row ∈ st.rows, originates trav row) ∧
  List.Pairwise (fun a b => key_of a ≠ key_of b) st.rows ∧
  (∀ p ∈ trav, ∀ k, eventKeyOf p.2 = some k → ∃ row ∈ st.rows, key_of row = some k) ∧
  (∀ k, k ∈ st.seen ↔ ∃ row ∈ st.rows, key_of row = some k)

theorem eventRow_fields {label : List Char} {evr row : Row} {event_id epoch : Value}
    (h : eventRow label evr event_id epoch = .ok row) :
    dictGet row keyEventId = some event_id ∧ dictGet row keyEpoch = some epoch := by
  unfold eventRow at h
  cases hi : impactLabel ((dictGet evr "impactName".toList).getD .null) with
  | error e => rw [hi] at h; simp [Bind.bind, Except.bind] at h
  | ok impact =>
    cases hd : parse_epoch_to_bkk_iso epoch with
    | error e => rw [hi, hd] at h; simp [Bind.bind, Except.bind] at h
    | ok dtb =>
      rw [hi, hd] at h
      simp only [Bind.bind, Except.bind, Pure.pure, Except.pure, Except.ok.injEq] at h
      rw [← h]
      exact ⟨rfl, rfl⟩

/-- The record built for an event carries the event's identity key. -/
theorem eventRow_key {label : List Char} {evr row : Row} {k : EventKey}
    (hk : eventKeyOf evr = some k)
    (h : eventRow label evr ((dictGet evr "id".toList).getD .null)
      ((dictGet evr "dateline".toList).getD .null) = .ok row) :
    key_of row = some k := by
  obtain ⟨h1, h2⟩ := eventRow_fields h
  unfold eventKeyOf at hk
  by_cases hii : (pyIsInt ((dictGet evr "id".toList).getD .null) &&
      pyIsInt ((dictGet evr "dateline".toList).getD .null)) = true
  · rw [if_pos hii] at hk
    unfold key_of
    rw [h1, h2]
    dsimp only
    rw [if_pos hii]
    exact hk
  · rw [if_neg hii] at hk
    exact absurd hk (by simp)

theorem originates_mono {trav ext : List (Row × Row)} {row : Row}
    (h : originates trav row) : originates (trav ++ ext) row := by
  obtain ⟨pre, post, dayr, evr, k, label, htrav, h1, h2, h3, h4, h5⟩ := h
  exact ⟨pre, post ++ ext, dayr, evr, k, label, by rw [htrav]; simp, h1, h2, h3, h4, h5⟩

theorem seen_contains_iff {l : List EventKey} {k : EventKey} :
    l.contains k = true ↔ k ∈ l := by
  simp [List.contains]

theorem flattenEvents_inv : ∀ (evs : List Value) (st st' : FlatState)
    (label : List Char) (dayr : Row) (trav : List (Row × Row)),
    dayLabelOf dayr = .ok label →
    flattenEvents label st evs = .ok st' →
    FlatInv trav st →
    FlatInv (trav ++ evs.filterMap (fun ev => match ev with
      | .obj evr => some (dayr, evr) | _ => none)) st'
  | [], st, st', label, dayr, trav, _, h, hinv => by
    simp only [flattenEvents, Except.ok.injEq] at h
    rw [← h, List.filterMap_nil, List.append_nil]
    exact hinv
  | ev :: rest, st, st', label, dayr, trav, hlabel, h, hinv => by
    obtain ⟨hA, hB, hC, hD⟩ := hinv
    cases ev with
    | obj evr =>
      simp only [flattenEvents] at h
      by_cases hii : (pyIsInt ((dictGet evr "id".toList).getD .null) &&
          pyIsInt ((dictGet evr "dateline".toList).getD .null)) = true
      · rw [if_pos hii] at h
        have hkey : eventKeyOf evr = some (pyAsInt ((dictGet evr "id".toList).getD .null),
            pyAsInt ((dictGet evr "dateline".toList).getD .null)) := by
          unfold eventKeyOf
          rw [if_pos hii]
        set k : EventKey := (pyAsInt ((dictGet evr "id".toList).getD .null),
            pyAsInt ((dictGet evr "dateline".toList).getD .null)) with hkdef
        by_cases hseen : st.seen.contains k = true
        · rw [if_pos hseen] at h
          have hkmem : k ∈ st.seen := seen_contains_iff.mp hseen
          have hinv' : FlatInv (trav ++ [(dayr, evr)]) st := by
            refine ⟨fun row hr => originates_mono (hA row hr), hB, ?_, hD⟩
            intro p hp k' hk'
            rcases List.mem_append.mp hp with hp | hp
            · exact hC p hp k' hk'
            · rw [List.mem_singleton] at hp
              rw [hp] at hk'
              dsimp only at hk'
              rw [hkey] at hk'
              obtain rfl : k = k' := by simpa using hk'
              exact (hD k).mp hkmem
          have := flattenEvents_inv rest st st' label dayr (trav ++ [(dayr, evr)]) hlabel h hinv'
          rw [List.append_assoc] at this
          exact this
        · rw [if_neg hseen] at h
          cases her : eventRow label evr ((dictGet evr "id".toList).getD .null)
              ((dictGet evr "dateline".toList).getD .null) with
          | error e => rw [her] at h; exact absurd h (by simp)
          | ok row =>
            rw [her] at h
            have hrowkey : key_of row = some k := eventRow_key hkey her
            have hknotseen : k ∉ st.seen := fun hk => hseen (seen_contains_iff.mpr hk)
            have hfresh : ∀ p ∈ trav, eventKeyOf p.2 ≠ some k := by
              intro p hp hpk
              obtain ⟨row', hrow', hrk'⟩ := hC p hp k hpk
              exact hknotseen ((hD k).mpr ⟨row', hrow', hrk'⟩)
            have hinv' : FlatInv (trav ++ [(dayr, evr)])
                ⟨st.rows ++ [row], k :: st.seen⟩ := by
              refine ⟨?_, ?_, ?_, ?_⟩
              · intro row' hr'
                rcases List.mem_append.mp hr' with hr' | hr'
                · exact originates_mono (hA row' hr')
                · rw [List.mem_singleton] at hr'
                  rw [hr']
                  exact ⟨trav, [], dayr, evr, k, label, rfl, hkey, hrowkey, hlabel,
                    her, hfresh⟩
              · rw [List.pairwise_append]
                refine ⟨hB, List.pairwise_singleton _ _, ?_⟩
                intro a ha b hb
                rw [List.mem_singleton] at hb
                obtain ⟨_, _, _, _, ka, _, _, _, hka, _, _, _⟩ := hA a ha
                have hkane : ka ≠ k := by
                  intro hh
                  exact hknotseen ((hD k).mpr ⟨a, ha, hh ▸ hka⟩)
                rw [hb, hka, hrowkey]
                simp only [ne_eq, Option.some_inj]
                exact hkane
              · intro p hp k' hk'
                rcases List.mem_append.mp hp with hp | hp
                · obtain ⟨row', hrow', hrk'⟩ := hC p hp k' hk'
                  exact ⟨row', List.mem_append_left _ hrow', hrk'⟩
                · rw [List.mem_singleton] at hp
                  rw [hp] at hk'
                  dsimp only at hk'
                  rw [hkey] at hk'
                  obtain rfl : k = k' := by simpa using hk'
                  exact ⟨row, List.mem_append_right _ (List.mem_singleton_self _), hrowkey⟩
              · intro k'
                constructor
                · intro hk'
                  rcases List.mem_cons.mp hk' with hk' | hk'
                  · exact ⟨row, List.mem_append_right _ (List.mem_singleton_self _),
                      hk' ▸ hrowkey⟩
                  · obtain ⟨row', hrow', hrk'⟩ := (hD k').mp hk'
                    exact ⟨row', List.mem_append_left _ hrow', hrk'⟩
                · rintro ⟨row', hrow', hrk'⟩
                  rcases List.mem_append.mp hrow' with hrow' | hrow'
                  · exact List.mem_cons_of_mem _ ((hD k').mpr ⟨row', hrow', hrk'⟩)
                  · rw [List.mem_singleton] at hrow'
                    rw [hrow', hrowkey] at hrk'
                    simp only [Option.some_inj] at hrk'
                    rw [← hrk']
                    exact List.mem_cons_self _ _
            have := flattenEvents_inv rest _ st' label dayr (trav ++ [(dayr, evr)]) hlabel h hinv'
            rw [List.append_assoc] at this
            exact this
      · rw [if_neg hii] at h
        have hkeynone : eventKeyOf evr = none := by
          unfold eventKeyOf
          rw [if_neg hii]
        have hinv' : FlatInv (trav ++ [(dayr, evr)]) st := by
          refine ⟨fun row hr => originates_mono (hA row hr), hB, ?_, hD⟩
          intro p hp k' hk'
          rcases List.mem_append.mp hp with hp | hp
          · exact hC p hp k' hk'
          · rw [List.mem_singleton] at hp
            rw [hp] at hk'
            dsimp only at hk'
            rw [hkeynone] at hk'
            exact absurd hk' (by simp)
        have := flattenEvents_inv rest st st' label dayr (trav ++ [(dayr, evr)]) hlabel h hinv'
        rw [List.append_assoc] at this
        exact this
    | null => exact absurd h (by simp [flattenEvents])
    | bool b => exact absurd h (by simp [flattenEvents])
    | int n => exact absurd h (by simp [flattenEvents])
    | str s => exact absurd h (by simp [flattenEvents])
    | arr xs => exact absurd h (by simp [flattenEvents])

/-- Pair list of an events value, as `dayPairs` computes it. -/
def arrPairs (dayr : Row) (v : Value) : List (Row × Row) :=
  match v with
  | Value.arr xs => xs.filterMap (fun ev => match ev with
      | Value.obj evr => some (dayr, evr) | _ => none)
  | _ => []

/-- Day-pair concatenation of a days value, as `traversal` computes it. -/
def arrFlat (v : Value) : List (Row × Row) :=
  match v with
  | Value.arr xs => xs.flatMap dayPairs
  | _ => []

theorem iterNodes_pairs {v : Value} {evs : List Value} (dayr : Row)
    (hit : iterNodes v = .ok evs) :
    evs.filterMap (fun ev => match ev with
      | Value.obj evr => some (dayr, evr) | _ => none) = arrPairs dayr v := by
  unfold arrPairs
  cases v with
  | arr xs => simp only [iterNodes, Except.ok.injEq] at hit; rw [hit]
  | obj kvs =>
    cases kvs with
    | nil => simp only [iterNodes, Except.ok.injEq] at hit; rw [← hit]; rfl
    | cons a l => exact absurd hit (by simp [iterNodes])
  | str cs =>
    cases cs with
    | nil => simp only [iterNodes, Except.ok.injEq] at hit; rw [← hit]; rfl
    | cons a l => exact absurd hit (by simp [iterNodes])
  | null => exact absurd hit (by simp [iterNodes])
  | bool b => exact absurd hit (by simp [iterNodes])
  | int n => exact absurd hit (by simp [iterNodes])

theorem iterNodes_flat {v : Value} {days : List Value}
    (hit : iterNodes v = .ok days) :
    days.flatMap dayPairs = arrFlat v := by
  unfold arrFlat
  cases v with
  | arr xs => simp only [iterNodes, Except.ok.injEq] at hit; rw [hit]
  | obj kvs =>
    cases kvs with
    | nil => simp only [iterNodes, Except.ok.injEq] at hit; rw [← hit]; rfl
    | cons a l => exact absurd hit (by simp [iterNodes])
  | str cs =>
    cases cs with
    | nil => simp only [iterNodes, Except.ok.injEq] at hit; rw [← hit]; rfl
    | cons a l => exact absurd hit (by simp [iterNodes])
  | null => exact absurd hit (by simp [iterNodes])
  | bool b => exact absurd hit (by simp [iterNodes])
  | int n => exact absurd hit (by simp [iterNodes])

theorem flattenDays_inv : ∀ (days : List Value) (st st' : FlatState)
    (trav : List (Row × Row)),
    flattenDays st days = .ok st' → FlatInv trav st →
    FlatInv (trav ++ days.flatMap dayPairs) st'
  | [], st, st', trav, h, hinv => by
    simp only [flattenDays, Except.ok.injEq] at h
    rw [← h]
    have : ([] : List Value).flatMap dayPairs = [] := rfl
    rw [this, List.append_nil]
    exact hinv
  | day :: rest, st, st', trav, h, hinv => by
    cases day with
    | obj dayr =>
      simp only [flattenDays] at h
      cases hl : dayLabelOf dayr with
      | error e => rw [hl] at h; exact absurd h (by simp)
      | ok label =>
        rw [hl] at h
        dsimp only at h
        cases hit : iterNodes ((dictGet dayr "events".toList).getD (.arr [])) with
        | error e => rw [hit] at h; exact absurd h (by simp)
        | ok evs =>
          rw [hit] at h
          dsimp only at h
          cases hfe : flattenEvents label st evs with
          | error e => rw [hfe] at h; exact absurd h (by simp)
          | ok st1 =>
            rw [hfe] at h
            dsimp only at h
            have hinv1 := flattenEvents_inv evs st st1 label dayr trav hl hfe hinv
            have hpairs : evs.filterMap (fun ev => match ev with
                | Value.obj evr => some (dayr, evr) | _ => none) =
                dayPairs (Value.obj dayr) := by
              have hp := iterNodes_pairs dayr hit
              rw [hp]
              rfl
            rw [hpairs] at hinv1
            have hrec := flattenDays_inv rest st1 st' (trav ++ dayPairs (Value.obj dayr)) h hinv1
            rw [List.append_assoc] at hrec
            have hcons : (Value.obj dayr :: rest).flatMap dayPairs =
                dayPairs (Value.obj dayr) ++ rest.flatMap dayPairs := rfl
            rw [hcons]
            exact hrec
    | null => exact absurd h (by simp [flattenDays])
    | bool b => exact absurd h (by simp [flattenDays])
    | int n => exact absurd h (by simp [flattenDays])
    | str s => exact absurd h (by simp [flattenDays])
    | arr xs => exact absurd h (by simp [flattenDays])

/-- C6 (amended): for every decoded tree the flattener accepts, every emitted
record originates from the first event of the traversal carrying its identity
key (events whose `id` or `dateline` fails Python's integer test — which
admits booleans — are silently skipped and never originate a record), the
emitted identity keys are pairwise distinct, and every event with a usable
key is represented by exactly the record of its first occurrence. -/
theorem claim_C6 (data : Value) (rows : List Row) (h : flatten data = .ok rows) :
    (∀ row ∈ rows, originates (traversal data) row) ∧
    List.Pairwise (fun a b => key_of a ≠ key_of b) rows ∧
    (∀ p ∈ traversal data, ∀ k, eventKeyOf p.2 = some k →
      ∃ row ∈ rows, key_of row = some k) := by
  cases data with
  | obj kvs =>
    simp only [flatten] at h
    cases hit : iterNodes ((pyDictGet kvs "days".toList).getD (.arr [])) with
    | error e => rw [hit] at h; exact absurd h (by simp)
    | ok days =>
      rw [hit] at h
      dsimp only at h
      cases hfd : flattenDays ⟨[], []⟩ days with
      | error e => rw [hfd] at h; exact absurd h (by simp)
      | ok st =>
        rw [hfd] at h
        dsimp only at h
        have hinv0 : FlatInv [] ⟨[], []⟩ := by
          refine ⟨?_, List.Pairwise.nil, ?_, ?_⟩
          · intro row hr; exact absurd hr (by simp)
          · intro p hp; exact absurd hp (by simp)
          · intro k
            constructor
            · intro hk; exact absurd hk (by simp)
            · rintro ⟨row, hr, _⟩; exact absurd hr (by simp)
        have hinvF := flattenDays_inv days ⟨[], []⟩ st [] hfd hinv0
        rw [List.nil_append] at hinvF
        have htrav : traversal (Value.obj kvs) = days.flatMap dayPairs := by
          have hp := iterNodes_flat hit
          rw [hp]
          rfl
        rw [htrav]
        obtain ⟨hA, hB, hC, _⟩ := hinvF
        simp only [Except.ok.injEq] at h
        rw [← h]
        exact ⟨hA, hB, hC⟩
  | null => exact absurd h (by simp [flatten])
  | bool b => exact absurd h (by simp [flatten])
  | int n => exact absurd h (by simp [flatten])
  | str s => exact absurd h (by simp [flatten])
  | arr xs => exact absurd h (by simp [flatten])

/-- Decoded tree containing one event whose `id` is the boolean `true`. -/
def exC6tree : Value :=
  .obj [("days".toList, .arr [.obj [("events".toList,
    .arr [.obj [("id".toList, .bool true), ("dateline".toList, .int 0)]])]])]

/-- C6 counterexample: the claim says an event whose id is not an integer is
silently skipped; the event with `id = true` passes `isinstance(_, int)` and
produces a record whose `event_id` is a boolean, not an integer. -/
theorem claim_C6_cex :
    ((flatten exC6tree).toOption.map List.length = some 1) ∧
    ((flatten exC6tree).toOption.bind fun rows => rows.head?.bind fun r =>
      dictGet r keyEventId) = some (.bool true) ∧
    isIntValue (.bool true) = false :=
  ⟨by decide, by decide, by decide⟩

/-- Decoded tree for the C6 witness: a duplicate key (first wins), an event
without a usable id (skipped), and a second distinct event. -/
def wC6tree : Value :=
  .obj [("days".toList, .arr [.obj [("date".toList, .str "Mon".toList),
    ("events".toList, .arr [
      .obj [("id".toList, .int 1), ("dateline".toList, .int 10),
            ("name".toList, .str "A".toList)],
      .obj [("id".toList, .str "x".toList)],
      .obj [("id".toList, .int 1), ("dateline".toList, .int 10),
            ("name".toList, .str "B".toList)],
      .obj [("id".toList, .int 2), ("dateline".toList, .int 10)]])]])]

/-- The record set the flattener computes on the witness tree. -/
def wC6rows : List Row := (flatten wC6tree).toOption.getD []

/-- Witness for C6 at a concrete tree with a skip and a duplicate. -/
theorem claim_C6_witness :
    flatten wC6tree = .ok wC6rows ∧
    ((∀ row ∈ wC6rows, originates (traversal wC6tree) row) ∧
     List.Pairwise (fun a b => key_of a ≠ key_of b) wC6rows ∧
     (∀ p ∈ traversal wC6tree, ∀ k, eventKeyOf p.2 = some k →
       ∃ row ∈ wC6rows, key_of row = some k)) :=
  ⟨by decide, claim_C6 wC6tree wC6rows (by decide)⟩

/-! ## Literal Normalizer: the four rewrite passes -/

/-- Identifier-continuation characters of `quote_unquoted_keys`. -/
def identCont (c : Char) : Bool := pyIsAlnum c || c == '_'

/-- Cursor loop of the source's `quote_unquoted_keys`.  `revOut` is the
emitted output in reverse; the source's look-back over `out` for the last
non-space character is `head?` after dropping whitespace.  (The source
appends the whole replacement `"ident":` as one element of `out` and its
look-back inspects elements, but that element is never a space nor `{` nor
`,`, so the character-level look-back decides identically.)  The fuel is the
input length: the source's cursor advances at least one position per
iteration, so the fuel never runs out on the wrapper's call. -/
def quoteKeysGo : Nat → List Char → Bool → Bool → Char → List Char → List Char
  | 0, revOut, _, _, _, rest => revOut.reverse ++ rest
  | _ + 1, revOut, _, _, _, [] => revOut.reverse
  | fuel + 1, revOut, inStr, esc, qc, ch :: rest =>
    if inStr then
      let esc' := if esc then false else ch == '\\'
      let inStr' := if esc then true else if ch == '\\' then true else !(ch == qc)
      quoteKeysGo fuel (ch :: revOut) inStr' esc' qc rest
    else if ch == '"' || ch == '\'' then
      quoteKeysGo fuel (ch :: revOut) true false ch rest
    else if pyIsAlpha ch || ch == '_' then
      let prev := (revOut.dropWhile pyIsSpace).head?
      if prev == some '{' || prev == some ',' then
        let identTail := rest.takeWhile identCont
        let afterIdent := rest.dropWhile identCont
        let afterWs := afterIdent.dropWhile pyIsSpace
        match afterWs with
        | ':' :: rest2 =>
          quoteKeysGo fuel
            (':' :: '"' :: ((ch :: identTail).reverse ++ '"' :: revOut))
            inStr esc qc rest2
        | _ => quoteKeysGo fuel (ch :: revOut) inStr esc qc rest
      else quoteKeysGo fuel (ch :: revOut) inStr esc qc rest
    else quoteKeysGo fuel (ch :: revOut) inStr esc qc rest

/-- The source's `quote_unquoted_keys`. -/
def quote_unquoted_keys (s : List Char) : List Char :=
  quoteKeysGo s.length [] false false ' ' s

/-- Cursor loop of the source's `single_quotes_to_double` (`inD` and `inS`:
inside a double- or single-quoted string). -/
def s2dGo (revOut : List Char) (inD inS esc : Bool) : List Char → List Char
  | [] => revOut.reverse
  | ch :: rest =>
    if inD then
      let esc' := if esc then false else ch == '\\'
      let inD' := if esc then true else if ch == '\\' then true else !(ch == '"')
      s2dGo (ch :: revOut) inD' inS esc' rest
    else if inS then
      if esc then s2dGo (ch :: revOut) inD inS false rest
      else if ch == '\\' then s2dGo (ch :: revOut) inD inS true rest
      else if ch == '\'' then s2dGo ('"' :: revOut) inD false esc rest
      else if ch == '"' then s2dGo ('"' :: '\\' :: revOut) inD inS esc rest
      else s2dGo (ch :: revOut) inD inS esc rest
    else if ch == '"' then s2dGo (ch :: revOut) true inS esc rest
    else if ch == '\'' then s2dGo ('"' :: revOut) inD true esc rest
    else s2dGo (ch :: revOut) inD inS esc rest

/-- The source's `single_quotes_to_double`. -/
def single_quotes_to_double (s : List Char) : List Char :=
  s2dGo [] false false false s

/-- Cursor modes of `strip_object_freeze`: the outer loop (with its string
state), the wrapper-body loop with its parenthesis depth, and the
string-skipping loop inside the body.  The outer `esc`/`qc` are loop
variables the body loops leave untouched, carried through. -/
inductive SofMode where
  | top (inStr esc : Bool) (qc : Char)
  | body (esc : Bool) (qc : Char) (par : Nat)
  | bodyStr (esc : Bool) (qc : Char) (par : Nat) (q : Char) (esc2 : Bool)

/-- Cursor loop of the source's `strip_object_freeze`: outside strings, an
occurrence of `Object.freeze(` enters the body mode without emitting it; the
matching `)` (parenthesis depth, skipping strings) is dropped as well.  The
fuel is the input length: the cursor advances at least one position per
iteration (fourteen when entering a wrapper). -/
def sofGo : Nat → List Char → SofMode → List Char → List Char
  | 0, revOut, _, rest => revOut.reverse ++ rest
  | _ + 1, revOut, _, [] => revOut.reverse
  | fuel + 1, revOut, .top inStr esc qc, ch :: rest =>
    if inStr then
      let esc' := if esc then false else ch == '\\'
      let inStr' := if esc then true else if ch == '\\' then true else !(ch == qc)
      sofGo fuel (ch :: revOut) (.top inStr' esc' qc) rest
    else if ch == '"' || ch == '\'' then
      sofGo fuel (ch :: revOut) (.top true false ch) rest
    else if "Object.freeze(".toList.isPrefixOf (ch :: rest) then
      sofGo fuel revOut (.body esc qc 1) ((ch :: rest).drop 14)
    else
      sofGo fuel (ch :: revOut) (.top inStr esc qc) rest
  | fuel + 1, revOut, .body esc qc par, ch :: rest =>
    if ch == '"' || ch == '\'' then
      sofGo fuel (ch :: revOut) (.bodyStr esc qc par ch false) rest
    else if ch == '(' then
      sofGo fuel (ch :: revOut) (.body esc qc (par + 1)) rest
    else if ch == ')' then
      if par - 1 == 0 then sofGo fuel revOut (.top false esc qc) rest
      else sofGo fuel (ch :: revOut) (.body esc qc (par - 1)) rest
    else sofGo fuel (ch :: revOut) (.body esc qc par) rest
  | fuel + 1, revOut, .bodyStr esc qc par q esc2, ch :: rest =>
    if esc2 then sofGo fuel (ch :: revOut) (.bodyStr esc qc par q false) rest
    else if ch == '\\' then sofGo fuel (ch :: revOut) (.bodyStr esc qc par q true) rest
    else if ch == q then sofGo fuel (ch :: revOut) (.body esc qc par) rest
    else sofGo fuel (ch :: revOut) (.bodyStr esc qc par q esc2) rest

/-- The source's `strip_object_freeze`. -/
def strip_object_freeze (s : List Char) : List Char :=
  sofGo s.length [] (.top false false ' ') s

/-- Cursor loop of the source's `remove_trailing_commas`: a comma outside
strings whose next non-whitespace character is `}` or `]` is dropped. -/
def rtcGo (revOut : List Char) (inStr esc : Bool) (qc : Char) : List Char → List Char
  | [] => revOut.reverse
  | ch :: rest =>
    if inStr then
      let esc' := if esc then false else ch == '\\'
      let inStr' := if esc then true else if ch == '\\' then true else !(ch == qc)
      rtcGo (ch :: revOut) inStr' esc' qc rest
    else if ch == '"' || ch == '\'' then
      rtcGo (ch :: revOut) true false ch rest
    else if ch == ',' then
      match (rest.dropWhile pyIsSpace).head? with
      | some '}' => rtcGo revOut inStr esc qc rest
      | some ']' => rtcGo revOut inStr esc qc rest
      | _ => rtcGo (ch :: revOut) inStr esc qc rest
    else rtcGo (ch :: revOut) inStr esc qc rest

/-- The source's `remove_trailing_commas`. -/
def remove_trailing_commas (s : List Char) : List Char :=
  rtcGo [] false false ' ' s

/-- The source's `js_object_to_json_text`: the four passes in order. -/
def js_object_to_json_text (s : List Char) : List Char :=
  remove_trailing_commas (strip_object_freeze (single_quotes_to_double
    (quote_unquoted_keys s)))

/-! ## Serialized forms

`serJson` is the strict-JSON rendering (no whitespace) used as the
normalizer's target form and to model the persisted store's content;
`serJs` is modelled from the spec's round-trip property (§8): a
JavaScript-style object literal with unquoted identifier keys, single-quoted
strings, and a trailing comma after every element.  `serQ1` and `serJsonTC`
are the intermediate forms after the first and second normalizer passes. -/

/-- Digits of an integer, as both Python `json.dumps` and a JS serializer
render it. -/
def renderInt (n : Int) : List Char :=
  if n < 0 then '-' :: natDigits (-n).toNat else natDigits n.toNat

/-- JSON escape of one character (only the backslash and the double quote
need escaping for the character range used here). -/
def jsonEsc (c : Char) : List Char :=
  if c == '\\' then ['\\', '\\']
  else if c == '"' then ['\\', '"']
  else [c]

/-- JSON escape of a string body. -/
def jsonEscStr (s : List Char) : List Char := s.flatMap jsonEsc

mutual
/-- Strict-JSON rendering of a value: double-quoted strings, no whitespace,
no trailing commas, members in order. -/
def serJson : Value → List Char
  | .null => ['n', 'u', 'l', 'l']
  | .bool b => if b then ['t', 'r', 'u', 'e'] else ['f', 'a', 'l', 's', 'e']
  | .int n => renderInt n
  | .str s => '"' :: jsonEscStr s ++ ['"']
  | .arr xs => '[' :: serJsonItems xs ++ [']']
  | .obj kvs => '{' :: serJsonMembers kvs ++ ['}']
def serJsonItems : List Value → List Char
  | [] => []
  | [v] => serJson v
  | v :: rest => serJson v ++ ',' :: serJsonItems rest
def serJsonMembers : List (List Char × Value) → List Char
  | [] => []
  | [(k, v)] => '"' :: jsonEscStr k ++ '"' :: ':' :: serJson v
  | (k, v) :: rest =>
    '"' :: jsonEscStr k ++ '"' :: ':' :: serJson v ++ ',' :: serJsonMembers rest
end

/-- Modelled from the spec: JS escape of one character in a single-quoted
string literal (backslash and single quote escaped, double quote left raw). -/
def jsEsc (c : Char) : List Char :=
  if c == '\\' then ['\\', '\\']
  else if c == '\'' then ['\\', '\'']
  else [c]

/-- JS escape of a string body. -/
def jsEscStr (s : List Char) : List Char := s.flatMap jsEsc

mutual
/-- Modelled from the spec: JavaScript-style serialization with unquoted
identifier keys, single-quoted strings, and a trailing comma after every
object member and array element (the serializer of the round-trip claim;
the `Object.freeze(...)` wrapper is added by `wrapDoc` below). -/
def serJs : Value → List Char
  | .null => ['n', 'u', 'l', 'l']
  | .bool b => if b then ['t', 'r', 'u', 'e'] else ['f', 'a', 'l', 's', 'e']
  | .int n => renderInt n
  | .str s => '\'' :: jsEscStr s ++ ['\'']
  | .arr xs => '[' :: serJsItems xs ++ [']']
  | .obj kvs => '{' :: serJsMembers kvs ++ ['}']
def serJsItems : List Value → List Char
  | [] => []
  | v :: rest => serJs v ++ ',' :: serJsItems rest
def serJsMembers : List (List Char × Value) → List Char
  | [] => []
  | (k, v) :: rest => k ++ ':' :: serJs v ++ ',' :: serJsMembers rest
end

mutual
/-- Form after the key-quoting pass: keys double-quoted, the rest as in
`serJs`. -/
def serQ1 : Value → List Char
  | .null => ['n', 'u', 'l', 'l']
  | .bool b => if b then ['t', 'r', 'u', 'e'] else ['f', 'a', 'l', 's', 'e']
  | .int n => renderInt n
  | .str s => '\'' :: jsEscStr s ++ ['\'']
  | .arr xs => '[' :: serQ1Items xs ++ [']']
  | .obj kvs => '{' :: serQ1Members kvs ++ ['}']
def serQ1Items : List Value → List Char
  | [] => []
  | v :: rest => serQ1 v ++ ',' :: serQ1Items rest
def serQ1Members : List (List Char × Value) → List Char
  | [] => []
  | (k, v) :: rest => '"' :: k ++ '"' :: ':' :: serQ1 v ++ ',' :: serQ1Members rest
end

mutual
/-- Form after the quote-conversion pass: strict JSON except for the
trailing commas. -/
def serJsonTC : Value → List Char
  | .null => ['n', 'u', 'l', 'l']
  | .bool b => if b then ['t', 'r', 'u', 'e'] else ['f', 'a', 'l', 's', 'e']
  | .int n => renderInt n
  | .str s => '"' :: jsonEscStr s ++ ['"']
  | .arr xs => '[' :: serJsonTCItems xs ++ [']']
  | .obj kvs => '{' :: serJsonTCMembers kvs ++ ['}']
def serJsonTCItems : List Value → List Char
  | [] => []
  | v :: rest => serJsonTC v ++ ',' :: serJsonTCItems rest
def serJsonTCMembers : List (List Char × Value) → List Char
  | [] => []
  | (k, v) :: rest => '"' :: k ++ '"' :: ':' :: serJsonTC v ++ ',' :: serJsonTCMembers rest
end

/-- Characters admitted in well-formed strings for the round trip: at or
above the space character (strict JSON rejects raw control characters) and
not the single quote (see the C1 counterexample). -/
def goodChar (c : Char) : Bool :=
  0x20 ≤ c.toNat && !(c == '\'')

/-- Identifier-shaped key. -/
def isIdentStr (s : List Char) : Bool :=
  match s with
  | [] => false
  | c :: rest => (pyIsAlpha c || c == '_') && rest.all identCont

/-- Duplicate-free key list. -/
def nodupKeys : List (List Char) → Bool
  | [] => true
  | k :: rest => !(rest.contains k) && nodupKeys rest

mutual
/-- Well-formed value of the round-trip claim: maps with identifier-shaped,
duplicate-free keys; strings over `goodChar`. -/
def WF : Value → Bool
  | .null => true
  | .bool _ => true
  | .int _ => true
  | .str s => s.all goodChar
  | .arr xs => WFList xs
  | .obj kvs => nodupKeys (kvs.map (·.1)) && WFKvs kvs
def WFList : List Value → Bool
  | [] => true
  | v :: rest => WF v && WFList rest
def WFKvs : List (List Char × Value) → Bool
  | [] => true
  | (k, v) :: rest => isIdentStr k && WF v && WFKvs rest
end

/-! ## The run model (C7) -/

/-- The pipeline's fixed marker. -/
def MARKER : List Char := "window.calendarComponentStates[1] =".toList

/-- Failure kinds of one run of the extraction main. -/
inductive RunErr where
  | extractFailed (e : ExtractErr)
  | decodeFailed
  | flattenFailed
deriving DecidableEq, Repr

/-- One run of the source's main over a captured document and the persisted
store's current content: extract, normalize, strict-decode, flatten, load
the existing store, merge, sort.  Any failure aborts before the store write
(the source writes `OUT_EVENTS_JSON` only after all of these). -/
def runMain (html : List Char) (store : Option (List Char)) :
    Except RunErr (List Row) :=
  match extract_object_literal html MARKER with
  | .error e => .error (.extractFailed e)
  | .ok span =>
    match parseJson (js_object_to_json_text span) with
    | none => .error .decodeFailed
    | some data =>
      match flatten data with
      | .error _ => .error .flattenFailed
      | .ok rows =>
        .ok (sort_events_desc (merge_events (load_existing_events store) rows))

/-- Persisted content after a run: a successful run replaces it with the
serialized merged store, a failed run leaves it untouched. -/
def storeAfter (html : List Char) (store : Option (List Char)) : Option (List Char) :=
  match runMain html store with
  | .ok rows => some (serJson (Value.arr (rows.map Value.obj)))
  | .error _ => store

theorem extractScan_error_kinds : ∀ (chars acc : List Char) (inStr esc : Bool)
    (qc : Char) (depth : Int) (e : ExtractErr),
    extractScan acc inStr esc qc depth chars = .error e → e = .unbalanced
  | [], _, _, _, _, _, e, h => by
    simp only [extractScan, Except.error.injEq] at h
    exact h.symm
  | ch :: rest, acc, inStr, esc, qc, depth, e, h => by
    simp only [extractScan] at h
    split_ifs at h with h1 h2 h3 h4 h5
    all_goals
      first
      | exact extractScan_error_kinds rest _ _ _ _ _ e h
      | simp at h

theorem strFind_none_iff {hay pat : List Char} (hne : pat ≠ []) :
    strFind hay pat = none ↔ ¬ ∃ i, pat.isPrefixOf (hay.drop i) = true := by
  unfold strFind
  rw [List.find?_eq_none]
  constructor
  · rintro h ⟨i, hi⟩
    by_cases hlen : i ≤ hay.length
    · exact h i (List.mem_range.mpr (by omega)) hi
    · rw [List.drop_eq_nil_of_le (by omega)] at hi
      cases pat with
      | nil => exact hne rfl
      | cons c cs => simp [List.isPrefixOf] at hi
  · intro h i _ hp
    exact h ⟨i, hp⟩

theorem charFindFrom_none_iff {hay : List Char} {c : Char} {i : Nat} :
    charFindFrom hay c i = none ↔ c ∉ hay.drop i := by
  unfold charFindFrom
  rw [Option.map_eq_none', List.findIdx?_eq_none_iff]
  constructor
  · intro h hc
    have := h c hc
    simp at this
  · intro h x hx
    rw [beq_eq_false_iff_ne]
    intro hxc
    exact h (hxc ▸ hx)

/-- C7: the extractor fails with the marker error exactly when the marker is
absent, with the object-start error exactly when no `{` follows the found
marker, and with the unbalanced error exactly when the text ends before the
depth counter returns to zero; and on any failed run — these three and a
normalized text the strict decoder still rejects — no record set is produced
and the persisted store is unchanged. -/
theorem claim_C7 :
    (∀ html, extract_object_literal html MARKER = .error .markerNotFound ↔
      ¬ ∃ i, MARKER.isPrefixOf (html.drop i) = true) ∧
    (∀ html, extract_object_literal html MARKER = .error .objectStartNotFound ↔
      ∃ i, strFind html MARKER = some i ∧ '{' ∉ html.drop (i + MARKER.length)) ∧
    (∀ html, extract_object_literal html MARKER = .error .unbalanced ↔
      ∃ i j, strFind html MARKER = some i ∧ charFindFrom html '{' i = some j ∧
        specCloseIdx (html.drop j) false false ' ' 0 = none) ∧
    (∀ html store e, runMain html store = .error e →
      (∀ rows, runMain html store ≠ .ok rows) ∧ storeAfter html store = store) := by
  have hm : ('{' : Char) ∉ MARKER := by decide
  have hmne : MARKER ≠ [] := by decide
  refine ⟨?_, ?_, ?_, ?_⟩
  · intro html
    unfold extract_object_literal
    cases hf : strFind html MARKER with
    | none =>
      dsimp only
      constructor
      · intro _
        exact (strFind_none_iff hmne).mp hf
      · intro _
        rfl
    | some i =>
      dsimp only
      constructor
      · intro h
        cases hcf : charFindFrom html '{' i with
        | none => rw [hcf] at h; simp at h
        | some j =>
          rw [hcf] at h
          dsimp only at h
          have := extractScan_error_kinds _ _ _ _ _ _ _ h
          simp at this
      · intro h
        exact absurd ⟨i, strFind_prefixOf hf⟩ h
  · intro html
    unfold extract_object_literal
    cases hf : strFind html MARKER with
    | none =>
      dsimp only
      constructor
      · intro h; simp at h
      · rintro ⟨i, hi, _⟩
        exact Option.noConfusion hi
    | some i =>
      dsimp only
      have hskip := charFindFrom_skip_marker (strFind_prefixOf hf) hm
      constructor
      · intro h
        cases hcf : charFindFrom html '{' i with
        | none =>
          refine ⟨i, rfl, ?_⟩
          rw [hskip] at hcf
          exact charFindFrom_none_iff.mp hcf
        | some j =>
          rw [hcf] at h
          dsimp only at h
          have := extractScan_error_kinds _ _ _ _ _ _ _ h
          simp at this
      · rintro ⟨i', hi', hno⟩
        obtain rfl : i = i' := by injection hi'
        have hnone : charFindFrom html '{' i = none := by
          rw [hskip]
          exact charFindFrom_none_iff.mpr hno
        rw [hnone]
  · intro html
    unfold extract_object_literal
    cases hf : strFind html MARKER with
    | none =>
      dsimp only
      constructor
      · intro h; simp at h
      · rintro ⟨i, j, hi, _, _⟩
        exact Option.noConfusion hi
    | some i =>
      dsimp only
      cases hcf : charFindFrom html '{' i with
      | none =>
        dsimp only
        constructor
        · intro h; simp at h
        · rintro ⟨i', j, hi', hj, _⟩
          obtain rfl : i = i' := by injection hi'
          rw [hcf] at hj
          exact Option.noConfusion hj
      | some j =>
        dsimp only
        constructor
        · intro h
          refine ⟨i, j, rfl, hcf, ?_⟩
          cases hc : specCloseIdx (html.drop j) false false ' ' 0 with
          | none => rfl
          | some n =>
            rw [extractScan_ok_of_close _ _ _ _ _ _ _ hc] at h
            exact absurd h (by simp)
        · rintro ⟨i', j', hi', hj', hc⟩
          obtain rfl : i = i' := by injection hi'
          rw [hcf, Option.some_inj] at hj'
          rw [← hj'] at hc
          exact extractScan_err_of_close_none _ _ _ _ _ _ hc
  · intro html store e h
    constructor
    · intro rows hrows
      rw [h] at hrows
      exact Except.noConfusion hrows
    · unfold storeAfter
      rw [h]

/-- Witness for C7: a document without the marker fails and leaves the
store untouched. -/
theorem claim_C7_witness :
    (extract_object_literal "nothing here".toList MARKER = .error .markerNotFound ↔
      ¬ ∃ i, MARKER.isPrefixOf ("nothing here".toList.drop i) = true) ∧
    ((∀ rows, runMain "nothing here".toList (some "[]".toList) ≠ .ok rows) ∧
      storeAfter "nothing here".toList (some "[]".toList) = some "[]".toList) :=
  ⟨claim_C7.1 "nothing here".toList,
   claim_C7.2.2.2 "nothing here".toList (some "[]".toList)
     (.extractFailed .markerNotFound) (by decide)⟩

/-! ## Round trip and normalizer idempotence: groundwork (C1, C2)

The round-trip claim serializes a well-formed value as a JavaScript-style
literal (`serJs`), wraps it in the marker and the `Object.freeze(...)` call
(`wrapDoc`), and runs Locator, Normalizer and Decoder over the document.
The lemmas below characterize each cursor loop on the serialized chunks. -/

/-- A character in a Boolean character class differs from any character
outside it. -/
theorem class_ne {p : Char → Bool} {c d : Char} (h : p c = true) (hd : p d = false) :
    c ≠ d := fun he => by rw [he, hd] at h; exact Bool.noConfusion h

/-- `Bool`-level form of `class_ne`. -/
theorem class_beq_false {p : Char → Bool} {c d : Char} (h : p c = true)
    (hd : p d = false) : (c == d) = false :=
  beq_eq_false_iff_ne.mpr (class_ne h hd)

/-- First character of an identifier: a letter or an underscore (the class
`isIdentStr` checks at the head). -/
def identFirst (c : Char) : Bool := pyIsAlpha c || c == '_'

/-- Splitting `takeWhile`/`dropWhile` at a chunk boundary. -/
theorem takeWhile_all_append {p : Char → Bool} : ∀ (l₁ l₂ : List Char),
    (∀ c ∈ l₁, p c = true) → (∀ c, l₂.head? = some c → p c = false) →
    (l₁ ++ l₂).takeWhile p = l₁ ∧ (l₁ ++ l₂).dropWhile p = l₂
  | [], l₂, _, h₂ => by
    cases l₂ with
    | nil => exact ⟨rfl, rfl⟩
    | cons c t =>
      have := h₂ c rfl
      simp [List.takeWhile_cons, List.dropWhile_cons, this]
  | a :: l₁, l₂, h₁, h₂ => by
    have ha := h₁ a (List.mem_cons_self a l₁)
    have ih := takeWhile_all_append l₁ l₂ (fun c hc => h₁ c (List.mem_cons_of_mem a hc)) h₂
    simp [List.takeWhile_cons, List.dropWhile_cons, ha, ih.1, ih.2]

/-- A list headed by a character outside the class is untouched by
`dropWhile`. -/
theorem dropWhile_head_neg {p : Char → Bool} {l : List Char}
    (h : ∀ c, l.head? = some c → p c = false) : l.dropWhile p = l := by
  cases l with
  | nil => rfl
  | cons c t => simp [List.dropWhile_cons, h c rfl]

/-- `dropWhile` at a list headed by a character outside the class. -/
theorem head_neg_cons {p : Char → Bool} {X : Char} (hX : p X = false) (t : List Char) :
    (X :: t).dropWhile p = X :: t := by
  simp [List.dropWhile_cons, hX]

/-- Shape of a string body as every quote-aware cursor loop scans it: plain
characters (neither a backslash nor the closing quote) and two-character
backslash escapes. -/
inductive StrBody (q : Char) : List Char → Prop
  | nil : StrBody q []
  | plain (c : Char) (rest : List Char) : c ≠ '\\' → c ≠ q → StrBody q rest →
      StrBody q (c :: rest)
  | esc (c : Char) (rest : List Char) : StrBody q rest →
      StrBody q ('\\' :: c :: rest)

/-- A chunk of characters free of backslashes and of the quote is a string
body. -/
theorem strBody_of_plain {q : Char} : ∀ (l : List Char),
    (∀ c ∈ l, c ≠ '\\' ∧ c ≠ q) → StrBody q l
  | [], _ => .nil
  | c :: l, h => by
    have hc := h c (List.mem_cons_self c l)
    exact .plain c l hc.1 hc.2 (strBody_of_plain l (fun d hd => h d (List.mem_cons_of_mem c hd)))

/-- The JS escape of a string over `goodChar` is a single-quote string body. -/
theorem jsEscStr_strBody : ∀ (s : List Char), s.all goodChar = true →
    StrBody '\'' (jsEscStr s)
  | [], _ => .nil
  | c :: s, h => by
    have hg : goodChar c = true ∧ s.all goodChar = true := by
      simpa [List.all_cons, Bool.and_eq_true] using h
    have hq : (c == '\'') = false := by
      have := hg.1
      simp only [goodChar, Bool.and_eq_true, Bool.not_eq_true'] at this
      exact this.2
    have ih := jsEscStr_strBody s hg.2
    show StrBody '\'' (jsEsc c ++ jsEscStr s)
    by_cases hb : (c == '\\') = true
    · have : c = '\\' := by simpa using hb
      subst this
      simpa [jsEsc] using StrBody.esc '\\' (jsEscStr s) ih
    · have hb' : (c == '\\') = false := by simpa using hb
      have : jsEsc c = [c] := by simp [jsEsc, hb', hq]
      rw [this]
      exact .plain c _ (by simpa using hb') (by simpa using hq) ih

/-- The JSON escape of any string is a double-quote string body. -/
theorem jsonEscStr_strBody : ∀ (s : List Char), StrBody '"' (jsonEscStr s)
  | [] => .nil
  | c :: s => by
    have ih := jsonEscStr_strBody s
    show StrBody '"' (jsonEsc c ++ jsonEscStr s)
    by_cases hb : (c == '\\') = true
    · have : c = '\\' := by simpa using hb
      subst this
      simpa [jsonEsc] using StrBody.esc '\\' (jsonEscStr s) ih
    · by_cases hq : (c == '"') = true
      · have : c = '"' := by simpa using hq
        subst this
        simpa [jsonEsc] using StrBody.esc '"' (jsonEscStr s) ih
      · have hb' : (c == '\\') = false := by simpa using hb
        have hq' : (c == '"') = false := by simpa using hq
        have : jsonEsc c = [c] := by simp [jsonEsc, hb', hq']
        rw [this]
        exact .plain c _ (by simpa using hb') (by simpa using hq') ih

/-- An identifier-shaped key is a double-quote string body (its characters
are letters, digits and underscores). -/
theorem ident_strBody {k : List Char} (h : isIdentStr k = true) : StrBody '"' k := by
  cases k with
  | nil => exact .nil
  | cons c rest =>
    simp only [isIdentStr, Bool.and_eq_true] at h
    have hfirst : identFirst c = true := h.1
    refine StrBody.plain c rest (class_ne hfirst (by decide)) (class_ne hfirst (by decide)) ?_
    refine strBody_of_plain rest (fun d hd => ?_)
    have hdc : identCont d = true := by
      have := h.2
      rw [List.all_eq_true] at this
      exact this d hd
    exact ⟨class_ne hdc (by decide), class_ne hdc (by decide)⟩

/-- Generic character-class fact for the decimal digits: every digit rendered
by `natDigitsAux` is `Char.ofNat (48 + m)` for some `m < 10`. -/
theorem natDigitsAux_all (P : Char → Bool)
    (hP : ∀ m : Nat, m < 10 → P (Char.ofNat (48 + m)) = true) :
    ∀ (fuel n : Nat), (natDigitsAux fuel n).all P = true
  | 0, _ => rfl
  | fuel + 1, n => by
    by_cases h : n < 10
    · simp [natDigitsAux, h, hP n h]
    · have hm : n % 10 < 10 := Nat.mod_lt _ (by omega)
      simp [natDigitsAux, h, List.all_append, natDigitsAux_all P hP fuel (n / 10), hP _ hm]

/-- Character-class fact for `natDigits`. -/
theorem natDigits_all (P : Char → Bool)
    (hP : ∀ m : Nat, m < 10 → P (Char.ofNat (48 + m)) = true) (n : Nat) :
    (natDigits n).all P = true :=
  natDigitsAux_all P hP (n + 1) n

/-- Character-class fact for `renderInt`. -/
theorem renderInt_all (P : Char → Bool)
    (hP : ∀ m : Nat, m < 10 → P (Char.ofNat (48 + m)) = true)
    (hminus : P '-' = true) (n : Int) : (renderInt n).all P = true := by
  unfold renderInt
  by_cases h : n < 0
  · rw [if_pos h]
    simp only [List.all_cons, hminus, Bool.true_and]
    exact natDigits_all P hP _
  · rw [if_neg h]
    exact natDigits_all P hP _

/-- The leading digit of `natDigitsAux`: present, a digit, and nonzero when
the number is. -/
theorem natDigitsAux_head : ∀ (fuel n : Nat), n < 10 ^ fuel → 1 ≤ fuel →
    ∃ c t, natDigitsAux fuel n = c :: t ∧ c.isDigit = true ∧ (1 ≤ n → c ≠ '0')
  | 0, _, _, hf => by omega
  | fuel + 1, n, hn, _ => by
    by_cases h : n < 10
    · refine ⟨Char.ofNat (48 + n), [], by simp [natDigitsAux, h], ?_, ?_⟩
      · interval_cases n <;> decide
      · interval_cases n <;> decide
    · have hdiv : 1 ≤ n / 10 := by omega
      have hlt : n / 10 < 10 ^ fuel := by
        have h10 : n < 10 * 10 ^ fuel := by
          have := hn
          rw [pow_succ] at this
          omega
        omega
      have hf1 : 1 ≤ fuel := by
        by_contra hf0
        have : fuel = 0 := by omega
        subst this
        simp at hlt
        omega
      obtain ⟨c, t, he, hd, hz⟩ := natDigitsAux_head fuel (n / 10) hlt hf1
      exact ⟨c, t ++ [Char.ofNat (48 + n % 10)], by simp [natDigitsAux, h, he], hd,
        fun _ => hz hdiv⟩

/-- The leading digit of `natDigits`. -/
theorem natDigits_head (n : Nat) :
    ∃ c t, natDigits n = c :: t ∧ c.isDigit = true ∧ (1 ≤ n → c ≠ '0') := by
  have h1 : (1 : Nat) < 10 := by omega
  have : n < 10 ^ n := Nat.lt_pow_self h1 n
  have h2 : (10 : Nat) ^ n ≤ 10 ^ (n + 1) := Nat.pow_le_pow_right (by omega) (by omega)
  exact natDigitsAux_head (n + 1) n (by omega) (by omega)

/-! ### Character classes of the cursor loops -/

/-- Characters the Locator's depth scan passes over unchanged. -/
def scanPlain (c : Char) : Bool :=
  !(c == '\'') && !(c == '"') && !(c == '{') && !(c == '}')

/-- Characters the key-quoting pass appends without look-back. -/
def qkPlain (c : Char) : Bool :=
  !(c == '"') && !(c == '\'') && !(pyIsAlpha c) && !(c == '_')

/-- Letters of the word literals `true`, `false`, `null`. -/
def wordChar (c : Char) : Bool :=
  pyIsAlpha c && !(c == '"') && !(c == '\'') && !(pyIsSpace c) && !(c == '{') &&
    !(c == ',') && !(c == 'O')

/-- A character that ends the key-quoting pass's identifier look-ahead
without selecting the key branch. -/
def stopChar (c : Char) : Bool := !(identCont c) && !(pyIsSpace c) && !(c == ':')

/-- Characters the quote-conversion pass appends unchanged outside strings. -/
def s2Plain (c : Char) : Bool := !(c == '"') && !(c == '\'')

/-- Characters the wrapper-stripping pass appends unchanged outside strings. -/
def sofPlain (c : Char) : Bool := !(c == '"') && !(c == '\'') && !(c == 'O')

/-- Characters the trailing-comma pass appends unchanged outside strings. -/
def rtcPlain (c : Char) : Bool := !(c == '"') && !(c == '\'') && !(c == ',')

/-- Characters that can start a serialized value: not whitespace, not a
closing bracket. -/
def startChar (c : Char) : Bool :=
  !(jsonWs c) && !(pyIsSpace c) && !(c == '}') && !(c == ']')

/-- Digits start serialized values. -/
theorem digit_startChar {c : Char} (h : c.isDigit = true) : startChar c = true := by
  simp only [startChar, jsonWs, pyIsSpace, Bool.and_eq_true, Bool.not_eq_true',
    Bool.or_eq_false_iff]
  refine ⟨⟨⟨?_, ?_⟩, ?_⟩, ?_⟩
  · exact ⟨⟨⟨class_beq_false h (by decide), class_beq_false h (by decide)⟩,
      class_beq_false h (by decide)⟩, class_beq_false h (by decide)⟩
  · exact ⟨⟨⟨⟨⟨⟨⟨⟨⟨⟨⟨class_beq_false h (by decide), class_beq_false h (by decide)⟩,
      class_beq_false h (by decide)⟩, class_beq_false h (by decide)⟩,
      class_beq_false h (by decide)⟩, class_beq_false h (by decide)⟩,
      class_beq_false h (by decide)⟩, class_beq_false h (by decide)⟩,
      class_beq_false h (by decide)⟩, class_beq_false h (by decide)⟩,
      class_beq_false h (by decide)⟩, class_beq_false h (by decide)⟩
  · exact class_beq_false h (by decide)
  · exact class_beq_false h (by decide)

/-- The first character of `serJsonTC` starts a value. -/
theorem serJsonTC_head (v : Value) :
    ∃ c t, serJsonTC v = c :: t ∧ startChar c = true := by
  cases v with
  | null => exact ⟨'n', _, rfl, by decide⟩
  | bool b => cases b with
    | true => exact ⟨'t', _, rfl, by decide⟩
    | false => exact ⟨'f', _, rfl, by decide⟩
  | int n =>
    show ∃ c t, renderInt n = c :: t ∧ startChar c = true
    unfold renderInt
    by_cases h : n < 0
    · exact ⟨'-', natDigits (-n).toNat, by rw [if_pos h], by decide⟩
    · obtain ⟨c, t, he, hd, _⟩ := natDigits_head n.toNat
      exact ⟨c, t, by rw [if_neg h, he], digit_startChar hd⟩
  | str s => exact ⟨'"', _, rfl, by decide⟩
  | arr xs => exact ⟨'[', _, rfl, by decide⟩
  | obj kvs => exact ⟨'{', _, rfl, by decide⟩

/-- The first character of `serJson` starts a value. -/
theorem serJson_head (v : Value) :
    ∃ c t, serJson v = c :: t ∧ startChar c = true := by
  cases v with
  | null => exact ⟨'n', _, rfl, by decide⟩
  | bool b => cases b with
    | true => exact ⟨'t', _, rfl, by decide⟩
    | false => exact ⟨'f', _, rfl, by decide⟩
  | int n =>
    show ∃ c t, renderInt n = c :: t ∧ startChar c = true
    unfold renderInt
    by_cases h : n < 0
    · exact ⟨'-', natDigits (-n).toNat, by rw [if_pos h], by decide⟩
    · obtain ⟨c, t, he, hd, _⟩ := natDigits_head n.toNat
      exact ⟨c, t, by rw [if_neg h, he], digit_startChar hd⟩
  | str s => exact ⟨'"', _, rfl, by decide⟩
  | arr xs => exact ⟨'[', _, rfl, by decide⟩
  | obj kvs => exact ⟨'{', _, rfl, by decide⟩

/-! ### The Locator on the wrapped document -/

/-- The spec-side close scan ignores the stale escape and quote state while
outside a string. -/
theorem specCloseIdx_congr : ∀ (s : List Char) (e₁ e₂ : Bool) (q₁ q₂ : Char) (d : Int),
    specCloseIdx s false e₁ q₁ d = specCloseIdx s false e₂ q₂ d
  | [], _, _, _, _, _ => rfl
  | ch :: rest, e₁, e₂, q₁, q₂, d => by
    simp only [specCloseIdx, Bool.false_eq_true, if_false]
    split_ifs with h1 h2 h3 h4 <;>
      first
      | rfl
      | rw [specCloseIdx_congr rest e₁ e₂ q₁ q₂]

/-- The close scan shifts over a chunk of plain characters. -/
theorem specCloseIdx_plain : ∀ (chunk : List Char), chunk.all scanPlain = true →
    ∀ (rest : List Char) (e : Bool) (q : Char) (d : Int),
    specCloseIdx (chunk ++ rest) false e q d
      = (specCloseIdx rest false e q d).map (· + chunk.length)
  | [], _, rest, e, q, d => by
    cases h : specCloseIdx rest false e q d <;> simp [h]
  | c :: chunk, hall, rest, e, q, d => by
    have hc : scanPlain c = true ∧ chunk.all scanPlain = true := by
      simpa [List.all_cons, Bool.and_eq_true] using hall
    have h1 : (c == '\'') = false := by
      have := hc.1; simp only [scanPlain, Bool.and_eq_true, Bool.not_eq_true'] at this
      exact this.1.1.1
    have h2 : (c == '"') = false := by
      have := hc.1; simp only [scanPlain, Bool.and_eq_true, Bool.not_eq_true'] at this
      exact this.1.1.2
    have h3 : (c == '{') = false := by
      have := hc.1; simp only [scanPlain, Bool.and_eq_true, Bool.not_eq_true'] at this
      exact this.1.2
    have h4 : (c == '}') = false := by
      have := hc.1; simp only [scanPlain, Bool.and_eq_true, Bool.not_eq_true'] at this
      exact this.2
    show specCloseIdx (c :: (chunk ++ rest)) false e q d
      = (specCloseIdx rest false e q d).map (· + (c :: chunk).length)
    simp only [specCloseIdx, Bool.false_eq_true, if_false, h1, h2, h3, h4, Bool.or_self,
      Bool.or_false, Bool.false_or]
    rw [specCloseIdx_plain chunk hc.2 rest e q d]
    cases specCloseIdx rest false e q d <;> simp <;> omega

/-- The close scan crosses a string body and leaves the string at its
closing quote. -/
theorem specCloseIdx_strBody {q : Char} (hq : q = '\'' ∨ q = '"') :
    ∀ {body : List Char}, StrBody q body → ∀ (rest : List Char) (d : Int),
    specCloseIdx (body ++ q :: rest) true false q d
      = (specCloseIdx rest false false q d).map (· + (body.length + 1)) := by
  intro body hb
  induction hb with
  | nil =>
    intro rest d
    rcases hq with rfl | rfl <;> simp [specCloseIdx]
  | plain c rest' hbs hcq _ ih =>
    intro rest d
    have h1 : (c == '\\') = false := by simpa using hbs
    have h2 : (c == q) = false := by simpa using hcq
    show specCloseIdx (c :: (rest' ++ q :: rest)) true false q d = _
    simp only [specCloseIdx, if_true, h1, h2, Bool.not_false, if_false, Bool.false_eq_true]
    rw [ih rest d]
    cases specCloseIdx rest false false q d <;> simp <;> omega
  | esc c rest' _ ih =>
    intro rest d
    show specCloseIdx ('\\' :: (c :: (rest' ++ q :: rest))) true false q d = _
    simp only [specCloseIdx, if_true, beq_self_eq_true, Bool.not_true, if_false,
      Bool.false_eq_true]
    rw [ih rest d]
    cases specCloseIdx rest false false q d <;> simp <;> omega

/-- The close scan shifts over a whole quoted string literal. -/
theorem specCloseIdx_strLit {q : Char} (hq : q = '\'' ∨ q = '"') {body : List Char}
    (hb : StrBody q body) : ∀ (rest : List Char) (e : Bool) (qc : Char) (d : Int),
    specCloseIdx (q :: body ++ q :: rest) false e qc d
      = (specCloseIdx rest false e qc d).map (· + (body.length + 2)) := by
  intro rest e qc d
  have hcond : (q == '\'' || q == '"') = true := by rcases hq with rfl | rfl <;> decide
  show specCloseIdx (q :: (body ++ q :: rest)) false e qc d = _
  simp only [specCloseIdx, Bool.false_eq_true, if_false, hcond, if_true]
  rw [specCloseIdx_strBody hq hb rest d, specCloseIdx_congr rest false e q qc]
  cases specCloseIdx rest false e qc d <;> simp <;> omega

mutual
/-- The close scan shifts over a serialized value at positive depth. -/
theorem scan_val : ∀ (v : Value), WF v = true → ∀ (rest : List Char) (e : Bool) (q : Char)
    (d : Int), 0 < d →
    specCloseIdx (serJs v ++ rest) false e q d
      = (specCloseIdx rest false e q d).map (· + (serJs v).length)
  | .null, _, rest, e, q, d, _ => specCloseIdx_plain (serJs .null) (by decide) rest e q d
  | .bool b, _, rest, e, q, d, _ => by
    cases b with
    | true => exact specCloseIdx_plain (serJs (.bool true)) (by decide) rest e q d
    | false => exact specCloseIdx_plain (serJs (.bool false)) (by decide) rest e q d
  | .int n, _, rest, e, q, d, _ =>
    specCloseIdx_plain (renderInt n)
      (renderInt_all scanPlain (fun m hm => by interval_cases m <;> decide) (by decide) n)
      rest e q d
  | .str s, h, rest, e, q, d, _ => by
    have hg : s.all goodChar = true := by simpa [WF] using h
    show specCloseIdx (('\'' :: jsEscStr s ++ ['\'']) ++ rest) false e q d = _
    have : ('\'' :: jsEscStr s ++ ['\'']) ++ rest = '\'' :: jsEscStr s ++ '\'' :: rest := by
      simp
    rw [this, specCloseIdx_strLit (Or.inl rfl) (jsEscStr_strBody s hg) rest e q d]
    have hlen : (serJs (.str s)).length = (jsEscStr s).length + 2 := by
      show ('\'' :: jsEscStr s ++ ['\'']).length = _
      simp
    cases specCloseIdx rest false e q d <;> simp [hlen] <;> omega
  | .arr xs, h, rest, e, q, d, hd => by
    have hx : WFList xs = true := by simpa [WF] using h
    show specCloseIdx (('[' :: serJsItems xs ++ [']']) ++ rest) false e q d = _
    have hform : ('[' :: serJsItems xs ++ [']']) ++ rest
        = '[' :: (serJsItems xs ++ (']' :: rest)) := by simp
    rw [hform]
    rw [show ('[' :: (serJsItems xs ++ (']' :: rest))) = [ '[' ] ++ (serJsItems xs ++ (']' :: rest)) from rfl]
    rw [specCloseIdx_plain ['['] (by decide) _ e q d]
    rw [scan_items xs hx (']' :: rest) e q d hd]
    rw [show (']' :: rest) = [']'] ++ rest from rfl]
    rw [specCloseIdx_plain [']'] (by decide) rest e q d]
    have hlen : (serJs (.arr xs)).length = (serJsItems xs).length + 2 := by
      show ('[' :: serJsItems xs ++ [']']).length = _
      simp
    cases specCloseIdx rest false e q d <;> simp [hlen] <;> omega
  | .obj kvs, h, rest, e, q, d, hd => by
    have hk : WFKvs kvs = true := by
      have := h
      simp only [WF, Bool.and_eq_true] at this
      exact this.2
    show specCloseIdx (('{' :: serJsMembers kvs ++ ['}']) ++ rest) false e q d = _
    have hform : ('{' :: serJsMembers kvs ++ ['}']) ++ rest
        = '{' :: (serJsMembers kvs ++ ('}' :: rest)) := by simp
    rw [hform]
    have hstep : specCloseIdx ('{' :: (serJsMembers kvs ++ ('}' :: rest))) false e q d
        = (specCloseIdx (serJsMembers kvs ++ ('}' :: rest)) false e q (d + 1)).map (· + 1) := by
      simp [specCloseIdx]
    rw [hstep, scan_members kvs hk ('}' :: rest) e q (d + 1) (by omega)]
    have hne : ((d : Int) == 0) = false := by
      simp only [beq_eq_false_iff_ne, ne_eq]
      omega
    have hd11 : (d : Int) + 1 - 1 = d := by omega
    have hclose : specCloseIdx ('}' :: rest) false e q (d + 1)
        = (specCloseIdx rest false e q d).map (· + 1) := by
      simp only [specCloseIdx, hd11, hne, Bool.false_eq_true, if_false]
      split_ifs with hq1 hq2 hq3
      · exact absurd hq1 (by decide)
      · exact absurd hq2 (by decide)
      · rfl
      · exact absurd (by decide : ('}' == '}') = true) hq3
    rw [hclose]
    have hlen : (serJs (.obj kvs)).length = (serJsMembers kvs).length + 2 := by
      show ('{' :: serJsMembers kvs ++ ['}']).length = _
      simp
    cases specCloseIdx rest false e q d <;> simp [hlen] <;> omega

/-- The close scan shifts over serialized array items at positive depth. -/
theorem scan_items : ∀ (xs : List Value), WFList xs = true → ∀ (rest : List Char) (e : Bool)
    (q : Char) (d : Int), 0 < d →
    specCloseIdx (serJsItems xs ++ rest) false e q d
      = (specCloseIdx rest false e q d).map (· + (serJsItems xs).length)
  | [], _, rest, e, q, d, _ => by
    cases h : specCloseIdx rest false e q d <;> simp [serJsItems, h]
  | v :: xs, h, rest, e, q, d, hd => by
    have hv : WF v = true ∧ WFList xs = true := by
      simpa [WFList, Bool.and_eq_true] using h
    show specCloseIdx ((serJs v ++ ',' :: serJsItems xs) ++ rest) false e q d = _
    have hform : (serJs v ++ ',' :: serJsItems xs) ++ rest
        = serJs v ++ (',' :: (serJsItems xs ++ rest)) := by simp
    rw [hform, scan_val v hv.1 _ e q d hd]
    rw [show (',' :: (serJsItems xs ++ rest)) = [','] ++ (serJsItems xs ++ rest) from rfl]
    rw [specCloseIdx_plain [','] (by decide) _ e q d, scan_items xs hv.2 rest e q d hd]
    cases specCloseIdx rest false e q d <;> simp [serJsItems] <;> omega

/-- The close scan shifts over serialized object members at positive depth. -/
theorem scan_members : ∀ (kvs : List (List Char × Value)), WFKvs kvs = true →
    ∀ (rest : List Char) (e : Bool) (q : Char) (d : Int), 0 < d →
    specCloseIdx (serJsMembers kvs ++ rest) false e q d
      = (specCloseIdx rest false e q d).map (· + (serJsMembers kvs).length)
  | [], _, rest, e, q, d, _ => by
    cases h : specCloseIdx rest false e q d <;> simp [serJsMembers, h]
  | (k, v) :: kvs, h, rest, e, q, d, hd => by
    have hv : isIdentStr k = true ∧ WF v = true ∧ WFKvs kvs = true := by
      simpa [WFKvs, Bool.and_eq_true, and_assoc] using h
    have hkall : k.all scanPlain = true := by
      rw [List.all_eq_true]
      intro c hc
      rcases k with _ | ⟨c0, krest⟩
      · cases hc
      · simp only [isIdentStr, Bool.and_eq_true] at hv
        rcases List.mem_cons.mp hc with rfl | hmem
        · have hfirst : identFirst c = true := hv.1.1
          simp only [scanPlain, Bool.and_eq_true, Bool.not_eq_true']
          exact ⟨⟨⟨class_beq_false hfirst (by decide), class_beq_false hfirst (by decide)⟩,
            class_beq_false hfirst (by decide)⟩, class_beq_false hfirst (by decide)⟩
        · have hdc : identCont c = true := by
            have := hv.1.2
            rw [List.all_eq_true] at this
            exact this c hmem
          simp only [scanPlain, Bool.and_eq_true, Bool.not_eq_true']
          exact ⟨⟨⟨class_beq_false hdc (by decide), class_beq_false hdc (by decide)⟩,
            class_beq_false hdc (by decide)⟩, class_beq_false hdc (by decide)⟩
    show specCloseIdx ((k ++ ':' :: serJs v ++ ',' :: serJsMembers kvs) ++ rest) false e q d = _
    have hform : (k ++ ':' :: serJs v ++ ',' :: serJsMembers kvs) ++ rest
        = k ++ ([':'] ++ (serJs v ++ ([','] ++ (serJsMembers kvs ++ rest)))) := by simp
    rw [hform, specCloseIdx_plain k hkall _ e q d,
      specCloseIdx_plain [':'] (by decide) _ e q d, scan_val v hv.2.1 _ e q d hd,
      specCloseIdx_plain [','] (by decide) _ e q d, scan_members kvs hv.2.2 rest e q d hd]
    cases specCloseIdx rest false e q d <;> simp [serJsMembers] <;> omega
end

/-- The close scan on a serialized object at depth zero stops exactly at the
object's closing brace. -/
theorem scan_top (kvs : List (List Char × Value)) (h : WF (.obj kvs) = true)
    (rest : List Char) (e : Bool) (q : Char) :
    specCloseIdx (serJs (.obj kvs) ++ rest) false e q 0
      = some ((serJsMembers kvs).length + 1) := by
  have hk : WFKvs kvs = true := by
    simp only [WF, Bool.and_eq_true] at h
    exact h.2
  show specCloseIdx (('{' :: serJsMembers kvs ++ ['}']) ++ rest) false e q 0 = _
  have hform : ('{' :: serJsMembers kvs ++ ['}']) ++ rest
      = '{' :: (serJsMembers kvs ++ ('}' :: rest)) := by simp
  rw [hform]
  have hstep : specCloseIdx ('{' :: (serJsMembers kvs ++ ('}' :: rest))) false e q 0
      = (specCloseIdx (serJsMembers kvs ++ ('}' :: rest)) false e q 1).map (· + 1) := by
    simp [specCloseIdx]
  rw [hstep, scan_members kvs hk ('}' :: rest) e q 1 (by omega)]
  have hclose : specCloseIdx ('}' :: rest) false e q 1 = some 0 := by
    simp [specCloseIdx]
  rw [hclose]
  simp [Nat.add_comm]

/-- `str.find` at a prefix occurrence returns index zero. -/
theorem strFind_zero_of_prefix {s pat : List Char} (h : pat.isPrefixOf s = true) :
    strFind s pat = some 0 := by
  unfold strFind
  rw [List.range_succ_eq_map]
  exact List.find?_cons_of_pos _ (by simpa using h)

/-- The spec's serialized wrapped document: the marker, the freeze-call
wrapper, and the literal (modelled from the spec's round-trip property). -/
def wrapDoc (v : Value) : List Char :=
  MARKER ++ "Object.freeze(".toList ++ serJs v ++ [')', ';']

/-- On the wrapped document, the spec-side Locator recovers exactly the
serialized literal. -/
theorem specLocate_wrapDoc (kvs : List (List Char × Value)) (h : WF (.obj kvs) = true) :
    specLocate (wrapDoc (.obj kvs)) MARKER = some (serJs (.obj kvs)) := by
  have hdoc : wrapDoc (.obj kvs)
      = MARKER ++ ("Object.freeze(".toList ++ (serJs (.obj kvs) ++ [')', ';'])) := by
    simp [wrapDoc]
  have hfind : strFind (wrapDoc (.obj kvs)) MARKER = some 0 := by
    rw [hdoc]
    exact strFind_zero_of_prefix
      (List.isPrefixOf_iff_prefix.mpr (List.prefix_append _ _))
  have hdrop : (wrapDoc (.obj kvs)).drop MARKER.length
      = "Object.freeze(".toList ++ (serJs (.obj kvs) ++ [')', ';']) := by
    rw [hdoc]
    exact List.drop_left _ _
  have hobjhead : serJs (.obj kvs) ++ [')', ';']
      = '{' :: (serJsMembers kvs ++ ['}'] ++ [')', ';']) := by
    show ('{' :: serJsMembers kvs ++ ['}']) ++ [')', ';'] = _
    simp
  have hfi : ("Object.freeze(".toList ++ (serJs (.obj kvs) ++ [')', ';'])).findIdx?
      (· == '{') = some 14 := by
    rw [List.findIdx?_append]
    have h1 : ("Object.freeze(".toList).findIdx? (· == '{') = none := by decide
    rw [h1, hobjhead]
    have h2 : ('{' :: (serJsMembers kvs ++ ['}'] ++ [')', ';'])).findIdx? (· == '{')
        = some 0 := by
      simp [List.findIdx?]
    rw [h2]
    decide
  have hcf : charFindFrom (wrapDoc (.obj kvs)) '{' (0 + MARKER.length)
      = some (MARKER.length + 14) := by
    unfold charFindFrom
    rw [Nat.zero_add, hdrop, hfi]
    rfl
  have hdrop49 : (wrapDoc (.obj kvs)).drop (MARKER.length + 14)
      = serJs (.obj kvs) ++ [')', ';'] := by
    have : wrapDoc (.obj kvs)
        = (MARKER ++ "Object.freeze(".toList) ++ (serJs (.obj kvs) ++ [')', ';']) := by
      simp [wrapDoc]
    rw [this]
    have hlen : (MARKER ++ "Object.freeze(".toList).length = MARKER.length + 14 := by decide
    rw [← hlen]
    exact List.drop_left _ _
  have hclose : specCloseIdx ((wrapDoc (.obj kvs)).drop (MARKER.length + 14))
      false false ' ' 0 = some ((serJsMembers kvs).length + 1) := by
    rw [hdrop49]
    exact scan_top kvs h _ false ' '
  have htake : ((wrapDoc (.obj kvs)).drop (MARKER.length + 14)).take
      ((serJsMembers kvs).length + 1 + 1) = serJs (.obj kvs) := by
    rw [hdrop49]
    have hlen : (serJs (.obj kvs)).length = (serJsMembers kvs).length + 1 + 1 := by
      show ('{' :: serJsMembers kvs ++ ['}']).length = _
      simp
    rw [← hlen]
    exact List.take_left _ _
  unfold specLocate
  rw [hfind]
  dsimp only
  rw [hcf]
  dsimp only
  rw [hclose]
  dsimp only
  rw [htake]

/-- The Locator on the wrapped document returns exactly the serialized
literal. -/
theorem extract_wrapDoc (kvs : List (List Char × Value)) (h : WF (.obj kvs) = true) :
    extract_object_literal (wrapDoc (.obj kvs)) MARKER = .ok (serJs (.obj kvs)) :=
  extract_matches_specLocate _ _ _ (by decide) (specLocate_wrapDoc kvs h)

/-! ### Pass 1: `quote_unquoted_keys` on serialized literals -/

/-- `BEq` on `Option Char` acts componentwise. -/
theorem some_beq_some {a b : Char} : (some a == some b) = (a == b) := rfl

/-- Propagating a known stop character at the head. -/
theorem head_stop {X : Char} (hX : stopChar X = true) (t : List Char) :
    ∀ c, (X :: t).head? = some c → stopChar c = true := fun c hc => by
  have : X = c := by simpa using hc
  rw [← this]
  exact hX

/-- `dropWhile` never lengthens a list. -/
theorem length_dropWhile_le' (p : Char → Bool) : ∀ (l : List Char),
    (l.dropWhile p).length ≤ l.length
  | [] => le_refl 0
  | c :: l => by
    by_cases h : p c = true
    · simp only [List.dropWhile_cons, h, if_true]
      exact le_trans (length_dropWhile_le' p l) (by simp)
    · simp [List.dropWhile_cons, h]

/-- The key-quoting cursor loop is insensitive to surplus fuel: any fuel at
least the remaining input length gives the same output (the cursor advances
at least one position per iteration). -/
theorem quoteKeysGo_stable : ∀ (n : Nat) (rest : List Char) (f₁ f₂ : Nat)
    (revOut : List Char) (inStr esc : Bool) (qc : Char),
    rest.length ≤ n → rest.length ≤ f₁ → rest.length ≤ f₂ →
    quoteKeysGo f₁ revOut inStr esc qc rest = quoteKeysGo f₂ revOut inStr esc qc rest
  | 0, rest, f₁, f₂, revOut, inStr, esc, qc, hn, h₁, h₂ => by
    have : rest = [] := List.length_eq_zero.mp (by omega)
    subst this
    cases f₁ <;> cases f₂ <;> simp [quoteKeysGo]
  | n + 1, [], f₁, f₂, revOut, inStr, esc, qc, _, _, _ => by
    cases f₁ <;> cases f₂ <;> simp [quoteKeysGo]
  | n + 1, ch :: rest, f₁, f₂, revOut, inStr, esc, qc, hn, h₁, h₂ => by
    match f₁, f₂ with
    | 0, _ => simp at h₁
    | _ + 1, 0 => simp at h₂
    | g₁ + 1, g₂ + 1 =>
      have hlen : rest.length ≤ n ∧ rest.length ≤ g₁ ∧ rest.length ≤ g₂ := by
        simp only [List.length_cons] at hn h₁ h₂
        omega
      simp only [quoteKeysGo]
      split_ifs
      all_goals try exact quoteKeysGo_stable n rest g₁ g₂ _ _ _ _ hlen.1 hlen.2.1 hlen.2.2
      all_goals have hdw1 := length_dropWhile_le' identCont rest
      all_goals have hdw2 := length_dropWhile_le' pyIsSpace (rest.dropWhile identCont)
      all_goals split
      all_goals try exact quoteKeysGo_stable n rest g₁ g₂ _ _ _ _ hlen.1 hlen.2.1 hlen.2.2
      all_goals rename_i rest2 heq
      all_goals have hlen2 : rest2.length + 1 = ((rest.dropWhile identCont).dropWhile pyIsSpace).length := by rw [heq]; simp
      all_goals exact quoteKeysGo_stable n rest2 g₁ g₂ _ _ _ _ (by omega) (by omega) (by omega)

/-- Outside a string, the key-quoting loop ignores the stale escape and
quote-character state. -/
theorem quoteKeysGo_outside : ∀ (fuel : Nat) (rest revOut : List Char) (e₁ e₂ : Bool)
    (q₁ q₂ : Char),
    quoteKeysGo fuel revOut false e₁ q₁ rest = quoteKeysGo fuel revOut false e₂ q₂ rest
  | 0, _, _, _, _, _, _ => rfl
  | _ + 1, [], _, _, _, _, _ => rfl
  | fuel + 1, ch :: rest, revOut, e₁, e₂, q₁, q₂ => by
    simp only [quoteKeysGo, Bool.false_eq_true, if_false]
    split_ifs with hqu hal htr
    · rfl
    · split
      · exact quoteKeysGo_outside fuel _ _ e₁ e₂ q₁ q₂
      · exact quoteKeysGo_outside fuel rest _ e₁ e₂ q₁ q₂
    · exact quoteKeysGo_outside fuel rest _ e₁ e₂ q₁ q₂
    · exact quoteKeysGo_outside fuel rest _ e₁ e₂ q₁ q₂

/-- The key-quoting loop appends a chunk of plain characters unchanged. -/
theorem qk_plain : ∀ (chunk rest revOut : List Char) (esc : Bool) (qc : Char),
    chunk.all qkPlain = true →
    quoteKeysGo (chunk ++ rest).length revOut false esc qc (chunk ++ rest)
      = quoteKeysGo rest.length (chunk.reverse ++ revOut) false esc qc rest
  | [], rest, revOut, esc, qc, _ => by simp
  | c :: chunk, rest, revOut, esc, qc, hall => by
    have hc : qkPlain c = true ∧ chunk.all qkPlain = true := by
      simpa [List.all_cons, Bool.and_eq_true] using hall
    have h1 : (c == '"') = false := by
      have := hc.1; simp only [qkPlain, Bool.and_eq_true, Bool.not_eq_true'] at this
      exact this.1.1.1
    have h2 : (c == '\'') = false := by
      have := hc.1; simp only [qkPlain, Bool.and_eq_true, Bool.not_eq_true'] at this
      exact this.1.1.2
    have h3 : pyIsAlpha c = false := by
      have := hc.1; simp only [qkPlain, Bool.and_eq_true, Bool.not_eq_true'] at this
      exact this.1.2
    have h4 : (c == '_') = false := by
      have := hc.1; simp only [qkPlain, Bool.and_eq_true, Bool.not_eq_true'] at this
      exact this.2
    show quoteKeysGo ((c :: (chunk ++ rest)).length) revOut false esc qc
        (c :: (chunk ++ rest)) = _
    simp only [List.length_cons, quoteKeysGo, Bool.false_eq_true, if_false, h1, h2, h3, h4,
      Bool.or_self, Bool.or_false, Bool.false_or]
    rw [qk_plain chunk rest (c :: revOut) esc qc hc.2]
    simp [List.append_assoc]

/-- The key-quoting loop appends a run of letters unchanged when the last
emitted non-space character triggers no key look-ahead. -/
theorem qk_word : ∀ (w rest revOut : List Char) (esc : Bool) (qc : Char),
    w.all wordChar = true →
    (((revOut.dropWhile pyIsSpace).head? == some '{')
      || ((revOut.dropWhile pyIsSpace).head? == some ',')) = false →
    quoteKeysGo (w ++ rest).length revOut false esc qc (w ++ rest)
      = quoteKeysGo rest.length (w.reverse ++ revOut) false esc qc rest
  | [], rest, revOut, esc, qc, _, _ => by simp
  | c :: w, rest, revOut, esc, qc, hall, hsafe => by
    have hc : wordChar c = true ∧ w.all wordChar = true := by
      simpa [List.all_cons, Bool.and_eq_true] using hall
    have halpha : pyIsAlpha c = true := by
      have := hc.1; simp only [wordChar, Bool.and_eq_true] at this
      exact this.1.1.1.1.1.1
    have h1 : (c == '"') = false := class_beq_false hc.1 (by decide)
    have h2 : (c == '\'') = false := class_beq_false hc.1 (by decide)
    have hspace : pyIsSpace c = false := by
      have := hc.1; simp only [wordChar, Bool.and_eq_true, Bool.not_eq_true'] at this
      exact this.1.1.1.2
    have hbrace : (c == '{') = false := class_beq_false hc.1 (by decide)
    have hcomma : (c == ',') = false := class_beq_false hc.1 (by decide)
    show quoteKeysGo ((c :: (w ++ rest)).length) revOut false esc qc (c :: (w ++ rest)) = _
    simp only [List.length_cons, quoteKeysGo, Bool.false_eq_true, if_false, h1, h2, halpha,
      Bool.or_self, Bool.or_false, Bool.false_or, Bool.true_or, if_true, hsafe]
    rw [qk_word w rest (c :: revOut) esc qc hc.2 (by
      rw [dropWhile_head_neg (fun d hd => by
        have : c = d := by simpa using hd
        rw [← this]; exact hspace)]
      simp only [List.head?_cons, some_beq_some, hbrace, hcomma, Bool.or_self])]
    simp [List.append_assoc]

/-- With a triggering previous character but a stop character right after the
letter run, the key look-ahead falls through and the run is appended
unchanged. -/
theorem qk_word_trig (w rest revOut : List Char) (esc : Bool) (qc : Char)
    (hne : w ≠ []) (hall : w.all wordChar = true)
    (hstop : ∀ c, rest.head? = some c → stopChar c = true)
    (htrig : (((revOut.dropWhile pyIsSpace).head? == some '{')
      || ((revOut.dropWhile pyIsSpace).head? == some ',')) = true) :
    quoteKeysGo (w ++ rest).length revOut false esc qc (w ++ rest)
      = quoteKeysGo rest.length (w.reverse ++ revOut) false esc qc rest := by
  cases w with
  | nil => exact absurd rfl hne
  | cons c w =>
    have hc : wordChar c = true ∧ w.all wordChar = true := by
      simpa [List.all_cons, Bool.and_eq_true] using hall
    have halpha : pyIsAlpha c = true := by
      have := hc.1; simp only [wordChar, Bool.and_eq_true] at this
      exact this.1.1.1.1.1.1
    have h1 : (c == '"') = false := class_beq_false hc.1 (by decide)
    have h2 : (c == '\'') = false := class_beq_false hc.1 (by decide)
    have hspace : pyIsSpace c = false := by
      have := hc.1; simp only [wordChar, Bool.and_eq_true, Bool.not_eq_true'] at this
      exact this.1.1.1.2
    have hwident : ∀ d ∈ w, identCont d = true := fun d hd => by
      have hwd : wordChar d = true := by
        have := hc.2; rw [List.all_eq_true] at this; exact this d hd
      have hda : pyIsAlpha d = true := by
        simp only [wordChar, Bool.and_eq_true] at hwd
        exact hwd.1.1.1.1.1.1
      simp [identCont, pyIsAlnum, hda]
    have htw := takeWhile_all_append w rest hwident
      (fun d hd => by
        have := hstop d hd
        simp only [stopChar, Bool.and_eq_true, Bool.not_eq_true'] at this
        exact this.1.1)
    have hws : rest.dropWhile pyIsSpace = rest :=
      dropWhile_head_neg (fun d hd => by
        have := hstop d hd
        simp only [stopChar, Bool.and_eq_true, Bool.not_eq_true'] at this
        exact this.1.2)
    show quoteKeysGo ((c :: (w ++ rest)).length) revOut false esc qc (c :: (w ++ rest)) = _
    simp only [List.length_cons, quoteKeysGo, Bool.false_eq_true, if_false, h1, h2, halpha,
      Bool.or_self, Bool.or_false, Bool.false_or, Bool.true_or, if_true, htrig]
    rw [htw.2, hws]
    split
    · exact absurd (hstop ':' rfl) (by decide)
    · cases w with
      | nil => simp
      | cons c2 w2 =>
        rw [qk_word (c2 :: w2) rest (c :: revOut) esc qc hc.2 (by
          rw [dropWhile_head_neg (fun d hd => by
            have : c = d := by simpa using hd
            rw [← this]; exact hspace)]
          simp only [List.head?_cons, some_beq_some,
            class_beq_false hc.1 (by decide : wordChar '{' = false),
            class_beq_false hc.1 (by decide : wordChar ',' = false), Bool.or_self])]
        simp [List.append_assoc]

/-- The key-quoting loop crosses a string body unchanged. -/
theorem qk_strBody {q : Char} (hq : q = '"' ∨ q = '\'') :
    ∀ {body : List Char}, StrBody q body → ∀ (rest revOut : List Char),
    quoteKeysGo (body ++ q :: rest).length revOut true false q (body ++ q :: rest)
      = quoteKeysGo rest.length (q :: body.reverse ++ revOut) false false q rest := by
  intro body hb
  induction hb with
  | nil =>
    intro rest revOut
    have hbq : (q == '\\') = false := by rcases hq with rfl | rfl <;> decide
    show quoteKeysGo ((q :: rest).length) revOut true false q (q :: rest) = _
    simp [quoteKeysGo, hbq]
  | plain c rest' hbs hcq _ ih =>
    intro rest revOut
    have h1 : (c == '\\') = false := by simpa using hbs
    have h2 : (c == q) = false := by simpa using hcq
    show quoteKeysGo ((c :: (rest' ++ q :: rest)).length) revOut true false q
        (c :: (rest' ++ q :: rest)) = _
    simp only [List.length_cons, quoteKeysGo, if_true, h1, h2, Bool.not_false,
      Bool.false_eq_true, if_false]
    rw [ih rest (c :: revOut)]
    simp [List.append_assoc]
  | esc c rest' _ ih =>
    intro rest revOut
    show quoteKeysGo (('\\' :: (c :: (rest' ++ q :: rest))).length) revOut true false q
        ('\\' :: (c :: (rest' ++ q :: rest))) = _
    simp only [List.length_cons, quoteKeysGo, if_true, beq_self_eq_true, Bool.not_true,
      Bool.false_eq_true, if_false]
    rw [ih rest (c :: '\\' :: revOut)]
    simp [List.append_assoc]

/-- The key-quoting loop crosses a whole quoted string literal unchanged. -/
theorem qk_strLit {q : Char} (hq : q = '"' ∨ q = '\'') {body : List Char}
    (hb : StrBody q body) (rest revOut : List Char) (esc : Bool) (qc : Char) :
    quoteKeysGo (q :: body ++ q :: rest).length revOut false esc qc (q :: body ++ q :: rest)
      = quoteKeysGo rest.length ((q :: body ++ [q]).reverse ++ revOut) false esc qc rest := by
  have hcond : (q == '"' || q == '\'') = true := by rcases hq with rfl | rfl <;> decide
  show quoteKeysGo ((q :: (body ++ q :: rest)).length) revOut false esc qc
      (q :: (body ++ q :: rest)) = _
  simp only [List.length_cons, quoteKeysGo, Bool.false_eq_true, if_false, hcond, if_true]
  rw [qk_strBody hq hb rest (q :: revOut),
    quoteKeysGo_outside rest.length rest (q :: body.reverse ++ q :: revOut) false esc q qc]
  simp [List.append_assoc]

/-- The key-quoting loop appends one plain character unchanged. -/
theorem qk_one (c : Char) (rest revOut : List Char) (esc : Bool) (qc : Char)
    (h : qkPlain c = true) :
    quoteKeysGo ((c :: rest).length) revOut false esc qc (c :: rest)
      = quoteKeysGo rest.length (c :: revOut) false esc qc rest := by
  have hh := qk_plain [c] rest revOut esc qc (by simp [h])
  simpa using hh

mutual
/-- Pass 1 maps a serialized JS value to its key-quoted form. -/
theorem qk_serJs_val : ∀ (v : Value), WF v = true → ∀ (rest revOut : List Char) (esc : Bool)
    (qc : Char), (∀ c, rest.head? = some c → stopChar c = true) →
    quoteKeysGo (serJs v ++ rest).length revOut false esc qc (serJs v ++ rest)
      = quoteKeysGo rest.length ((serQ1 v).reverse ++ revOut) false esc qc rest
  | .null, _, rest, revOut, esc, qc, hstop => by
    cases htr : (((revOut.dropWhile pyIsSpace).head? == some '{')
        || ((revOut.dropWhile pyIsSpace).head? == some ',')) with
    | false => exact qk_word (serJs .null) rest revOut esc qc (by decide) htr
    | true =>
      exact qk_word_trig (serJs .null) rest revOut esc qc (by decide) (by decide) hstop htr
  | .bool b, _, rest, revOut, esc, qc, hstop => by
    cases b with
    | true =>
      cases htr : (((revOut.dropWhile pyIsSpace).head? == some '{')
          || ((revOut.dropWhile pyIsSpace).head? == some ',')) with
      | false => exact qk_word (serJs (.bool true)) rest revOut esc qc (by decide) htr
      | true =>
        exact qk_word_trig (serJs (.bool true)) rest revOut esc qc (by decide) (by decide)
          hstop htr
    | false =>
      cases htr : (((revOut.dropWhile pyIsSpace).head? == some '{')
          || ((revOut.dropWhile pyIsSpace).head? == some ',')) with
      | false => exact qk_word (serJs (.bool false)) rest revOut esc qc (by decide) htr
      | true =>
        exact qk_word_trig (serJs (.bool false)) rest revOut esc qc (by decide) (by decide)
          hstop htr
  | .int n, _, rest, revOut, esc, qc, _ =>
    qk_plain (renderInt n) rest revOut esc qc
      (renderInt_all qkPlain (fun m hm => by interval_cases m <;> decide) (by decide) n)
  | .str s, h, rest, revOut, esc, qc, _ => by
    have hg : s.all goodChar = true := by simpa [WF] using h
    show quoteKeysGo ((('\'' :: jsEscStr s ++ ['\'']) ++ rest).length) revOut false esc qc
        (('\'' :: jsEscStr s ++ ['\'']) ++ rest) = _
    have hform : ('\'' :: jsEscStr s ++ ['\'']) ++ rest = '\'' :: jsEscStr s ++ '\'' :: rest := by
      simp
    rw [hform, qk_strLit (Or.inr rfl) (jsEscStr_strBody s hg) rest revOut esc qc]
    rfl
  | .arr xs, h, rest, revOut, esc, qc, hstop => by
    have hx : WFList xs = true := by simpa [WF] using h
    show quoteKeysGo ((('[' :: serJsItems xs ++ [']']) ++ rest).length) revOut false esc qc
        (('[' :: serJsItems xs ++ [']']) ++ rest) = _
    have hform : ('[' :: serJsItems xs ++ [']']) ++ rest
        = '[' :: (serJsItems xs ++ (']' :: rest)) := by simp
    rw [hform, qk_one '[' (serJsItems xs ++ (']' :: rest)) revOut esc qc (by decide)]
    rw [qk_serJs_items xs hx (']' :: rest) ('[' :: revOut) esc qc (head_stop (by decide) rest)]
    rw [qk_one ']' rest ((serQ1Items xs).reverse ++ '[' :: revOut) esc qc (by decide)]
    show _ = quoteKeysGo rest.length (('[' :: serQ1Items xs ++ [']']).reverse ++ revOut)
      false esc qc rest
    have hro : ']' :: ((serQ1Items xs).reverse ++ '[' :: revOut)
        = ('[' :: serQ1Items xs ++ [']']).reverse ++ revOut := by simp
    rw [hro]
  | .obj kvs, h, rest, revOut, esc, qc, hstop => by
    have hk : WFKvs kvs = true := by
      simp only [WF, Bool.and_eq_true] at h
      exact h.2
    show quoteKeysGo ((('{' :: serJsMembers kvs ++ ['}']) ++ rest).length) revOut false esc qc
        (('{' :: serJsMembers kvs ++ ['}']) ++ rest) = _
    have hform : ('{' :: serJsMembers kvs ++ ['}']) ++ rest
        = '{' :: (serJsMembers kvs ++ ('}' :: rest)) := by simp
    rw [hform, qk_one '{' (serJsMembers kvs ++ ('}' :: rest)) revOut esc qc (by decide)]
    rw [qk_serJs_members kvs hk ('}' :: rest) ('{' :: revOut) esc qc
      (head_stop (by decide) rest) (by
        rw [head_neg_cons (show pyIsSpace '{' = false by decide) revOut]
        rfl)]
    rw [qk_one '}' rest ((serQ1Members kvs).reverse ++ '{' :: revOut) esc qc (by decide)]
    show _ = quoteKeysGo rest.length (('{' :: serQ1Members kvs ++ ['}']).reverse ++ revOut)
      false esc qc rest
    have hro : '}' :: ((serQ1Members kvs).reverse ++ '{' :: revOut)
        = ('{' :: serQ1Members kvs ++ ['}']).reverse ++ revOut := by simp
    rw [hro]

/-- Pass 1 maps serialized JS array items to their key-quoted form. -/
theorem qk_serJs_items : ∀ (xs : List Value), WFList xs = true → ∀ (rest revOut : List Char)
    (esc : Bool) (qc : Char), (∀ c, rest.head? = some c → stopChar c = true) →
    quoteKeysGo (serJsItems xs ++ rest).length revOut false esc qc (serJsItems xs ++ rest)
      = quoteKeysGo rest.length ((serQ1Items xs).reverse ++ revOut) false esc qc rest
  | [], _, rest, revOut, esc, qc, _ => by
    show quoteKeysGo (([] ++ rest : List Char)).length revOut false esc qc ([] ++ rest) = _
    simp [serQ1Items]
  | v :: xs, h, rest, revOut, esc, qc, hstop => by
    have hv : WF v = true ∧ WFList xs = true := by
      simpa [WFList, Bool.and_eq_true] using h
    show quoteKeysGo (((serJs v ++ ',' :: serJsItems xs) ++ rest)).length revOut false esc qc
        ((serJs v ++ ',' :: serJsItems xs) ++ rest) = _
    have hform : (serJs v ++ ',' :: serJsItems xs) ++ rest
        = serJs v ++ (',' :: (serJsItems xs ++ rest)) := by simp
    rw [hform, qk_serJs_val v hv.1 (',' :: (serJsItems xs ++ rest)) revOut esc qc
      (head_stop (by decide) (serJsItems xs ++ rest))]
    rw [qk_one ',' (serJsItems xs ++ rest) ((serQ1 v).reverse ++ revOut) esc qc (by decide)]
    rw [qk_serJs_items xs hv.2 rest (',' :: ((serQ1 v).reverse ++ revOut)) esc qc hstop]
    show _ = quoteKeysGo rest.length ((serQ1 v ++ ',' :: serQ1Items xs).reverse ++ revOut)
      false esc qc rest
    have hro : (serQ1Items xs).reverse ++ ',' :: ((serQ1 v).reverse ++ revOut)
        = (serQ1 v ++ ',' :: serQ1Items xs).reverse ++ revOut := by simp
    rw [hro]

/-- Pass 1 quotes every serialized member key and maps values onward. -/
theorem qk_serJs_members : ∀ (kvs : List (List Char × Value)), WFKvs kvs = true →
    ∀ (rest revOut : List Char) (esc : Bool) (qc : Char),
    (∀ c, rest.head? = some c → stopChar c = true) →
    (((revOut.dropWhile pyIsSpace).head? == some '{')
      || ((revOut.dropWhile pyIsSpace).head? == some ',')) = true →
    quoteKeysGo (serJsMembers kvs ++ rest).length revOut false esc qc
        (serJsMembers kvs ++ rest)
      = quoteKeysGo rest.length ((serQ1Members kvs).reverse ++ revOut) false esc qc rest
  | [], _, rest, revOut, esc, qc, _, _ => by
    show quoteKeysGo (([] ++ rest : List Char)).length revOut false esc qc ([] ++ rest) = _
    simp [serQ1Members]
  | (k, v) :: kvs, h, rest, revOut, esc, qc, hstop, htrig => by
    have hv : isIdentStr k = true ∧ WF v = true ∧ WFKvs kvs = true := by
      simpa [WFKvs, Bool.and_eq_true, and_assoc] using h
    cases k with
    | nil => exact absurd hv.1 (by decide)
    | cons c ktail =>
      have hid : identFirst c = true ∧ ktail.all identCont = true := by
        have := hv.1
        simp only [isIdentStr, Bool.and_eq_true] at this
        exact this
      have h1 : (c == '"') = false := class_beq_false hid.1 (by decide)
      have h2 : (c == '\'') = false := class_beq_false hid.1 (by decide)
      have halcond : (pyIsAlpha c || c == '_') = true := hid.1
      have htw : (ktail ++ (':' :: (serJs v ++ (',' :: (serJsMembers kvs ++ rest))))).takeWhile
            identCont = ktail
          ∧ (ktail ++ (':' :: (serJs v ++ (',' :: (serJsMembers kvs ++ rest))))).dropWhile
            identCont = ':' :: (serJs v ++ (',' :: (serJsMembers kvs ++ rest))) :=
        takeWhile_all_append ktail
          (':' :: (serJs v ++ (',' :: (serJsMembers kvs ++ rest))))
          (fun d hd => by
            have := hid.2
            rw [List.all_eq_true] at this
            exact this d hd)
          (fun d hd => by
            have : ':' = d := by simpa using hd
            rw [← this]
            decide)
      have hws : (':' :: (serJs v ++ (',' :: (serJsMembers kvs ++ rest)))).dropWhile pyIsSpace
          = ':' :: (serJs v ++ (',' :: (serJsMembers kvs ++ rest))) :=
        head_neg_cons (show pyIsSpace ':' = false by decide) _
      show quoteKeysGo
          (((c :: ktail ++ ':' :: serJs v ++ ',' :: serJsMembers kvs) ++ rest)).length
          revOut false esc qc
          ((c :: ktail ++ ':' :: serJs v ++ ',' :: serJsMembers kvs) ++ rest) = _
      have hform : (c :: ktail ++ ':' :: serJs v ++ ',' :: serJsMembers kvs) ++ rest
          = c :: (ktail ++ (':' :: (serJs v ++ (',' :: (serJsMembers kvs ++ rest))))) := by
        simp
      rw [hform]
      simp only [List.length_cons, quoteKeysGo, Bool.false_eq_true, if_false, h1, h2,
        halcond, Bool.or_self, Bool.or_false, Bool.false_or, if_true, htrig]
      rw [htw.1, htw.2, hws]
      split
      · rename_i rest2 heq
        injection heq with heq1 heq2
        subst heq2
        rw [quoteKeysGo_stable
          ((ktail ++ (':' :: (serJs v ++ (',' :: (serJsMembers kvs ++ rest))))).length)
          (serJs v ++ (',' :: (serJsMembers kvs ++ rest)))
          ((ktail ++ (':' :: (serJs v ++ (',' :: (serJsMembers kvs ++ rest))))).length)
          (serJs v ++ (',' :: (serJsMembers kvs ++ rest))).length
          _ false esc qc
          (by simp only [List.length_append, List.length_cons]; omega)
          (by simp only [List.length_append, List.length_cons]; omega)
          (by omega)]
        rw [qk_serJs_val v hv.2.1 (',' :: (serJsMembers kvs ++ rest)) _ esc qc
          (head_stop (by decide) (serJsMembers kvs ++ rest))]
        rw [qk_one ',' (serJsMembers kvs ++ rest) _ esc qc (by decide)]
        rw [qk_serJs_members kvs hv.2.2 rest _ esc qc hstop (by
          rw [head_neg_cons (show pyIsSpace ',' = false by decide) _]
          simp [some_beq_some])]
        show _ = quoteKeysGo rest.length
          (('"' :: (c :: ktail) ++ '"' :: ':' :: serQ1 v ++ ',' :: serQ1Members kvs).reverse
            ++ revOut) false esc qc rest
        have hro : (serQ1Members kvs).reverse
              ++ ',' :: ((serQ1 v).reverse
                ++ ':' :: '"' :: ((c :: ktail).reverse ++ '"' :: revOut))
            = ('"' :: (c :: ktail) ++ '"' :: ':' :: serQ1 v ++ ',' :: serQ1Members kvs).reverse
              ++ revOut := by
          simp
        rw [hro]
      · rename_i hne
        exact absurd rfl (hne (serJs v ++ (',' :: (serJsMembers kvs ++ rest))))
end

/-- Pass 1 on a whole serialized literal. -/
theorem quote_unquoted_keys_serJs (v : Value) (h : WF v = true) :
    quote_unquoted_keys (serJs v) = serQ1 v := by
  unfold quote_unquoted_keys
  have hmain := qk_serJs_val v h [] [] false ' '
    (fun c hc => by simp at hc)
  rw [List.append_nil] at hmain
  rw [hmain]
  simp [quoteKeysGo]

/-! ### Pass 2: `single_quotes_to_double` on serialized literals -/

/-- The quote-conversion loop appends a chunk of plain characters unchanged. -/
theorem s2_plain : ∀ (chunk rest revOut : List Char), chunk.all s2Plain = true →
    s2dGo revOut false false false (chunk ++ rest)
      = s2dGo (chunk.reverse ++ revOut) false false false rest
  | [], rest, revOut, _ => by simp
  | c :: chunk, rest, revOut, hall => by
    have hc : s2Plain c = true ∧ chunk.all s2Plain = true := by
      simpa [List.all_cons, Bool.and_eq_true] using hall
    have h1 : (c == '"') = false := by
      have := hc.1; simp only [s2Plain, Bool.and_eq_true, Bool.not_eq_true'] at this
      exact this.1
    have h2 : (c == '\'') = false := by
      have := hc.1; simp only [s2Plain, Bool.and_eq_true, Bool.not_eq_true'] at this
      exact this.2
    show s2dGo revOut false false false (c :: (chunk ++ rest)) = _
    simp only [s2dGo, Bool.false_eq_true, if_false, h1, h2]
    rw [s2_plain chunk rest (c :: revOut) hc.2]
    simp [List.append_assoc]

/-- One plain character through the quote-conversion loop. -/
theorem s2_one (c : Char) (rest revOut : List Char) (h : s2Plain c = true) :
    s2dGo revOut false false false (c :: rest) = s2dGo (c :: revOut) false false false rest := by
  have hh := s2_plain [c] rest revOut (by simp [h])
  simpa using hh

/-- The quote-conversion loop crosses a double-quoted body unchanged. -/
theorem s2_dstrBody : ∀ {body : List Char}, StrBody '"' body → ∀ (rest revOut : List Char),
    s2dGo revOut true false false (body ++ '"' :: rest)
      = s2dGo ('"' :: body.reverse ++ revOut) false false false rest := by
  intro body hb
  induction hb with
  | nil =>
    intro rest revOut
    show s2dGo revOut true false false ('"' :: rest) = _
    simp [s2dGo]
  | plain c rest' hbs hcq _ ih =>
    intro rest revOut
    have h1 : (c == '\\') = false := by simpa using hbs
    have h2 : (c == '"') = false := by simpa using hcq
    show s2dGo revOut true false false (c :: (rest' ++ '"' :: rest)) = _
    simp only [s2dGo, if_true, h1, h2, Bool.not_false, Bool.false_eq_true, if_false]
    rw [ih rest (c :: revOut)]
    simp [List.append_assoc]
  | esc c rest' _ ih =>
    intro rest revOut
    show s2dGo revOut true false false ('\\' :: (c :: (rest' ++ '"' :: rest))) = _
    simp only [s2dGo, if_true, beq_self_eq_true, Bool.not_true, Bool.false_eq_true, if_false]
    rw [ih rest (c :: '\\' :: revOut)]
    simp [List.append_assoc]

/-- The quote-conversion loop crosses a double-quoted literal unchanged. -/
theorem s2_dstrLit {body : List Char} (hb : StrBody '"' body) (rest revOut : List Char) :
    s2dGo revOut false false false ('"' :: body ++ '"' :: rest)
      = s2dGo (('"' :: body ++ ['"']).reverse ++ revOut) false false false rest := by
  show s2dGo revOut false false false ('"' :: (body ++ '"' :: rest)) = _
  simp only [s2dGo, Bool.false_eq_true, if_false, beq_self_eq_true, if_true]
  rw [s2_dstrBody hb rest ('"' :: revOut)]
  have : '"' :: body.reverse ++ '"' :: revOut = ('"' :: body ++ ['"']).reverse ++ revOut := by
    simp
  rw [this]

/-- The quote-conversion loop rewrites a single-quoted body (JS escapes) to
its JSON-escaped double-quoted form. -/
theorem s2_sstrBody : ∀ (s : List Char), s.all goodChar = true → ∀ (rest revOut : List Char),
    s2dGo revOut false true false (jsEscStr s ++ '\'' :: rest)
      = s2dGo ('"' :: (jsonEscStr s).reverse ++ revOut) false false false rest
  | [], _, rest, revOut => by
    show s2dGo revOut false true false ('\'' :: rest) = _
    simp [s2dGo, jsonEscStr]
  | c :: s, hall, rest, revOut => by
    have hc : goodChar c = true ∧ s.all goodChar = true := by
      simpa [List.all_cons, Bool.and_eq_true] using hall
    have hq : (c == '\'') = false := by
      have := hc.1
      simp only [goodChar, Bool.and_eq_true, Bool.not_eq_true'] at this
      exact this.2
    show s2dGo revOut false true false ((jsEsc c ++ jsEscStr s) ++ '\'' :: rest) = _
    by_cases hbs : (c == '\\') = true
    · have hcc : c = '\\' := by simpa using hbs
      subst hcc
      show s2dGo revOut false true false ('\\' :: ('\\' :: (jsEscStr s ++ '\'' :: rest))) = _
      simp only [s2dGo, Bool.false_eq_true, if_false, if_true, beq_self_eq_true,
        Bool.not_true]
      rw [s2_sstrBody s hc.2 rest ('\\' :: '\\' :: revOut)]
      have : jsonEscStr ('\\' :: s) = '\\' :: '\\' :: jsonEscStr s := by
        simp [jsonEscStr, jsonEsc]
      rw [this]
      simp [List.append_assoc]
    · have hbs' : (c == '\\') = false := by simpa using hbs
      by_cases hdq : (c == '"') = true
      · have hcc : c = '"' := by simpa using hdq
        subst hcc
        show s2dGo revOut false true false ('"' :: (jsEscStr s ++ '\'' :: rest)) = _
        simp only [s2dGo, Bool.false_eq_true, if_false, if_true, beq_self_eq_true]
        rw [s2_sstrBody s hc.2 rest ('"' :: '\\' :: revOut)]
        have : jsonEscStr ('"' :: s) = '\\' :: '"' :: jsonEscStr s := by
          simp [jsonEscStr, jsonEsc]
        rw [this]
        simp [List.append_assoc]
      · have hdq' : (c == '"') = false := by simpa using hdq
        have hjs : jsEsc c = [c] := by simp [jsEsc, hbs', hq]
        have hjn : jsonEsc c = [c] := by simp [jsonEsc, hbs', hdq']
        rw [hjs]
        show s2dGo revOut false true false (c :: (jsEscStr s ++ '\'' :: rest)) = _
        simp only [s2dGo, Bool.false_eq_true, if_false, hbs', hq, hdq', if_true]
        rw [s2_sstrBody s hc.2 rest (c :: revOut)]
        have : jsonEscStr (c :: s) = c :: jsonEscStr s := by
          simp [jsonEscStr, hjn]
        rw [this]
        simp [List.append_assoc]

/-- The quote-conversion loop rewrites a whole single-quoted literal to the
double-quoted JSON form. -/
theorem s2_sstrLit (s : List Char) (hg : s.all goodChar = true) (rest revOut : List Char) :
    s2dGo revOut false false false ('\'' :: jsEscStr s ++ '\'' :: rest)
      = s2dGo (('"' :: jsonEscStr s ++ ['"']).reverse ++ revOut) false false false rest := by
  show s2dGo revOut false false false ('\'' :: (jsEscStr s ++ '\'' :: rest)) = _
  simp only [s2dGo, Bool.false_eq_true, if_false, beq_self_eq_true, if_true,
    (show (('\'' : Char) == '"') = false by decide)]
  rw [s2_sstrBody s hg rest ('"' :: revOut)]
  have : '"' :: (jsonEscStr s).reverse ++ '"' :: revOut
      = ('"' :: jsonEscStr s ++ ['"']).reverse ++ revOut := by
    simp
  rw [this]

mutual
/-- Pass 2 maps a key-quoted serialized value to its JSON-with-trailing-commas
form. -/
theorem s2_serQ1_val : ∀ (v : Value), WF v = true → ∀ (rest revOut : List Char),
    s2dGo revOut false false false (serQ1 v ++ rest)
      = s2dGo ((serJsonTC v).reverse ++ revOut) false false false rest
  | .null, _, rest, revOut =>
    s2_plain (serQ1 .null) rest revOut (by decide)
  | .bool b, _, rest, revOut => by
    cases b with
    | true => exact s2_plain (serQ1 (.bool true)) rest revOut (by decide)
    | false => exact s2_plain (serQ1 (.bool false)) rest revOut (by decide)
  | .int n, _, rest, revOut =>
    s2_plain (renderInt n) rest revOut
      (renderInt_all s2Plain (fun m hm => by interval_cases m <;> decide) (by decide) n)
  | .str s, h, rest, revOut => by
    have hg : s.all goodChar = true := by simpa [WF] using h
    show s2dGo revOut false false false (('\'' :: jsEscStr s ++ ['\'']) ++ rest) = _
    have hform : ('\'' :: jsEscStr s ++ ['\'']) ++ rest = '\'' :: jsEscStr s ++ '\'' :: rest := by
      simp
    rw [hform, s2_sstrLit s hg rest revOut]
    rfl
  | .arr xs, h, rest, revOut => by
    have hx : WFList xs = true := by simpa [WF] using h
    show s2dGo revOut false false false (('[' :: serQ1Items xs ++ [']']) ++ rest) = _
    have hform : ('[' :: serQ1Items xs ++ [']']) ++ rest
        = '[' :: (serQ1Items xs ++ (']' :: rest)) := by simp
    rw [hform, s2_one '[' _ revOut (by decide)]
    rw [s2_serQ1_items xs hx (']' :: rest) ('[' :: revOut)]
    rw [s2_one ']' rest _ (by decide)]
    have hro : ']' :: ((serJsonTCItems xs).reverse ++ '[' :: revOut)
        = ('[' :: serJsonTCItems xs ++ [']']).reverse ++ revOut := by simp
    rw [hro]
    rfl
  | .obj kvs, h, rest, revOut => by
    have hk : WFKvs kvs = true := by
      simp only [WF, Bool.and_eq_true] at h
      exact h.2
    show s2dGo revOut false false false (('{' :: serQ1Members kvs ++ ['}']) ++ rest) = _
    have hform : ('{' :: serQ1Members kvs ++ ['}']) ++ rest
        = '{' :: (serQ1Members kvs ++ ('}' :: rest)) := by simp
    rw [hform, s2_one '{' _ revOut (by decide)]
    rw [s2_serQ1_members kvs hk ('}' :: rest) ('{' :: revOut)]
    rw [s2_one '}' rest _ (by decide)]
    have hro : '}' :: ((serJsonTCMembers kvs).reverse ++ '{' :: revOut)
        = ('{' :: serJsonTCMembers kvs ++ ['}']).reverse ++ revOut := by simp
    rw [hro]
    rfl

/-- Pass 2 on key-quoted serialized array items. -/
theorem s2_serQ1_items : ∀ (xs : List Value), WFList xs = true →
    ∀ (rest revOut : List Char),
    s2dGo revOut false false false (serQ1Items xs ++ rest)
      = s2dGo ((serJsonTCItems xs).reverse ++ revOut) false false false rest
  | [], _, rest, revOut => by
    show s2dGo revOut false false false ([] ++ rest) = _
    simp [serJsonTCItems]
  | v :: xs, h, rest, revOut => by
    have hv : WF v = true ∧ WFList xs = true := by
      simpa [WFList, Bool.and_eq_true] using h
    show s2dGo revOut false false false ((serQ1 v ++ ',' :: serQ1Items xs) ++ rest) = _
    have hform : (serQ1 v ++ ',' :: serQ1Items xs) ++ rest
        = serQ1 v ++ (',' :: (serQ1Items xs ++ rest)) := by simp
    rw [hform, s2_serQ1_val v hv.1 (',' :: (serQ1Items xs ++ rest)) revOut]
    rw [s2_one ',' _ _ (by decide)]
    rw [s2_serQ1_items xs hv.2 rest _]
    have hro : (serJsonTCItems xs).reverse ++ ',' :: ((serJsonTC v).reverse ++ revOut)
        = (serJsonTC v ++ ',' :: serJsonTCItems xs).reverse ++ revOut := by simp
    rw [hro]
    rfl

/-- Pass 2 on key-quoted serialized object members. -/
theorem s2_serQ1_members : ∀ (kvs : List (List Char × Value)), WFKvs kvs = true →
    ∀ (rest revOut : List Char),
    s2dGo revOut false false false (serQ1Members kvs ++ rest)
      = s2dGo ((serJsonTCMembers kvs).reverse ++ revOut) false false false rest
  | [], _, rest, revOut => by
    show s2dGo revOut false false false ([] ++ rest) = _
    simp [serJsonTCMembers]
  | (k, v) :: kvs, h, rest, revOut => by
    have hv : isIdentStr k = true ∧ WF v = true ∧ WFKvs kvs = true := by
      simpa [WFKvs, Bool.and_eq_true, and_assoc] using h
    show s2dGo revOut false false false
        (('"' :: k ++ '"' :: ':' :: serQ1 v ++ ',' :: serQ1Members kvs) ++ rest) = _
    have hform : ('"' :: k ++ '"' :: ':' :: serQ1 v ++ ',' :: serQ1Members kvs) ++ rest
        = '"' :: k ++ '"' :: (':' :: (serQ1 v ++ (',' :: (serQ1Members kvs ++ rest)))) := by
      simp
    rw [hform, s2_dstrLit (ident_strBody hv.1) _ revOut]
    rw [s2_one ':' _ _ (by decide)]
    rw [s2_serQ1_val v hv.2.1 (',' :: (serQ1Members kvs ++ rest)) _]
    rw [s2_one ',' _ _ (by decide)]
    rw [s2_serQ1_members kvs hv.2.2 rest _]
    have hro : (serJsonTCMembers kvs).reverse
          ++ ',' :: ((serJsonTC v).reverse
            ++ ':' :: (('"' :: k ++ ['"']).reverse ++ revOut))
        = ('"' :: k ++ '"' :: ':' :: serJsonTC v ++ ',' :: serJsonTCMembers kvs).reverse
          ++ revOut := by
      simp
    rw [hro]
    rfl
end

/-- Pass 2 on a whole key-quoted serialized literal. -/
theorem single_quotes_to_double_serQ1 (v : Value) (h : WF v = true) :
    single_quotes_to_double (serQ1 v) = serJsonTC v := by
  unfold single_quotes_to_double
  have hmain := s2_serQ1_val v h [] []
  rw [List.append_nil] at hmain
  rw [hmain]
  simp [s2dGo]

/-! ### Pass 3: `strip_object_freeze` on serialized literals -/

/-- A character other than `O` never starts the freeze-wrapper pattern. -/
theorem freeze_not_prefix {ch : Char} (h : (ch == 'O') = false) (rest : List Char) :
    ("Object.freeze(".toList.isPrefixOf (ch :: rest)) = false := by
  have hsym : ('O' == ch) = false :=
    beq_eq_false_iff_ne.mpr (Ne.symm (beq_eq_false_iff_ne.mp h))
  show (('O' :: "bject.freeze(".toList).isPrefixOf (ch :: rest)) = false
  simp [List.isPrefixOf, hsym]

/-- The wrapper-stripping loop ignores the stale escape and quote state in
every mode. -/
theorem sofGo_state : ∀ (fuel : Nat) (rest revOut : List Char) (e₁ e₂ : Bool) (q₁ q₂ : Char),
    (sofGo fuel revOut (.top false e₁ q₁) rest = sofGo fuel revOut (.top false e₂ q₂) rest)
    ∧ (∀ par, sofGo fuel revOut (.body e₁ q₁ par) rest
        = sofGo fuel revOut (.body e₂ q₂ par) rest)
    ∧ (∀ par q es2, sofGo fuel revOut (.bodyStr e₁ q₁ par q es2) rest
        = sofGo fuel revOut (.bodyStr e₂ q₂ par q es2) rest)
  | 0, _, _, _, _, _, _ => ⟨rfl, fun _ => rfl, fun _ _ _ => rfl⟩
  | _ + 1, [], _, _, _, _, _ => ⟨rfl, fun _ => rfl, fun _ _ _ => rfl⟩
  | fuel + 1, ch :: rest, revOut, e₁, e₂, q₁, q₂ => by
    refine ⟨?_, fun par => ?_, fun par q es2 => ?_⟩
    · simp only [sofGo, Bool.false_eq_true, if_false]
      split_ifs <;>
        first
        | rfl
        | exact (sofGo_state fuel _ _ e₁ e₂ q₁ q₂).1
        | exact (sofGo_state fuel _ _ e₁ e₂ q₁ q₂).2.1 _
        | exact (sofGo_state fuel _ _ e₁ e₂ q₁ q₂).2.2 _ _ _
    · simp only [sofGo]
      split_ifs <;>
        first
        | rfl
        | exact (sofGo_state fuel _ _ e₁ e₂ q₁ q₂).1
        | exact (sofGo_state fuel _ _ e₁ e₂ q₁ q₂).2.1 _
        | exact (sofGo_state fuel _ _ e₁ e₂ q₁ q₂).2.2 _ _ _
    · simp only [sofGo]
      split_ifs <;>
        first
        | rfl
        | exact (sofGo_state fuel _ _ e₁ e₂ q₁ q₂).1
        | exact (sofGo_state fuel _ _ e₁ e₂ q₁ q₂).2.1 _
        | exact (sofGo_state fuel _ _ e₁ e₂ q₁ q₂).2.2 _ _ _

/-- One plain character through the wrapper-stripping loop. -/
theorem sof_one (c : Char) (rest revOut : List Char) (esc : Bool) (qc : Char)
    (h : sofPlain c = true) :
    sofGo ((c :: rest).length) revOut (.top false esc qc) (c :: rest)
      = sofGo rest.length (c :: revOut) (.top false esc qc) rest := by
  have h1 : (c == '"') = false := by
    have := h; simp only [sofPlain, Bool.and_eq_true, Bool.not_eq_true'] at this
    exact this.1.1
  have h2 : (c == '\'') = false := by
    have := h; simp only [sofPlain, Bool.and_eq_true, Bool.not_eq_true'] at this
    exact this.1.2
  have h3 : (c == 'O') = false := by
    have := h; simp only [sofPlain, Bool.and_eq_true, Bool.not_eq_true'] at this
    exact this.2
  simp only [List.length_cons, sofGo, Bool.false_eq_true, if_false, h1, h2, Bool.or_self,
    freeze_not_prefix h3 rest]

/-- The wrapper-stripping loop appends a chunk of plain characters
unchanged. -/
theorem sof_plain : ∀ (chunk rest revOut : List Char) (esc : Bool) (qc : Char),
    chunk.all sofPlain = true →
    sofGo ((chunk ++ rest).length) revOut (.top false esc qc) (chunk ++ rest)
      = sofGo rest.length (chunk.reverse ++ revOut) (.top false esc qc) rest
  | [], rest, revOut, esc, qc, _ => by simp
  | c :: chunk, rest, revOut, esc, qc, hall => by
    have hc : sofPlain c = true ∧ chunk.all sofPlain = true := by
      simpa [List.all_cons, Bool.and_eq_true] using hall
    show sofGo ((c :: (chunk ++ rest)).length) revOut (.top false esc qc)
        (c :: (chunk ++ rest)) = _
    rw [sof_one c (chunk ++ rest) revOut esc qc hc.1,
      sof_plain chunk rest (c :: revOut) esc qc hc.2]
    simp [List.append_assoc]

/-- The wrapper-stripping loop crosses a string body unchanged. -/
theorem sof_strBody {q : Char} (hq : q = '"' ∨ q = '\'') :
    ∀ {body : List Char}, StrBody q body → ∀ (rest revOut : List Char),
    sofGo ((body ++ q :: rest).length) revOut (.top true false q) (body ++ q :: rest)
      = sofGo rest.length (q :: body.reverse ++ revOut) (.top false false q) rest := by
  intro body hb
  induction hb with
  | nil =>
    intro rest revOut
    have hbq : (q == '\\') = false := by rcases hq with rfl | rfl <;> decide
    show sofGo ((q :: rest).length) revOut (.top true false q) (q :: rest) = _
    simp [sofGo, hbq]
  | plain c rest' hbs hcq _ ih =>
    intro rest revOut
    have h1 : (c == '\\') = false := by simpa using hbs
    have h2 : (c == q) = false := by simpa using hcq
    show sofGo ((c :: (rest' ++ q :: rest)).length) revOut (.top true false q)
        (c :: (rest' ++ q :: rest)) = _
    simp only [List.length_cons, sofGo, if_true, h1, h2, Bool.not_false, Bool.false_eq_true,
      if_false]
    rw [ih rest (c :: revOut)]
    simp [List.append_assoc]
  | esc c rest' _ ih =>
    intro rest revOut
    show sofGo (('\\' :: (c :: (rest' ++ q :: rest))).length) revOut (.top true false q)
        ('\\' :: (c :: (rest' ++ q :: rest))) = _
    simp only [List.length_cons, sofGo, if_true, beq_self_eq_true, Bool.not_true,
      Bool.false_eq_true, if_false]
    rw [ih rest (c :: '\\' :: revOut)]
    simp [List.append_assoc]

/-- The wrapper-stripping loop crosses a whole quoted string literal
unchanged. -/
theorem sof_strLit {q : Char} (hq : q = '"' ∨ q = '\'') {body : List Char}
    (hb : StrBody q body) (rest revOut : List Char) (esc : Bool) (qc : Char) :
    sofGo ((q :: body ++ q :: rest).length) revOut (.top false esc qc) (q :: body ++ q :: rest)
      = sofGo rest.length ((q :: body ++ [q]).reverse ++ revOut) (.top false esc qc) rest := by
  have hcond : (q == '"' || q == '\'') = true := by rcases hq with rfl | rfl <;> decide
  show sofGo ((q :: (body ++ q :: rest)).length) revOut (.top false esc qc)
      (q :: (body ++ q :: rest)) = _
  simp only [List.length_cons, sofGo, Bool.false_eq_true, if_false, hcond, if_true]
  rw [sof_strBody hq hb rest (q :: revOut),
    (sofGo_state rest.length rest (q :: body.reverse ++ q :: revOut) false esc q qc).1]
  have : q :: body.reverse ++ q :: revOut = (q :: body ++ [q]).reverse ++ revOut := by simp
  rw [this]

/-- Text the wrapper-stripping pass leaves unchanged: plain characters (no
quotes, no `O`) and quoted string literals. -/
inductive Nice3 : List Char → Prop
  | nil : Nice3 []
  | plain (c : Char) (rest : List Char) : sofPlain c = true → Nice3 rest → Nice3 (c :: rest)
  | strLit (q : Char) (body rest : List Char) : (q = '"' ∨ q = '\'') → StrBody q body →
      Nice3 rest → Nice3 (q :: body ++ q :: rest)

/-- A plain chunk prepended to wrapper-free text. -/
theorem nice3_chunk : ∀ (chunk rest : List Char), chunk.all sofPlain = true → Nice3 rest →
    Nice3 (chunk ++ rest)
  | [], rest, _, h => h
  | c :: chunk, rest, hall, h => by
    have hc : sofPlain c = true ∧ chunk.all sofPlain = true := by
      simpa [List.all_cons, Bool.and_eq_true] using hall
    exact .plain c (chunk ++ rest) hc.1 (nice3_chunk chunk rest hc.2 h)

/-- The wrapper-stripping loop is the identity on wrapper-free text. -/
theorem sof_nice3 : ∀ {s : List Char}, Nice3 s → ∀ (revOut : List Char) (esc : Bool)
    (qc : Char), sofGo s.length revOut (.top false esc qc) s = revOut.reverse ++ s := by
  intro s hs
  induction hs with
  | nil => intro revOut esc qc; rfl
  | plain c rest hp _ ih =>
    intro revOut esc qc
    rw [sof_one c rest revOut esc qc hp, ih (c :: revOut) esc qc]
    simp
  | strLit q body rest hq hb _ ih =>
    intro revOut esc qc
    rw [sof_strLit hq hb rest revOut esc qc, ih _ esc qc]
    simp

/-- `strip_object_freeze` is the identity on wrapper-free text. -/
theorem strip_object_freeze_nice3 {s : List Char} (h : Nice3 s) :
    strip_object_freeze s = s := by
  unfold strip_object_freeze
  rw [sof_nice3 h [] false ' ']
  rfl

mutual
/-- A serialized JSON-with-trailing-commas value is wrapper-free text. -/
theorem nice3_serJsonTC_val : ∀ (v : Value), WF v = true → ∀ (rest : List Char),
    Nice3 rest → Nice3 (serJsonTC v ++ rest)
  | .null, _, rest, hr => nice3_chunk (serJsonTC .null) rest (by decide) hr
  | .bool b, _, rest, hr => by
    cases b with
    | true => exact nice3_chunk (serJsonTC (.bool true)) rest (by decide) hr
    | false => exact nice3_chunk (serJsonTC (.bool false)) rest (by decide) hr
  | .int n, _, rest, hr =>
    nice3_chunk (renderInt n) rest
      (renderInt_all sofPlain (fun m hm => by interval_cases m <;> decide) (by decide) n) hr
  | .str s, h, rest, hr => by
    show Nice3 (('"' :: jsonEscStr s ++ ['"']) ++ rest)
    have hform : ('"' :: jsonEscStr s ++ ['"']) ++ rest = '"' :: jsonEscStr s ++ '"' :: rest := by
      simp
    rw [hform]
    exact .strLit '"' (jsonEscStr s) rest (Or.inl rfl) (jsonEscStr_strBody s) hr
  | .arr xs, h, rest, hr => by
    have hx : WFList xs = true := by simpa [WF] using h
    show Nice3 (('[' :: serJsonTCItems xs ++ [']']) ++ rest)
    have hform : ('[' :: serJsonTCItems xs ++ [']']) ++ rest
        = '[' :: (serJsonTCItems xs ++ (']' :: rest)) := by simp
    rw [hform]
    exact .plain '[' _ (by decide)
      (nice3_serJsonTC_items xs hx (']' :: rest) (.plain ']' rest (by decide) hr))
  | .obj kvs, h, rest, hr => by
    have hk : WFKvs kvs = true := by
      simp only [WF, Bool.and_eq_true] at h
      exact h.2
    show Nice3 (('{' :: serJsonTCMembers kvs ++ ['}']) ++ rest)
    have hform : ('{' :: serJsonTCMembers kvs ++ ['}']) ++ rest
        = '{' :: (serJsonTCMembers kvs ++ ('}' :: rest)) := by simp
    rw [hform]
    exact .plain '{' _ (by decide)
      (nice3_serJsonTC_members kvs hk ('}' :: rest) (.plain '}' rest (by decide) hr))

/-- Serialized JSON-with-trailing-commas array items are wrapper-free. -/
theorem nice3_serJsonTC_items : ∀ (xs : List Value), WFList xs = true → ∀ (rest : List Char),
    Nice3 rest → Nice3 (serJsonTCItems xs ++ rest)
  | [], _, rest, hr => hr
  | v :: xs, h, rest, hr => by
    have hv : WF v = true ∧ WFList xs = true := by
      simpa [WFList, Bool.and_eq_true] using h
    show Nice3 ((serJsonTC v ++ ',' :: serJsonTCItems xs) ++ rest)
    have hform : (serJsonTC v ++ ',' :: serJsonTCItems xs) ++ rest
        = serJsonTC v ++ (',' :: (serJsonTCItems xs ++ rest)) := by simp
    rw [hform]
    exact nice3_serJsonTC_val v hv.1 _
      (.plain ',' _ (by decide) (nice3_serJsonTC_items xs hv.2 rest hr))

/-- Serialized JSON-with-trailing-commas object members are wrapper-free. -/
theorem nice3_serJsonTC_members : ∀ (kvs : List (List Char × Value)), WFKvs kvs = true →
    ∀ (rest : List Char), Nice3 rest → Nice3 (serJsonTCMembers kvs ++ rest)
  | [], _, rest, hr => hr
  | (k, v) :: kvs, h, rest, hr => by
    have hv : isIdentStr k = true ∧ WF v = true ∧ WFKvs kvs = true := by
      simpa [WFKvs, Bool.and_eq_true, and_assoc] using h
    show Nice3 (('"' :: k ++ '"' :: ':' :: serJsonTC v ++ ',' :: serJsonTCMembers kvs) ++ rest)
    have hform : ('"' :: k ++ '"' :: ':' :: serJsonTC v ++ ',' :: serJsonTCMembers kvs) ++ rest
        = '"' :: k ++ '"' :: (':' :: (serJsonTC v ++ (',' :: (serJsonTCMembers kvs ++ rest)))) := by
      simp
    rw [hform]
    exact .strLit '"' k _ (Or.inl rfl) (ident_strBody hv.1)
      (.plain ':' _ (by decide) (nice3_serJsonTC_val v hv.2.1 _
        (.plain ',' _ (by decide) (nice3_serJsonTC_members kvs hv.2.2 rest hr))))
end

/-- Pass 3 is the identity on a serialized JSON-with-trailing-commas
literal. -/
theorem strip_object_freeze_serJsonTC (v : Value) (h : WF v = true) :
    strip_object_freeze (serJsonTC v) = serJsonTC v := by
  have := nice3_serJsonTC_val v h [] .nil
  rw [List.append_nil] at this
  exact strip_object_freeze_nice3 this

/-! ### Pass 4: `remove_trailing_commas` on serialized literals -/

/-- Head of the whitespace-stripped list, from a known non-space head. -/
theorem dropWhile_head_of_start {rest : List Char} {X : Char} (hx : pyIsSpace X = false)
    (hc : rest.head? = some X) : (rest.dropWhile pyIsSpace).head? = some X := by
  cases rest with
  | nil => cases hc
  | cons r t =>
    have : r = X := by simpa using hc
    subst this
    rw [head_neg_cons hx t]
    rfl

/-- The JSON escape leaves a backslash- and quote-free chunk unchanged. -/
theorem jsonEscStr_plain : ∀ (l : List Char), (∀ c ∈ l, c ≠ '\\' ∧ c ≠ '"') →
    jsonEscStr l = l
  | [], _ => rfl
  | c :: l, h => by
    have hc := h c (List.mem_cons_self c l)
    have h1 : (c == '\\') = false := by simpa using hc.1
    have h2 : (c == '"') = false := by simpa using hc.2
    show jsonEsc c ++ jsonEscStr l = c :: l
    rw [jsonEscStr_plain l (fun d hd => h d (List.mem_cons_of_mem c hd))]
    simp [jsonEsc, h1, h2]

/-- The JSON escape leaves an identifier-shaped key unchanged. -/
theorem jsonEscStr_ident {k : List Char} (h : isIdentStr k = true) : jsonEscStr k = k := by
  cases k with
  | nil => rfl
  | cons c rest =>
    simp only [isIdentStr, Bool.and_eq_true] at h
    have hfirst : identFirst c = true := h.1
    refine jsonEscStr_plain (c :: rest) (fun d hd => ?_)
    rcases List.mem_cons.mp hd with rfl | hmem
    · exact ⟨class_ne hfirst (by decide), class_ne hfirst (by decide)⟩
    · have hdc : identCont d = true := by
        have := h.2
        rw [List.all_eq_true] at this
        exact this d hmem
      exact ⟨class_ne hdc (by decide), class_ne hdc (by decide)⟩

/-- The trailing-comma loop ignores the stale escape and quote state outside
strings. -/
theorem rtcGo_outside : ∀ (rest revOut : List Char) (e₁ e₂ : Bool) (q₁ q₂ : Char),
    rtcGo revOut false e₁ q₁ rest = rtcGo revOut false e₂ q₂ rest
  | [], _, _, _, _, _ => rfl
  | ch :: rest, revOut, e₁, e₂, q₁, q₂ => by
    simp only [rtcGo, Bool.false_eq_true, if_false]
    split_ifs <;>
      first
      | rfl
      | exact rtcGo_outside rest _ e₁ e₂ q₁ q₂
      | (split <;> exact rtcGo_outside rest _ e₁ e₂ q₁ q₂)

/-- One plain character through the trailing-comma loop. -/
theorem rtc_one (c : Char) (rest revOut : List Char) (esc : Bool) (qc : Char)
    (h : rtcPlain c = true) :
    rtcGo revOut false esc qc (c :: rest) = rtcGo (c :: revOut) false esc qc rest := by
  have h1 : (c == '"') = false := by
    have := h; simp only [rtcPlain, Bool.and_eq_true, Bool.not_eq_true'] at this
    exact this.1.1
  have h2 : (c == '\'') = false := by
    have := h; simp only [rtcPlain, Bool.and_eq_true, Bool.not_eq_true'] at this
    exact this.1.2
  have h3 : (c == ',') = false := by
    have := h; simp only [rtcPlain, Bool.and_eq_true, Bool.not_eq_true'] at this
    exact this.2
  simp only [rtcGo, Bool.false_eq_true, if_false, h1, h2, h3, Bool.or_self]

/-- The trailing-comma loop appends a chunk of plain characters unchanged. -/
theorem rtc_plain : ∀ (chunk rest revOut : List Char) (esc : Bool) (qc : Char),
    chunk.all rtcPlain = true →
    rtcGo revOut false esc qc (chunk ++ rest)
      = rtcGo (chunk.reverse ++ revOut) false esc qc rest
  | [], rest, revOut, esc, qc, _ => by simp
  | c :: chunk, rest, revOut, esc, qc, hall => by
    have hc : rtcPlain c = true ∧ chunk.all rtcPlain = true := by
      simpa [List.all_cons, Bool.and_eq_true] using hall
    show rtcGo revOut false esc qc (c :: (chunk ++ rest)) = _
    rw [rtc_one c (chunk ++ rest) revOut esc qc hc.1,
      rtc_plain chunk rest (c :: revOut) esc qc hc.2]
    simp [List.append_assoc]

/-- A comma whose next non-space character closes no bracket is kept. -/
theorem rtc_comma_keep (rest revOut : List Char) (esc : Bool) (qc : Char)
    (h : ∀ c, (rest.dropWhile pyIsSpace).head? = some c →
      ((c == '}') = false ∧ (c == ']') = false)) :
    rtcGo revOut false esc qc (',' :: rest) = rtcGo (',' :: revOut) false esc qc rest := by
  simp only [rtcGo, Bool.false_eq_true, if_false, beq_self_eq_true, if_true,
    (show ((',' : Char) == '"' || (',' : Char) == '\'') = false by decide)]
  cases hopt : (rest.dropWhile pyIsSpace).head? with
  | none => rfl
  | some c =>
    have hcc := h c hopt
    split
    · rename_i heq
      have : c = '}' := by simpa using heq
      subst this
      exact absurd hcc.1 (by decide)
    · rename_i heq
      have : c = ']' := by simpa using heq
      subst this
      exact absurd hcc.2 (by decide)
    · rfl

/-- A comma whose next non-space character closes a bracket is dropped. -/
theorem rtc_comma_drop (rest revOut : List Char) (esc : Bool) (qc : Char)
    (h : (rest.dropWhile pyIsSpace).head? = some '}'
      ∨ (rest.dropWhile pyIsSpace).head? = some ']') :
    rtcGo revOut false esc qc (',' :: rest) = rtcGo revOut false esc qc rest := by
  simp only [rtcGo, Bool.false_eq_true, if_false, beq_self_eq_true, if_true,
    (show ((',' : Char) == '"' || (',' : Char) == '\'') = false by decide)]
  rcases h with h | h <;> rw [h] <;> rfl

/-- The trailing-comma loop crosses a string body unchanged. -/
theorem rtc_strBody {q : Char} (hq : q = '"' ∨ q = '\'') :
    ∀ {body : List Char}, StrBody q body → ∀ (rest revOut : List Char),
    rtcGo revOut true false q (body ++ q :: rest)
      = rtcGo (q :: body.reverse ++ revOut) false false q rest := by
  intro body hb
  induction hb with
  | nil =>
    intro rest revOut
    have hbq : (q == '\\') = false := by rcases hq with rfl | rfl <;> decide
    show rtcGo revOut true false q (q :: rest) = _
    simp [rtcGo, hbq]
  | plain c rest' hbs hcq _ ih =>
    intro rest revOut
    have h1 : (c == '\\') = false := by simpa using hbs
    have h2 : (c == q) = false := by simpa using hcq
    show rtcGo revOut true false q (c :: (rest' ++ q :: rest)) = _
    simp only [rtcGo, if_true, h1, h2, Bool.not_false, Bool.false_eq_true, if_false]
    rw [ih rest (c :: revOut)]
    simp [List.append_assoc]
  | esc c rest' _ ih =>
    intro rest revOut
    show rtcGo revOut true false q ('\\' :: (c :: (rest' ++ q :: rest))) = _
    simp only [rtcGo, if_true, beq_self_eq_true, Bool.not_true, Bool.false_eq_true, if_false]
    rw [ih rest (c :: '\\' :: revOut)]
    simp [List.append_assoc]

/-- The trailing-comma loop crosses a whole quoted string literal
unchanged. -/
theorem rtc_strLit {q : Char} (hq : q = '"' ∨ q = '\'') {body : List Char}
    (hb : StrBody q body) (rest revOut : List Char) (esc : Bool) (qc : Char) :
    rtcGo revOut false esc qc (q :: body ++ q :: rest)
      = rtcGo ((q :: body ++ [q]).reverse ++ revOut) false esc qc rest := by
  have hcond : (q == '"' || q == '\'') = true := by rcases hq with rfl | rfl <;> decide
  show rtcGo revOut false esc qc (q :: (body ++ q :: rest)) = _
  simp only [rtcGo, Bool.false_eq_true, if_false, hcond, if_true]
  rw [rtc_strBody hq hb rest (q :: revOut),
    rtcGo_outside rest (q :: body.reverse ++ q :: revOut) false esc q qc]
  have : q :: body.reverse ++ q :: revOut = (q :: body ++ [q]).reverse ++ revOut := by simp
  rw [this]

mutual
/-- Pass 4 maps a serialized JSON-with-trailing-commas value to strict
JSON. -/
theorem rtc_serJsonTC_val : ∀ (v : Value), WF v = true → ∀ (rest revOut : List Char)
    (esc : Bool) (qc : Char),
    rtcGo revOut false esc qc (serJsonTC v ++ rest)
      = rtcGo ((serJson v).reverse ++ revOut) false esc qc rest
  | .null, _, rest, revOut, esc, qc =>
    rtc_plain (serJsonTC .null) rest revOut esc qc (by decide)
  | .bool b, _, rest, revOut, esc, qc => by
    cases b with
    | true => exact rtc_plain (serJsonTC (.bool true)) rest revOut esc qc (by decide)
    | false => exact rtc_plain (serJsonTC (.bool false)) rest revOut esc qc (by decide)
  | .int n, _, rest, revOut, esc, qc =>
    rtc_plain (renderInt n) rest revOut esc qc
      (renderInt_all rtcPlain (fun m hm => by interval_cases m <;> decide) (by decide) n)
  | .str s, h, rest, revOut, esc, qc => by
    show rtcGo revOut false esc qc (('"' :: jsonEscStr s ++ ['"']) ++ rest) = _
    have hform : ('"' :: jsonEscStr s ++ ['"']) ++ rest = '"' :: jsonEscStr s ++ '"' :: rest := by
      simp
    rw [hform, rtc_strLit (Or.inl rfl) (jsonEscStr_strBody s) rest revOut esc qc]
    rfl
  | .arr xs, h, rest, revOut, esc, qc => by
    have hx : WFList xs = true := by simpa [WF] using h
    show rtcGo revOut false esc qc (('[' :: serJsonTCItems xs ++ [']']) ++ rest) = _
    have hform : ('[' :: serJsonTCItems xs ++ [']']) ++ rest
        = '[' :: (serJsonTCItems xs ++ (']' :: rest)) := by simp
    rw [hform, rtc_one '[' _ revOut esc qc (by decide)]
    rw [rtc_serJsonTC_items xs hx rest ('[' :: revOut) esc qc]
    rw [rtc_one ']' rest _ esc qc (by decide)]
    have hro : ']' :: ((serJsonItems xs).reverse ++ '[' :: revOut)
        = ('[' :: serJsonItems xs ++ [']']).reverse ++ revOut := by simp
    rw [hro]
    rfl
  | .obj kvs, h, rest, revOut, esc, qc => by
    have hk : WFKvs kvs = true := by
      simp only [WF, Bool.and_eq_true] at h
      exact h.2
    show rtcGo revOut false esc qc (('{' :: serJsonTCMembers kvs ++ ['}']) ++ rest) = _
    have hform : ('{' :: serJsonTCMembers kvs ++ ['}']) ++ rest
        = '{' :: (serJsonTCMembers kvs ++ ('}' :: rest)) := by simp
    rw [hform, rtc_one '{' _ revOut esc qc (by decide)]
    rw [rtc_serJsonTC_members kvs hk rest ('{' :: revOut) esc qc]
    rw [rtc_one '}' rest _ esc qc (by decide)]
    have hro : '}' :: ((serJsonMembers kvs).reverse ++ '{' :: revOut)
        = ('{' :: serJsonMembers kvs ++ ['}']).reverse ++ revOut := by simp
    rw [hro]
    rfl

/-- Pass 4 on serialized array items: the one trailing comma before the
closing bracket is dropped, the separators are kept. -/
theorem rtc_serJsonTC_items : ∀ (xs : List Value), WFList xs = true → ∀ (rest revOut : List Char)
    (esc : Bool) (qc : Char),
    rtcGo revOut false esc qc (serJsonTCItems xs ++ (']' :: rest))
      = rtcGo ((serJsonItems xs).reverse ++ revOut) false esc qc (']' :: rest)
  | [], _, rest, revOut, esc, qc => by
    show rtcGo revOut false esc qc ([] ++ (']' :: rest)) = _
    simp [serJsonItems]
  | v :: xs, h, rest, revOut, esc, qc => by
    have hv : WF v = true ∧ WFList xs = true := by
      simpa [WFList, Bool.and_eq_true] using h
    show rtcGo revOut false esc qc ((serJsonTC v ++ ',' :: serJsonTCItems xs) ++ (']' :: rest)) = _
    have hform : (serJsonTC v ++ ',' :: serJsonTCItems xs) ++ (']' :: rest)
        = serJsonTC v ++ (',' :: (serJsonTCItems xs ++ (']' :: rest))) := by simp
    rw [hform, rtc_serJsonTC_val v hv.1 (',' :: (serJsonTCItems xs ++ (']' :: rest)))
      revOut esc qc]
    cases xs with
    | nil =>
      have hnil : serJsonTCItems ([] : List Value) ++ (']' :: rest) = ']' :: rest := by
        show ([] : List Char) ++ (']' :: rest) = ']' :: rest
        simp
      rw [hnil]
      rw [rtc_comma_drop (']' :: rest) _ esc qc
        (Or.inr (dropWhile_head_of_start (by decide) rfl))]
      show _ = rtcGo ((serJson v).reverse ++ revOut) false esc qc (']' :: rest)
      rfl
    | cons v2 xs2 =>
      obtain ⟨c, t, hct, hst⟩ := serJsonTC_head v2
      have hkeep : ∀ d, ((serJsonTCItems (v2 :: xs2) ++ (']' :: rest)).dropWhile
          pyIsSpace).head? = some d → ((d == '}') = false ∧ (d == ']') = false) := by
        intro d hd
        have hshape : serJsonTCItems (v2 :: xs2) ++ (']' :: rest)
            = c :: (t ++ ',' :: serJsonTCItems xs2 ++ (']' :: rest)) := by
          show (serJsonTC v2 ++ ',' :: serJsonTCItems xs2) ++ (']' :: rest) = _
          rw [hct]
          simp
        rw [hshape] at hd
        have hsp : pyIsSpace c = false := by
          have := hst; simp only [startChar, Bool.and_eq_true, Bool.not_eq_true'] at this
          exact this.1.1.2
        rw [head_neg_cons hsp _] at hd
        have hdc : c = d := by simpa using hd
        subst hdc
        constructor
        · have := hst; simp only [startChar, Bool.and_eq_true, Bool.not_eq_true'] at this
          exact this.1.2
        · have := hst; simp only [startChar, Bool.and_eq_true, Bool.not_eq_true'] at this
          exact this.2
      rw [rtc_comma_keep (serJsonTCItems (v2 :: xs2) ++ (']' :: rest)) _ esc qc hkeep]
      rw [rtc_serJsonTC_items (v2 :: xs2) hv.2 rest (',' :: ((serJson v).reverse ++ revOut))
        esc qc]
      have hro : (serJsonItems (v2 :: xs2)).reverse ++ ',' :: ((serJson v).reverse ++ revOut)
          = (serJson v ++ ',' :: serJsonItems (v2 :: xs2)).reverse ++ revOut := by simp
      rw [hro]
      rfl

/-- Pass 4 on serialized object members: the one trailing comma before the
closing brace is dropped, the separators are kept. -/
theorem rtc_serJsonTC_members : ∀ (kvs : List (List Char × Value)), WFKvs kvs = true →
    ∀ (rest revOut : List Char) (esc : Bool) (qc : Char),
    rtcGo revOut false esc qc (serJsonTCMembers kvs ++ ('}' :: rest))
      = rtcGo ((serJsonMembers kvs).reverse ++ revOut) false esc qc ('}' :: rest)
  | [], _, rest, revOut, esc, qc => by
    show rtcGo revOut false esc qc ([] ++ ('}' :: rest)) = _
    simp [serJsonMembers]
  | (k, v) :: kvs, h, rest, revOut, esc, qc => by
    have hv : isIdentStr k = true ∧ WF v = true ∧ WFKvs kvs = true := by
      simpa [WFKvs, Bool.and_eq_true, and_assoc] using h
    show rtcGo revOut false esc qc
        (('"' :: k ++ '"' :: ':' :: serJsonTC v ++ ',' :: serJsonTCMembers kvs)
          ++ ('}' :: rest)) = _
    have hform : ('"' :: k ++ '"' :: ':' :: serJsonTC v ++ ',' :: serJsonTCMembers kvs)
          ++ ('}' :: rest)
        = '"' :: k ++ '"' :: (':' :: (serJsonTC v
            ++ (',' :: (serJsonTCMembers kvs ++ ('}' :: rest))))) := by
      simp
    rw [hform, rtc_strLit (Or.inl rfl) (ident_strBody hv.1) _ revOut esc qc]
    rw [rtc_one ':' _ _ esc qc (by decide)]
    rw [rtc_serJsonTC_val v hv.2.1 (',' :: (serJsonTCMembers kvs ++ ('}' :: rest))) _ esc qc]
    cases kvs with
    | nil =>
      have hnil : serJsonTCMembers ([] : List (List Char × Value)) ++ ('}' :: rest)
          = '}' :: rest := by
        show ([] : List Char) ++ ('}' :: rest) = '}' :: rest
        simp
      rw [hnil]
      rw [rtc_comma_drop ('}' :: rest) _ esc qc
        (Or.inl (dropWhile_head_of_start (by decide) rfl))]
      have hm : serJsonMembers [(k, v)] = '"' :: k ++ '"' :: ':' :: serJson v := by
        show '"' :: jsonEscStr k ++ '"' :: ':' :: serJson v = _
        rw [jsonEscStr_ident hv.1]
      rw [hm]
      have hro : (serJson v).reverse ++ (':' :: (('"' :: k ++ ['"']).reverse ++ revOut))
          = ('"' :: k ++ '"' :: ':' :: serJson v).reverse ++ revOut := by simp
      rw [hro]
    | cons kv2 kvs2 =>
      obtain ⟨k2, v2⟩ := kv2
      have hkeep : ∀ d, ((serJsonTCMembers ((k2, v2) :: kvs2) ++ ('}' :: rest)).dropWhile
          pyIsSpace).head? = some d → ((d == '}') = false ∧ (d == ']') = false) := by
        intro d hd
        have hshape : serJsonTCMembers ((k2, v2) :: kvs2) ++ ('}' :: rest)
            = '"' :: (k2 ++ '"' :: ':' :: serJsonTC v2 ++ ',' :: serJsonTCMembers kvs2
              ++ ('}' :: rest)) := by
          show ('"' :: k2 ++ '"' :: ':' :: serJsonTC v2 ++ ',' :: serJsonTCMembers kvs2)
            ++ ('}' :: rest) = _
          simp
        rw [hshape, head_neg_cons (show pyIsSpace '"' = false by decide) _] at hd
        have hdc : '"' = d := by simpa using hd
        subst hdc
        exact ⟨by decide, by decide⟩
      rw [rtc_comma_keep (serJsonTCMembers ((k2, v2) :: kvs2) ++ ('}' :: rest)) _ esc qc hkeep]
      rw [rtc_serJsonTC_members ((k2, v2) :: kvs2) hv.2.2 rest
        (',' :: ((serJson v).reverse ++ (':' :: (('"' :: k ++ ['"']).reverse ++ revOut))))
        esc qc]
      have hm : serJsonMembers ((k, v) :: (k2, v2) :: kvs2)
          = '"' :: k ++ '"' :: ':' :: serJson v ++ ',' :: serJsonMembers ((k2, v2) :: kvs2) := by
        show '"' :: jsonEscStr k ++ '"' :: ':' :: serJson v
            ++ ',' :: serJsonMembers ((k2, v2) :: kvs2) = _
        rw [jsonEscStr_ident hv.1]
      rw [hm]
      have hro : (serJsonMembers ((k2, v2) :: kvs2)).reverse
            ++ ',' :: ((serJson v).reverse ++ (':' :: (('"' :: k ++ ['"']).reverse ++ revOut)))
          = ('"' :: k ++ '"' :: ':' :: serJson v
              ++ ',' :: serJsonMembers ((k2, v2) :: kvs2)).reverse ++ revOut := by
        simp
      rw [hro]
end

/-- Pass 4 on a whole serialized object literal with trailing commas. -/
theorem remove_trailing_commas_serJsonTC (kvs : List (List Char × Value))
    (h : WF (.obj kvs) = true) :
    remove_trailing_commas (serJsonTC (.obj kvs)) = serJson (.obj kvs) := by
  unfold remove_trailing_commas
  have hk : WFKvs kvs = true := by
    simp only [WF, Bool.and_eq_true] at h
    exact h.2
  show rtcGo [] false false ' ' ('{' :: serJsonTCMembers kvs ++ ['}']) = _
  have hform : '{' :: serJsonTCMembers kvs ++ ['}']
      = '{' :: (serJsonTCMembers kvs ++ ('}' :: [])) := by simp
  rw [hform, rtc_one '{' _ [] false ' ' (by decide)]
  rw [rtc_serJsonTC_members kvs hk [] ['{'] false ' ']
  show rtcGo ((serJsonMembers kvs).reverse ++ ['{']) false false ' ' ('}' :: []) = _
  rw [rtc_one '}' [] _ false ' ' (by decide)]
  show ('}' :: ((serJsonMembers kvs).reverse ++ ['{'])).reverse = _
  show _ = '{' :: serJsonMembers kvs ++ ['}']
  simp

/-- The four-pass Normalizer maps the serialized JS literal of a well-formed
map to its strict-JSON rendering. -/
theorem js_object_to_json_text_serJs (kvs : List (List Char × Value))
    (h : WF (.obj kvs) = true) :
    js_object_to_json_text (serJs (.obj kvs)) = serJson (.obj kvs) := by
  unfold js_object_to_json_text
  rw [quote_unquoted_keys_serJs _ h, single_quotes_to_double_serQ1 _ h,
    strip_object_freeze_serJsonTC _ h, remove_trailing_commas_serJsonTC kvs h]

/-! ### The strict decoder on serialized JSON -/

/-- Character order transfers to code points. -/
theorem char_le_toNat {a c : Char} (h : decide (a ≤ c) = true) : a.toNat ≤ c.toNat :=
  of_decide_eq_true h

/-- Identifier-continuation characters are printable (at or above the space
character). -/
theorem identCont_ge_space {c : Char} (h : identCont c = true) : 0x20 ≤ c.toNat := by
  simp only [identCont, pyIsAlnum, pyIsAlpha, Char.isDigit, Bool.or_eq_true,
    Bool.and_eq_true] at h
  rcases h with ((⟨h1, _⟩ | ⟨h1, _⟩) | ⟨h1, _⟩) | h1
  · have h2 : ('a' : Char).toNat ≤ c.toNat := char_le_toNat h1
    have : ('a' : Char).toNat = 97 := by decide
    omega
  · have h2 : ('A' : Char).toNat ≤ c.toNat := char_le_toNat h1
    have : ('A' : Char).toNat = 65 := by decide
    omega
  · have h2 : ('0' : Char).toNat ≤ c.toNat := char_le_toNat h1
    have : ('0' : Char).toNat = 48 := by decide
    omega
  · have : c = '_' := by simpa using h1
    subst this
    decide

/-- Identifier head characters are printable. -/
theorem identFirst_ge_space {c : Char} (h : identFirst c = true) : 0x20 ≤ c.toNat := by
  simp only [identFirst, pyIsAlpha, Bool.or_eq_true, Bool.and_eq_true] at h
  rcases h with (⟨h1, _⟩ | ⟨h1, _⟩) | h1
  · have h2 : ('a' : Char).toNat ≤ c.toNat := char_le_toNat h1
    have : ('a' : Char).toNat = 97 := by decide
    omega
  · have h2 : ('A' : Char).toNat ≤ c.toNat := char_le_toNat h1
    have : ('A' : Char).toNat = 65 := by decide
    omega
  · have : c = '_' := by simpa using h1
    subst this
    decide

/-- Building the `goodChar` conjunction. -/
theorem goodChar_of {c : Char} (h1 : 0x20 ≤ c.toNat) (h2 : (c == '\'') = false) :
    goodChar c = true := by
  simp [goodChar, h1, h2]

/-- Identifier-shaped keys are strings over `goodChar`. -/
theorem ident_goodChar {k : List Char} (h : isIdentStr k = true) : k.all goodChar = true := by
  cases k with
  | nil => rfl
  | cons c rest =>
    simp only [isIdentStr, Bool.and_eq_true] at h
    have hfirst : identFirst c = true := h.1
    rw [List.all_eq_true]
    intro d hd
    rcases List.mem_cons.mp hd with rfl | hmem
    · exact goodChar_of (identFirst_ge_space hfirst) (class_beq_false hfirst (by decide))
    · have hdc : identCont d = true := by
        have := h.2
        rw [List.all_eq_true] at this
        exact this d hmem
      exact goodChar_of (identCont_ge_space hdc) (class_beq_false hdc (by decide))

/-- The strict string parser inverts the JSON escape of a `goodChar`
string. -/
theorem parseStrBody_jsonEscStr : ∀ (s : List Char), s.all goodChar = true →
    ∀ (rest : List Char),
    parseStrBody (jsonEscStr s ++ '"' :: rest) = some (s, rest)
  | [], _, rest => by
    show parseStrBody ('"' :: rest) = some ([], rest)
    simp [parseStrBody.eq_def]
  | c :: s, hall, rest => by
    have hc : goodChar c = true ∧ s.all goodChar = true := by
      simpa [List.all_cons, Bool.and_eq_true] using hall
    have hctrl : ¬(c.toNat < 0x20) := by
      have := hc.1
      simp only [goodChar, Bool.and_eq_true] at this
      have := of_decide_eq_true this.1
      omega
    show parseStrBody ((jsonEsc c ++ jsonEscStr s) ++ '"' :: rest) = some (c :: s, rest)
    by_cases hbs : (c == '\\') = true
    · have hcc : c = '\\' := by simpa using hbs
      subst hcc
      show parseStrBody ('\\' :: ('\\' :: (jsonEscStr s ++ '"' :: rest))) = _
      rw [parseStrBody.eq_def]
      simp [parseStrBody_jsonEscStr s hc.2 rest]
    · have hbs' : (c == '\\') = false := by simpa using hbs
      by_cases hdq : (c == '"') = true
      · have hcc : c = '"' := by simpa using hdq
        subst hcc
        show parseStrBody ('\\' :: ('"' :: (jsonEscStr s ++ '"' :: rest))) = _
        rw [parseStrBody.eq_def]
        simp [parseStrBody_jsonEscStr s hc.2 rest]
      · have hdq' : (c == '"') = false := by simpa using hdq
        have hjn : jsonEsc c = [c] := by simp [jsonEsc, hbs', hdq']
        rw [hjn]
        show parseStrBody (c :: (jsonEscStr s ++ '"' :: rest)) = _
        rw [parseStrBody.eq_def]
        simp only [hdq', hbs', Bool.false_eq_true, if_false, hctrl,
          parseStrBody_jsonEscStr s hc.2 rest]
        rfl

/-- The digit-run parser folds a digit chunk and stops at the first
non-digit. -/
theorem parseDigits_append : ∀ (ds : List Char) (acc : Nat) (rest : List Char),
    ds.all Char.isDigit = true → (∀ c, rest.head? = some c → c.isDigit = false) →
    parseDigits acc (ds ++ rest)
      = (ds.foldl (fun a c => a * 10 + digitVal c) acc, rest)
  | [], acc, rest, _, hstop => by
    cases rest with
    | nil => rfl
    | cons r t =>
      have := hstop r rfl
      show parseDigits acc (r :: t) = (acc, r :: t)
      simp [parseDigits, this]
  | d :: ds, acc, rest, hall, hstop => by
    have hd : d.isDigit = true ∧ ds.all Char.isDigit = true := by
      simpa [List.all_cons, Bool.and_eq_true] using hall
    show parseDigits acc (d :: (ds ++ rest)) = _
    simp only [parseDigits, hd.1, if_true]
    exact parseDigits_append ds (acc * 10 + digitVal d) rest hd.2 hstop

/-- Folding the decimal digits of `n` onto an accumulator. -/
theorem natDigitsAux_foldl : ∀ (fuel n acc : Nat), n < 10 ^ fuel →
    (natDigitsAux fuel n).foldl (fun a c => a * 10 + digitVal c) acc
      = acc * 10 ^ (natDigitsAux fuel n).length + n
  | 0, n, acc, hn => by
    have : n = 0 := by simpa using hn
    subst this
    simp [natDigitsAux]
  | fuel + 1, n, acc, hn => by
    by_cases h : n < 10
    · have hdv : digitVal (Char.ofNat (48 + n)) = n := by
        interval_cases n <;> decide
      simp [natDigitsAux, h, List.foldl, hdv]
    · have hm : n % 10 < 10 := Nat.mod_lt _ (by omega)
      have hlt : n / 10 < 10 ^ fuel := by
        rw [pow_succ] at hn
        omega
      have hdv : digitVal (Char.ofNat (48 + n % 10)) = n % 10 := by
        interval_cases hh : (n % 10) <;> decide
      simp only [natDigitsAux, h, if_false, List.foldl_append, List.length_append,
        List.foldl, List.length_cons, List.length_nil]
      rw [natDigitsAux_foldl fuel (n / 10) acc hlt, hdv, pow_succ, ← mul_assoc]
      have hmod := Nat.div_add_mod n 10
      omega

/-- The unsigned-number parser inverts the decimal rendering. -/
theorem parseUNum_natDigits (n : Nat) (rest : List Char)
    (hstop : ∀ c, rest.head? = some c → c.isDigit = false) :
    parseUNum (natDigits n ++ rest) = some (n, rest) := by
  by_cases hz : n = 0
  · subst hz
    have h0 : natDigits 0 = ['0'] := by decide
    rw [h0]
    show parseUNum ('0' :: rest) = some (0, rest)
    simp [parseUNum]
  · obtain ⟨c, t, hct, hdig, hz'⟩ := natDigits_head n
    have hcne : c ≠ '0' := hz' (by omega)
    have hc0 : (c == '0') = false := beq_eq_false_iff_ne.mpr hcne
    have htall : t.all Char.isDigit = true := by
      have hall := natDigits_all Char.isDigit (fun m hm => by interval_cases m <;> decide) n
      rw [hct, List.all_cons, Bool.and_eq_true] at hall
      exact hall.2
    rw [hct]
    show parseUNum (c :: (t ++ rest)) = some (n, rest)
    simp only [parseUNum, hc0, Bool.false_eq_true, if_false, hdig, if_true]
    rw [parseDigits_append t (digitVal c) rest htall hstop]
    have hfold : t.foldl (fun a c => a * 10 + digitVal c) (digitVal c) = n := by
      have h1 : (natDigits n).foldl (fun a c => a * 10 + digitVal c) 0 = n := by
        have hb : n < 10 ^ (n + 1) := by
          calc n < 10 ^ n := Nat.lt_pow_self (by omega) n
          _ ≤ 10 ^ (n + 1) := Nat.pow_le_pow_right (by omega) (by omega)
        have := natDigitsAux_foldl (n + 1) n 0 hb
        simpa using this
      rw [hct] at h1
      simpa [List.foldl, digitVal] using h1
    rw [hfold]

/-- Characters that may legally follow a serialized value. -/
def valStop (c : Char) : Bool := (c == ',') || (c == '}') || (c == ']')

/-- A value-stop character neither continues a number nor starts a float
suffix. -/
theorem valStop_numStop {c : Char} (h : valStop c = true) :
    (c.isDigit || c == '.' || c == 'e' || c == 'E') = false := by
  simp only [valStop, Bool.or_eq_true] at h
  rcases h with (h | h) | h
  · have : c = ',' := by simpa using h
    subst this; decide
  · have : c = '}' := by simpa using h
    subst this; decide
  · have : c = ']' := by simpa using h
    subst this; decide

/-- The integer-token parser inverts `renderInt` when no digit or float
suffix follows. -/
theorem parseIntTok_renderInt (n : Int) (rest : List Char)
    (hstop : ∀ c, rest.head? = some c → (c.isDigit || c == '.' || c == 'e' || c == 'E') = false) :
    parseIntTok (renderInt n ++ rest) = some (n, rest) := by
  have hdstop : ∀ c, rest.head? = some c → c.isDigit = false := fun c hc => by
    have := hstop c hc
    simp only [Bool.or_eq_false_iff] at this
    exact this.1.1.1
  by_cases hn : n < 0
  · have hr : renderInt n = '-' :: natDigits (-n).toNat := by
      unfold renderInt
      rw [if_pos hn]
    rw [hr]
    show parseIntTok ('-' :: (natDigits (-n).toNat ++ rest)) = some (n, rest)
    have harm : parseIntTok ('-' :: (natDigits (-n).toNat ++ rest))
        = (parseUNum (natDigits (-n).toNat ++ rest)).bind fun p =>
            match p.2 with
            | c :: _ => if c == '.' || c == 'e' || c == 'E' then none
                else some (-(p.1 : Int), p.2)
            | [] => some (-(p.1 : Int), []) := rfl
    rw [harm, parseUNum_natDigits (-n).toNat rest hdstop]
    cases rest with
    | nil =>
      show some (-(((-n).toNat : Nat) : Int), ([] : List Char)) = some (n, [])
      have : (((-n).toNat : Nat) : Int) = -n := by omega
      rw [this]
      simp
    | cons r t =>
      have hrs := hstop r rfl
      simp only [Bool.or_eq_false_iff] at hrs
      show (if r == '.' || r == 'e' || r == 'E' then none
          else some (-(((-n).toNat : Nat) : Int), r :: t)) = some (n, r :: t)
      rw [if_neg (by
        simp only [Bool.or_eq_true]
        rintro ((h | h) | h)
        · rw [hrs.1.1.2] at h; exact Bool.noConfusion h
        · rw [hrs.1.2] at h; exact Bool.noConfusion h
        · rw [hrs.2] at h; exact Bool.noConfusion h)]
      have : (((-n).toNat : Nat) : Int) = -n := by omega
      rw [this]
      simp
  · have hr : renderInt n = natDigits n.toNat := by
      unfold renderInt
      rw [if_neg hn]
    obtain ⟨c, t, hct, hdig, _⟩ := natDigits_head n.toNat
    have hform : renderInt n ++ rest = c :: (t ++ rest) := by
      rw [hr, hct]
      rfl
    rw [hform]
    have hcm : (c == '-') = false := class_beq_false hdig (by decide)
    show parseIntTok (c :: (t ++ rest)) = some (n, rest)
    unfold parseIntTok
    split
    · rename_i rest' heq
      have : c = '-' := by
        have := List.head_eq_of_cons_eq heq.symm
        exact this.symm
      exact absurd this (beq_eq_false_iff_ne.mp hcm)
    · rename_i harms
      have hback : c :: (t ++ rest) = natDigits n.toNat ++ rest := by
        rw [hct]
        rfl
      rw [hback, parseUNum_natDigits n.toNat rest hdstop]
      cases rest with
      | nil =>
        show some ((n.toNat : Int), ([] : List Char)) = some (n, [])
        have : ((n.toNat : Nat) : Int) = n := by omega
        rw [this]
      | cons r tr =>
        have hrs := hstop r rfl
        simp only [Bool.or_eq_false_iff] at hrs
        show (if r == '.' || r == 'e' || r == 'E' then none
            else some ((n.toNat : Int), r :: tr)) = some (n, r :: tr)
        rw [if_neg (by
          simp only [Bool.or_eq_true]
          rintro ((h | h) | h)
          · rw [hrs.1.1.2] at h; exact Bool.noConfusion h
          · rw [hrs.1.2] at h; exact Bool.noConfusion h
          · rw [hrs.2] at h; exact Bool.noConfusion h)]
        have : ((n.toNat : Nat) : Int) = n := by omega
        rw [this]

/-- Propagating a known character class from the head. -/
theorem head_all {P : Char → Bool} {X : Char} (hX : P X = true) (t : List Char) :
    ∀ c, (X :: t).head? = some c → P c = true := fun c hc => by
  have : X = c := by simpa using hc
  rw [← this]
  exact hX

/-- Digits are not JSON whitespace. -/
theorem digit_not_ws {c : Char} (h : c.isDigit = true) : jsonWs c = false := by
  simp only [jsonWs, Bool.or_eq_false_iff]
  exact ⟨⟨⟨class_beq_false h (by decide), class_beq_false h (by decide)⟩,
    class_beq_false h (by decide)⟩, class_beq_false h (by decide)⟩

/-- A negative `contains` check gives pointwise distinctness. -/
theorem contains_false_ne {k : List Char} : ∀ (ks : List (List Char)),
    (ks.contains k) = false → ∀ k2 ∈ ks, k ≠ k2
  | [], _, k2, h2 => absurd h2 (List.not_mem_nil k2)
  | k2 :: ks, h, k3, h3 => by
    rw [List.contains_cons, Bool.or_eq_false_iff] at h
    rcases List.mem_cons.mp h3 with rfl | hmem
    · exact beq_eq_false_iff_ne.mp h.1
    · exact contains_false_ne ks h.2 k3 hmem

/-- Unpacking one step of the duplicate-free key check. -/
theorem nodupKeys_cons {k : List Char} {ks : List (List Char)}
    (h : nodupKeys (k :: ks) = true) :
    (∀ k2 ∈ ks, k ≠ k2) ∧ nodupKeys ks = true := by
  simp only [nodupKeys, Bool.and_eq_true, Bool.not_eq_true'] at h
  exact ⟨contains_false_ne ks h.1, h.2⟩

/-- Python dict store on a fresh key appends the binding. -/
theorem pyDictSet_fresh (m : Row) (k : List Char) (v : Value)
    (h : ∀ p ∈ m, p.1 ≠ k) : pyDictSet m k v = m ++ [(k, v)] := by
  have hf : m.find? (fun e => e.1 == k) = none := by
    rw [List.find?_eq_none]
    intro x hx
    simpa using h x hx
  simp [pyDictSet, hf]

/-- Head of serialized nonempty array items. -/
theorem serJsonItems_head : ∀ (xs : List Value), xs ≠ [] →
    ∃ c t, serJsonItems xs = c :: t ∧ startChar c = true
  | [], h => absurd rfl h
  | [v], _ => serJson_head v
  | v :: v2 :: xs, _ => by
    obtain ⟨c, t, hct, hst⟩ := serJson_head v
    refine ⟨c, t ++ ',' :: serJsonItems (v2 :: xs), ?_, hst⟩
    show serJson v ++ ',' :: serJsonItems (v2 :: xs) = _
    rw [hct]
    rfl

set_option maxHeartbeats 1000000 in
/-- In a non-`'-'` case, `parseVal` reaches the number arm when the head is
none of the structural starters. -/
theorem parseVal_int_arm (g : Nat) (c : Char) (X : List Char)
    (hws : jsonWs c = false)
    (h1 : (c == '{') = false) (h2 : (c == '[') = false) (h3 : (c == '"') = false)
    (h4 : (c == 't') = false) (h5 : (c == 'f') = false) (h6 : (c == 'n') = false) :
    parseVal (g + 1) (c :: X) = (parseIntTok (c :: X)).map (fun p => (Value.int p.1, p.2)) := by
  have harm : parseVal (g + 1) (c :: X) = match (c :: X).dropWhile jsonWs with
      | '{' :: rest =>
        (match rest.dropWhile jsonWs with
        | '}' :: rest2 => some (Value.obj [], rest2)
        | _ => parseMembers g rest [])
      | '[' :: rest =>
        (match rest.dropWhile jsonWs with
        | ']' :: rest2 => some (Value.arr [], rest2)
        | _ => parseItems g rest [])
      | '"' :: rest => (parseStrBody rest).map (fun p => (Value.str p.1, p.2))
      | 't' :: 'r' :: 'u' :: 'e' :: rest => some (Value.bool true, rest)
      | 'f' :: 'a' :: 'l' :: 's' :: 'e' :: rest => some (Value.bool false, rest)
      | 'n' :: 'u' :: 'l' :: 'l' :: rest => some (Value.null, rest)
      | s1 => (parseIntTok s1).map (fun p => (Value.int p.1, p.2)) := rfl
  rw [harm, head_neg_cons hws X]
  split
  · rename_i rest heq
    exact absurd (List.head_eq_of_cons_eq heq) (beq_eq_false_iff_ne.mp h1)
  · rename_i rest heq
    exact absurd (List.head_eq_of_cons_eq heq) (beq_eq_false_iff_ne.mp h2)
  · rename_i rest heq
    exact absurd (List.head_eq_of_cons_eq heq) (beq_eq_false_iff_ne.mp h3)
  · rename_i rest heq
    exact absurd (List.head_eq_of_cons_eq heq) (beq_eq_false_iff_ne.mp h4)
  · rename_i rest heq
    exact absurd (List.head_eq_of_cons_eq heq) (beq_eq_false_iff_ne.mp h5)
  · rename_i rest heq
    exact absurd (List.head_eq_of_cons_eq heq) (beq_eq_false_iff_ne.mp h6)
  · rfl

mutual
/-- The strict decoder inverts `serJson` on well-formed values. -/
theorem parse_serJson_val : ∀ (v : Value), WF v = true → ∀ (fuel : Nat) (rest : List Char),
    (serJson v).length < fuel → (∀ c, rest.head? = some c → valStop c = true) →
    parseVal fuel (serJson v ++ rest) = some (v, rest)
  | .null, _, fuel, rest, hlen, _ => by
    cases fuel with
    | zero => exact absurd hlen (Nat.not_lt_zero _)
    | succ g => exact rfl
  | .bool b, _, fuel, rest, hlen, _ => by
    cases fuel with
    | zero => exact absurd hlen (Nat.not_lt_zero _)
    | succ g => cases b with
      | true => exact rfl
      | false => exact rfl
  | .int n, _, fuel, rest, hlen, hstop => by
    cases fuel with
    | zero => exact absurd hlen (Nat.not_lt_zero _)
    | succ g =>
      have hnum : ∀ c, rest.head? = some c →
          (c.isDigit || c == '.' || c == 'e' || c == 'E') = false :=
        fun c hc => valStop_numStop (hstop c hc)
      by_cases hn : n < 0
      · have hr : renderInt n = '-' :: natDigits (-n).toNat := by
          unfold renderInt
          rw [if_pos hn]
        have hform : serJson (.int n) ++ rest = '-' :: (natDigits (-n).toNat ++ rest) := by
          show renderInt n ++ rest = _
          rw [hr]
          rfl
        rw [hform, parseVal_int_arm g '-' _ (by decide) (by decide) (by decide) (by decide)
          (by decide) (by decide) (by decide)]
        rw [show ('-' :: (natDigits (-n).toNat ++ rest)) = renderInt n ++ rest from by
          rw [hr]; rfl]
        rw [parseIntTok_renderInt n rest hnum]
        rfl
      · have hr : renderInt n = natDigits n.toNat := by
          unfold renderInt
          rw [if_neg hn]
        obtain ⟨c, t, hct, hdig, _⟩ := natDigits_head n.toNat
        have hform : serJson (.int n) ++ rest = c :: (t ++ rest) := by
          show renderInt n ++ rest = _
          rw [hr, hct]
          rfl
        rw [hform, parseVal_int_arm g c _ (digit_not_ws hdig)
          (class_beq_false hdig (by decide)) (class_beq_false hdig (by decide))
          (class_beq_false hdig (by decide)) (class_beq_false hdig (by decide))
          (class_beq_false hdig (by decide)) (class_beq_false hdig (by decide))]
        rw [show (c :: (t ++ rest)) = renderInt n ++ rest from by rw [hr, hct]; rfl]
        rw [parseIntTok_renderInt n rest hnum]
        rfl
  | .str s, h, fuel, rest, hlen, _ => by
    cases fuel with
    | zero => exact absurd hlen (Nat.not_lt_zero _)
    | succ g =>
      have hg : s.all goodChar = true := by simpa [WF] using h
      have hform : serJson (.str s) ++ rest = '"' :: (jsonEscStr s ++ '"' :: rest) := by
        show ('"' :: jsonEscStr s ++ ['"']) ++ rest = _
        simp
      have harm : parseVal (g + 1) ('"' :: (jsonEscStr s ++ '"' :: rest))
          = (parseStrBody (jsonEscStr s ++ '"' :: rest)).map
              (fun p => (Value.str p.1, p.2)) := rfl
      rw [hform, harm, parseStrBody_jsonEscStr s hg rest]
      rfl
  | .arr xs, h, fuel, rest, hlen, hstop => by
    cases fuel with
    | zero => exact absurd hlen (Nat.not_lt_zero _)
    | succ g =>
      have hx : WFList xs = true := by simpa [WF] using h
      cases xs with
      | nil => exact rfl
      | cons x xs =>
        obtain ⟨c, t, hct, hst⟩ := serJsonItems_head (x :: xs) (by simp)
        have hws : jsonWs c = false := by
          have := hst; simp only [startChar, Bool.and_eq_true, Bool.not_eq_true'] at this
          exact this.1.1.1
        have hnb : (c == ']') = false := by
          have := hst; simp only [startChar, Bool.and_eq_true, Bool.not_eq_true'] at this
          exact this.2
        have hform : serJson (.arr (x :: xs)) ++ rest
            = '[' :: (serJsonItems (x :: xs) ++ (']' :: rest)) := by
          show ('[' :: serJsonItems (x :: xs) ++ [']']) ++ rest = _
          simp
        have harm : parseVal (g + 1) ('[' :: (serJsonItems (x :: xs) ++ (']' :: rest)))
            = match (serJsonItems (x :: xs) ++ (']' :: rest)).dropWhile jsonWs with
              | ']' :: rest2 => some (Value.arr [], rest2)
              | _ => parseItems g (serJsonItems (x :: xs) ++ (']' :: rest)) [] := rfl
        have hdw : (serJsonItems (x :: xs) ++ (']' :: rest)).dropWhile jsonWs
            = serJsonItems (x :: xs) ++ (']' :: rest) := by
          rw [hct]
          show (c :: (t ++ (']' :: rest))).dropWhile jsonWs = _
          exact head_neg_cons hws _
        rw [hform, harm, hdw]
        have hlen2 : (serJsonItems (x :: xs)).length + 1 < g := by
          have : (serJson (.arr (x :: xs))).length = (serJsonItems (x :: xs)).length + 2 := by
            show ('[' :: serJsonItems (x :: xs) ++ [']']).length = _
            simp
          omega
        split
        · rename_i rest2 heq
          rw [hct] at heq
          exact absurd (List.head_eq_of_cons_eq heq) (beq_eq_false_iff_ne.mp hnb)
        · have := parse_serJson_items (x :: xs) hx (by simp) g rest [] hlen2
          rw [this]
          simp
  | .obj kvs, h, fuel, rest, hlen, hstop => by
    cases fuel with
    | zero => exact absurd hlen (Nat.not_lt_zero _)
    | succ g =>
      have hk : WFKvs kvs = true := by
        simp only [WF, Bool.and_eq_true] at h
        exact h.2
      have hnd : nodupKeys (kvs.map (·.1)) = true := by
        simp only [WF, Bool.and_eq_true] at h
        exact h.1
      cases kvs with
      | nil => exact rfl
      | cons kv kvs =>
        obtain ⟨k, v⟩ := kv
        have hm : ∃ t, serJsonMembers ((k, v) :: kvs) = '"' :: t := by
          cases kvs with
          | nil => exact ⟨_, rfl⟩
          | cons q qs => exact ⟨_, rfl⟩
        obtain ⟨t, hmt⟩ := hm
        have hform : serJson (.obj ((k, v) :: kvs)) ++ rest
            = '{' :: (serJsonMembers ((k, v) :: kvs) ++ ('}' :: rest)) := by
          show ('{' :: serJsonMembers ((k, v) :: kvs) ++ ['}']) ++ rest = _
          simp
        have harm : parseVal (g + 1)
            ('{' :: (serJsonMembers ((k, v) :: kvs) ++ ('}' :: rest)))
            = match (serJsonMembers ((k, v) :: kvs) ++ ('}' :: rest)).dropWhile jsonWs with
              | '}' :: rest2 => some (Value.obj [], rest2)
              | _ => parseMembers g (serJsonMembers ((k, v) :: kvs) ++ ('}' :: rest)) [] := rfl
        have hdw : (serJsonMembers ((k, v) :: kvs) ++ ('}' :: rest)).dropWhile jsonWs
            = serJsonMembers ((k, v) :: kvs) ++ ('}' :: rest) := by
          rw [hmt]
          show ('"' :: (t ++ ('}' :: rest))).dropWhile jsonWs = _
          exact head_neg_cons (by decide) _
        rw [hform, harm, hdw]
        have hlen2 : (serJsonMembers ((k, v) :: kvs)).length + 1 < g := by
          have : (serJson (.obj ((k, v) :: kvs))).length
              = (serJsonMembers ((k, v) :: kvs)).length + 2 := by
            show ('{' :: serJsonMembers ((k, v) :: kvs) ++ ['}']).length = _
            simp
          omega
        split
        · rename_i rest2 heq
          rw [hmt] at heq
          exact absurd (List.head_eq_of_cons_eq heq) (by decide)
        · have := parse_serJson_members ((k, v) :: kvs) hk (by simp) hnd g rest []
            (fun p hp => absurd hp (List.not_mem_nil p)) hlen2
          rw [this]
          simp

/-- The item loop inverts `serJsonItems` on nonempty well-formed lists. -/
theorem parse_serJson_items : ∀ (xs : List Value), WFList xs = true → xs ≠ [] →
    ∀ (fuel : Nat) (rest : List Char) (acc : List Value),
    (serJsonItems xs).length + 1 < fuel →
    parseItems fuel (serJsonItems xs ++ (']' :: rest)) acc
      = some (.arr (acc ++ xs), rest)
  | [], _, hne, _, _, _, _ => absurd rfl hne
  | [v], h, _, fuel, rest, acc, hlen => by
    cases fuel with
    | zero => exact absurd hlen (Nat.not_lt_zero _)
    | succ g =>
      have hv : WF v = true := by
        simpa [WFList, Bool.and_eq_true] using h
      have harm : parseItems (g + 1) (serJson v ++ (']' :: rest)) acc
          = match parseVal g (serJson v ++ (']' :: rest)) with
            | none => none
            | some (w, rest2) =>
              match rest2.dropWhile jsonWs with
              | ',' :: rest3 => parseItems g rest3 (acc ++ [w])
              | ']' :: rest3 => some (Value.arr (acc ++ [w]), rest3)
              | _ => none := rfl
      have hlv : (serJson v).length < g := by
        have : (serJsonItems [v]).length = (serJson v).length := rfl
        omega
      show parseItems (g + 1) (serJson v ++ (']' :: rest)) acc = _
      rw [harm, parse_serJson_val v hv g (']' :: rest) hlv (head_all (by decide) rest)]
      rfl
  | v :: v2 :: xs, h, _, fuel, rest, acc, hlen => by
    cases fuel with
    | zero => exact absurd hlen (Nat.not_lt_zero _)
    | succ g =>
      have hv : WF v = true ∧ WFList (v2 :: xs) = true := by
        simpa [WFList, Bool.and_eq_true] using h
      have hform : serJsonItems (v :: v2 :: xs) ++ (']' :: rest)
          = serJson v ++ (',' :: (serJsonItems (v2 :: xs) ++ (']' :: rest))) := by
        show (serJson v ++ ',' :: serJsonItems (v2 :: xs)) ++ (']' :: rest) = _
        simp
      have harm : parseItems (g + 1)
          (serJson v ++ (',' :: (serJsonItems (v2 :: xs) ++ (']' :: rest)))) acc
          = match parseVal g (serJson v ++ (',' :: (serJsonItems (v2 :: xs) ++ (']' :: rest)))) with
            | none => none
            | some (w, rest2) =>
              match rest2.dropWhile jsonWs with
              | ',' :: rest3 => parseItems g rest3 (acc ++ [w])
              | ']' :: rest3 => some (Value.arr (acc ++ [w]), rest3)
              | _ => none := rfl
      have hlv : (serJson v).length < g := by
        have : (serJsonItems (v :: v2 :: xs)).length
            = (serJson v).length + 1 + (serJsonItems (v2 :: xs)).length := by
          show (serJson v ++ ',' :: serJsonItems (v2 :: xs)).length = _
          simp
          omega
        omega
      rw [hform, harm,
        parse_serJson_val v hv.1 g (',' :: (serJsonItems (v2 :: xs) ++ (']' :: rest))) hlv
          (head_all (by decide) _)]
      show parseItems g (serJsonItems (v2 :: xs) ++ (']' :: rest)) (acc ++ [v]) = _
      have hlen2 : (serJsonItems (v2 :: xs)).length + 1 < g := by
        have : (serJsonItems (v :: v2 :: xs)).length
            = (serJson v).length + 1 + (serJsonItems (v2 :: xs)).length := by
          show (serJson v ++ ',' :: serJsonItems (v2 :: xs)).length = _
          simp
          omega
        omega
      rw [parse_serJson_items (v2 :: xs) hv.2 (by simp) g rest (acc ++ [v]) hlen2]
      simp

/-- The member loop inverts `serJsonMembers` on nonempty well-formed,
duplicate-free maps, appending to any disjoint accumulator. -/
theorem parse_serJson_members : ∀ (kvs : List (List Char × Value)), WFKvs kvs = true →
    kvs ≠ [] → nodupKeys (kvs.map (·.1)) = true →
    ∀ (fuel : Nat) (rest : List Char) (acc : List (List Char × Value)),
    (∀ p ∈ acc, ∀ q ∈ kvs, p.1 ≠ q.1) →
    (serJsonMembers kvs).length + 1 < fuel →
    parseMembers fuel (serJsonMembers kvs ++ ('}' :: rest)) acc
      = some (.obj (acc ++ kvs), rest)
  | [], _, hne, _, _, _, _, _, _ => absurd rfl hne
  | [(k, v)], h, _, _, fuel, rest, acc, hdisj, hlen => by
    cases fuel with
    | zero => exact absurd hlen (Nat.not_lt_zero _)
    | succ g =>
      have hv : isIdentStr k = true ∧ WF v = true := by
        simpa [WFKvs, Bool.and_eq_true] using h
      have hform : serJsonMembers [(k, v)] ++ ('}' :: rest)
          = '"' :: (jsonEscStr k ++ '"' :: (':' :: (serJson v ++ ('}' :: rest)))) := by
        show ('"' :: jsonEscStr k ++ '"' :: ':' :: serJson v) ++ ('}' :: rest) = _
        simp
      have harm : parseMembers (g + 1)
          ('"' :: (jsonEscStr k ++ '"' :: (':' :: (serJson v ++ ('}' :: rest))))) acc
          = match parseStrBody (jsonEscStr k ++ '"' :: (':' :: (serJson v ++ ('}' :: rest)))) with
            | none => none
            | some (key, rest2) =>
              match rest2.dropWhile jsonWs with
              | ':' :: rest3 =>
                (match parseVal g rest3 with
                | none => none
                | some (w, rest4) =>
                  match rest4.dropWhile jsonWs with
                  | ',' :: rest5 => parseMembers g rest5 (pyDictSet acc key w)
                  | '}' :: rest5 => some (Value.obj (pyDictSet acc key w), rest5)
                  | _ => none)
              | _ => none := rfl
      have hlv : (serJson v).length < g := by
        have : (serJsonMembers [(k, v)]).length
            = (jsonEscStr k).length + 3 + (serJson v).length := by
          show ('"' :: jsonEscStr k ++ '"' :: ':' :: serJson v).length = _
          simp
          omega
        omega
      rw [hform, harm,
        parseStrBody_jsonEscStr k (ident_goodChar hv.1) (':' :: (serJson v ++ ('}' :: rest)))]
      show (match parseVal g (serJson v ++ ('}' :: rest)) with
          | none => none
          | some (w, rest4) =>
            match rest4.dropWhile jsonWs with
            | ',' :: rest5 => parseMembers g rest5 (pyDictSet acc k w)
            | '}' :: rest5 => some (Value.obj (pyDictSet acc k w), rest5)
            | _ => none) = some (.obj (acc ++ [(k, v)]), rest)
      rw [parse_serJson_val v hv.2 g ('}' :: rest) hlv (head_all (by decide) rest)]
      show some (Value.obj (pyDictSet acc k v), rest) = _
      rw [pyDictSet_fresh acc k v (fun p hp =>
        hdisj p hp (k, v) (List.mem_cons_self _ _))]
  | (k, v) :: q :: kvs, h, _, hnd, fuel, rest, acc, hdisj, hlen => by
    cases fuel with
    | zero => exact absurd hlen (Nat.not_lt_zero _)
    | succ g =>
      have hv : isIdentStr k = true ∧ WF v = true ∧ WFKvs (q :: kvs) = true := by
        simpa [WFKvs, Bool.and_eq_true, and_assoc] using h
      have hnd2 := nodupKeys_cons (by
        have : ((k, v) :: q :: kvs).map (·.1) = k :: (q :: kvs).map (·.1) := rfl
        rw [this] at hnd
        exact hnd)
      have hform : serJsonMembers ((k, v) :: q :: kvs) ++ ('}' :: rest)
          = '"' :: (jsonEscStr k ++ '"' :: (':' :: (serJson v
              ++ (',' :: (serJsonMembers (q :: kvs) ++ ('}' :: rest)))))) := by
        show ('"' :: jsonEscStr k ++ '"' :: ':' :: serJson v
            ++ ',' :: serJsonMembers (q :: kvs)) ++ ('}' :: rest) = _
        simp
      have harm : parseMembers (g + 1)
          ('"' :: (jsonEscStr k ++ '"' :: (':' :: (serJson v
              ++ (',' :: (serJsonMembers (q :: kvs) ++ ('}' :: rest))))))) acc
          = match parseStrBody (jsonEscStr k ++ '"' :: (':' :: (serJson v
              ++ (',' :: (serJsonMembers (q :: kvs) ++ ('}' :: rest)))))) with
            | none => none
            | some (key, rest2) =>
              match rest2.dropWhile jsonWs with
              | ':' :: rest3 =>
                (match parseVal g rest3 with
                | none => none
                | some (w, rest4) =>
                  match rest4.dropWhile jsonWs with
                  | ',' :: rest5 => parseMembers g rest5 (pyDictSet acc key w)
                  | '}' :: rest5 => some (Value.obj (pyDictSet acc key w), rest5)
                  | _ => none)
              | _ => none := rfl
      have hlv : (serJson v).length < g := by
        have : (serJsonMembers ((k, v) :: q :: kvs)).length
            = (jsonEscStr k).length + 4 + (serJson v).length
              + (serJsonMembers (q :: kvs)).length := by
          show ('"' :: jsonEscStr k ++ '"' :: ':' :: serJson v
              ++ ',' :: serJsonMembers (q :: kvs)).length = _
          simp
          omega
        omega
      rw [hform, harm, parseStrBody_jsonEscStr k (ident_goodChar hv.1)
        (':' :: (serJson v ++ (',' :: (serJsonMembers (q :: kvs) ++ ('}' :: rest)))))]
      show (match parseVal g (serJson v
            ++ (',' :: (serJsonMembers (q :: kvs) ++ ('}' :: rest)))) with
          | none => none
          | some (w, rest4) =>
            match rest4.dropWhile jsonWs with
            | ',' :: rest5 => parseMembers g rest5 (pyDictSet acc k w)
            | '}' :: rest5 => some (Value.obj (pyDictSet acc k w), rest5)
            | _ => none) = some (.obj (acc ++ ((k, v) :: q :: kvs)), rest)
      rw [parse_serJson_val v hv.2.1 g
        (',' :: (serJsonMembers (q :: kvs) ++ ('}' :: rest))) hlv (head_all (by decide) _)]
      show parseMembers g (serJsonMembers (q :: kvs) ++ ('}' :: rest)) (pyDictSet acc k v)
          = some (.obj (acc ++ ((k, v) :: q :: kvs)), rest)
      rw [pyDictSet_fresh acc k v (fun p hp =>
        hdisj p hp (k, v) (List.mem_cons_self _ _))]
      have hdisj2 : ∀ p ∈ acc ++ [(k, v)], ∀ q2 ∈ q :: kvs, p.1 ≠ q2.1 := by
        intro p hp q2 hq2
        rcases List.mem_append.mp hp with hp | hp
        · exact hdisj p hp q2 (List.mem_cons_of_mem _ hq2)
        · have : p = (k, v) := by simpa using hp
          subst this
          exact hnd2.1 q2.1 (List.mem_map_of_mem (·.1) hq2)
      have hlen2 : (serJsonMembers (q :: kvs)).length + 1 < g := by
        have : (serJsonMembers ((k, v) :: q :: kvs)).length
            = (jsonEscStr k).length + 4 + (serJson v).length
              + (serJsonMembers (q :: kvs)).length := by
          show ('"' :: jsonEscStr k ++ '"' :: ':' :: serJson v
              ++ ',' :: serJsonMembers (q :: kvs)).length = _
          simp
          omega
        omega
      rw [parse_serJson_members (q :: kvs) hv.2.2 (by simp) hnd2.2 g rest
        (acc ++ [(k, v)]) hdisj2 hlen2]
      simp
end

/-- The strict decoder inverts `serJson` on whole well-formed values. -/
theorem parseJson_serJson (v : Value) (h : WF v = true) :
    parseJson (serJson v) = some v := by
  unfold parseJson
  have hb : (serJson v).length < 3 * (serJson v).length + 9 := by omega
  have hmain := parse_serJson_val v h (3 * (serJson v).length + 9) [] hb
    (fun c hc => by cases hc)
  rw [List.append_nil] at hmain
  rw [hmain]
  rfl

/-! ### Round trip assembly (C1) -/

/-- Locator → Normalizer → strict Decoder, as the source's main composes
them on the located span. -/
def pipelineDecode (html : List Char) : Option Value :=
  match extract_object_literal html MARKER with
  | .ok span => parseJson (js_object_to_json_text span)
  | .error _ => none

/-! ### Normalizer pipeline identity on strict JSON (C2) -/

/-- Characters every normalizer pass appends unchanged without look-back or
look-ahead. -/
def nicePlain (c : Char) : Bool :=
  !(c == '"') && !(c == '\'') && !(pyIsAlpha c) && !(c == '_') && !(c == ',')

/-- Text on which all four normalizer passes are the identity: plain
characters, letter words followed by a stop character, commas not followed
by a closing bracket, and double-quoted string literals. -/
inductive NiceTxt : List Char → Prop
  | nil : NiceTxt []
  | plain (c : Char) (rest : List Char) : nicePlain c = true → NiceTxt rest →
      NiceTxt (c :: rest)
  | word (w rest : List Char) : w ≠ [] → w.all wordChar = true →
      (∀ c, rest.head? = some c → stopChar c = true) → NiceTxt rest → NiceTxt (w ++ rest)
  | comma (rest : List Char) : (∀ c, (rest.dropWhile pyIsSpace).head? = some c →
      ((c == '}') = false ∧ (c == ']') = false)) → NiceTxt rest → NiceTxt (',' :: rest)
  | dstr (body rest : List Char) : StrBody '"' body → NiceTxt rest →
      NiceTxt ('"' :: body ++ '"' :: rest)

/-- Transferring a pointwise `Bool` class over a list. -/
theorem all_imp {p r : Char → Bool} (hpr : ∀ c, p c = true → r c = true) :
    ∀ {l : List Char}, l.all p = true → l.all r = true := by
  intro l h
  rw [List.all_eq_true] at h ⊢
  exact fun c hc => hpr c (h c hc)

/-- Plain characters are plain for the key-quoting pass. -/
theorem nicePlain_qkPlain {c : Char} (h : nicePlain c = true) : qkPlain c = true := by
  simp only [nicePlain, Bool.and_eq_true] at h
  simp only [qkPlain, Bool.and_eq_true]
  exact ⟨⟨⟨h.1.1.1.1, h.1.1.1.2⟩, h.1.1.2⟩, h.1.2⟩

/-- Plain characters are plain for the quote-conversion pass. -/
theorem nicePlain_s2Plain {c : Char} (h : nicePlain c = true) : s2Plain c = true := by
  simp only [nicePlain, Bool.and_eq_true] at h
  simp only [s2Plain, Bool.and_eq_true]
  exact ⟨h.1.1.1.1, h.1.1.1.2⟩

/-- Plain characters are plain for the wrapper-stripping pass. -/
theorem nicePlain_sofPlain {c : Char} (h : nicePlain c = true) : sofPlain c = true := by
  have hO : (c == 'O') = false := class_beq_false h (by decide)
  simp only [nicePlain, Bool.and_eq_true] at h
  simp only [sofPlain, Bool.and_eq_true]
  exact ⟨⟨h.1.1.1.1, h.1.1.1.2⟩, by simpa using hO⟩

/-- Plain characters are plain for the trailing-comma pass. -/
theorem nicePlain_rtcPlain {c : Char} (h : nicePlain c = true) : rtcPlain c = true := by
  simp only [nicePlain, Bool.and_eq_true] at h
  simp only [rtcPlain, Bool.and_eq_true]
  exact ⟨⟨h.1.1.1.1, h.1.1.1.2⟩, h.2⟩

/-- Word letters are plain for the quote-conversion pass. -/
theorem wordChar_s2Plain {c : Char} (h : wordChar c = true) : s2Plain c = true := by
  simp only [wordChar, Bool.and_eq_true] at h
  simp only [s2Plain, Bool.and_eq_true]
  exact ⟨h.1.1.1.1.1.2, h.1.1.1.1.2⟩

/-- Word letters are plain for the wrapper-stripping pass. -/
theorem wordChar_sofPlain {c : Char} (h : wordChar c = true) : sofPlain c = true := by
  simp only [wordChar, Bool.and_eq_true] at h
  simp only [sofPlain, Bool.and_eq_true]
  exact ⟨⟨h.1.1.1.1.1.2, h.1.1.1.1.2⟩, h.2⟩

/-- Word letters are plain for the trailing-comma pass. -/
theorem wordChar_rtcPlain {c : Char} (h : wordChar c = true) : rtcPlain c = true := by
  simp only [wordChar, Bool.and_eq_true] at h
  simp only [rtcPlain, Bool.and_eq_true]
  exact ⟨⟨h.1.1.1.1.1.2, h.1.1.1.1.2⟩, h.1.2⟩

/-- The key-quoting pass is the identity on already-normalized text. -/
theorem qk_niceTxt : ∀ {s : List Char}, NiceTxt s → ∀ (revOut : List Char) (esc : Bool)
    (qc : Char), quoteKeysGo s.length revOut false esc qc s = revOut.reverse ++ s := by
  intro s hs
  induction hs with
  | nil => intro revOut esc qc; rfl
  | plain c rest hp _ ih =>
    intro revOut esc qc
    rw [qk_one c rest revOut esc qc (nicePlain_qkPlain hp), ih (c :: revOut) esc qc]
    simp
  | word w rest hne hall hstop _ ih =>
    intro revOut esc qc
    have hstep : quoteKeysGo (w ++ rest).length revOut false esc qc (w ++ rest)
        = quoteKeysGo rest.length (w.reverse ++ revOut) false esc qc rest := by
      cases htr : (((revOut.dropWhile pyIsSpace).head? == some '{')
          || ((revOut.dropWhile pyIsSpace).head? == some ',')) with
      | false => exact qk_word w rest revOut esc qc hall htr
      | true => exact qk_word_trig w rest revOut esc qc hne hall hstop htr
    rw [hstep, ih (w.reverse ++ revOut) esc qc]
    simp
  | comma rest _ _ ih =>
    intro revOut esc qc
    rw [qk_one ',' rest revOut esc qc (by decide), ih (',' :: revOut) esc qc]
    simp
  | dstr body rest hb _ ih =>
    intro revOut esc qc
    rw [qk_strLit (Or.inl rfl) hb rest revOut esc qc, ih _ esc qc]
    simp

/-- The quote-conversion pass is the identity on already-normalized text. -/
theorem s2_niceTxt : ∀ {s : List Char}, NiceTxt s → ∀ (revOut : List Char),
    s2dGo revOut false false false s = revOut.reverse ++ s := by
  intro s hs
  induction hs with
  | nil => intro revOut; simp [s2dGo]
  | plain c rest hp _ ih =>
    intro revOut
    rw [s2_one c rest revOut (nicePlain_s2Plain hp), ih (c :: revOut)]
    simp
  | word w rest _ hall _ _ ih =>
    intro revOut
    rw [s2_plain w rest revOut (all_imp (fun c => wordChar_s2Plain) hall), ih _]
    simp
  | comma rest _ _ ih =>
    intro revOut
    rw [s2_one ',' rest revOut (by decide), ih (',' :: revOut)]
    simp
  | dstr body rest hb _ ih =>
    intro revOut
    rw [s2_dstrLit hb rest revOut, ih _]
    simp

/-- Already-normalized text is wrapper-free. -/
theorem niceTxt_nice3 : ∀ {s : List Char}, NiceTxt s → Nice3 s := by
  intro s hs
  induction hs with
  | nil => exact .nil
  | plain c rest hp _ ih => exact .plain c rest (nicePlain_sofPlain hp) ih
  | word w rest _ hall _ _ ih =>
    exact nice3_chunk w rest (all_imp (fun c => wordChar_sofPlain) hall) ih
  | comma rest _ _ ih => exact .plain ',' rest (by decide) ih
  | dstr body rest hb _ ih => exact .strLit '"' body rest (Or.inl rfl) hb ih

/-- The trailing-comma pass is the identity on already-normalized text. -/
theorem rtc_niceTxt : ∀ {s : List Char}, NiceTxt s → ∀ (revOut : List Char) (esc : Bool)
    (qc : Char), rtcGo revOut false esc qc s = revOut.reverse ++ s := by
  intro s hs
  induction hs with
  | nil => intro revOut esc qc; simp [rtcGo]
  | plain c rest hp _ ih =>
    intro revOut esc qc
    rw [rtc_one c rest revOut esc qc (nicePlain_rtcPlain hp), ih (c :: revOut) esc qc]
    simp
  | word w rest _ hall _ _ ih =>
    intro revOut esc qc
    rw [rtc_plain w rest revOut esc qc (all_imp (fun c => wordChar_rtcPlain) hall),
      ih _ esc qc]
    simp
  | comma rest hk _ ih =>
    intro revOut esc qc
    rw [rtc_comma_keep rest revOut esc qc hk, ih (',' :: revOut) esc qc]
    simp
  | dstr body rest hb _ ih =>
    intro revOut esc qc
    rw [rtc_strLit (Or.inl rfl) hb rest revOut esc qc, ih _ esc qc]
    simp

/-- A chunk of plain characters prepended to normalized text. -/
theorem niceTxt_chunk : ∀ (chunk rest : List Char), chunk.all nicePlain = true →
    NiceTxt rest → NiceTxt (chunk ++ rest)
  | [], rest, _, h => h
  | c :: chunk, rest, hall, h => by
    have hc : nicePlain c = true ∧ chunk.all nicePlain = true := by
      simpa [List.all_cons, Bool.and_eq_true] using hall
    exact .plain c (chunk ++ rest) hc.1 (niceTxt_chunk chunk rest hc.2 h)

mutual
/-- A strict-JSON serialized value is already-normalized text. -/
theorem niceTxt_serJson_val : ∀ (v : Value), WF v = true → ∀ (rest : List Char),
    (∀ c, rest.head? = some c → stopChar c = true) → NiceTxt rest →
    NiceTxt (serJson v ++ rest)
  | .null, _, rest, hstop, hr => .word (serJson .null) rest (by decide) (by decide) hstop hr
  | .bool b, _, rest, hstop, hr => by
    cases b with
    | true => exact .word (serJson (.bool true)) rest (by decide) (by decide) hstop hr
    | false => exact .word (serJson (.bool false)) rest (by decide) (by decide) hstop hr
  | .int n, _, rest, _, hr =>
    niceTxt_chunk (renderInt n) rest
      (renderInt_all nicePlain (fun m hm => by interval_cases m <;> decide) (by decide) n) hr
  | .str s, _, rest, _, hr => by
    show NiceTxt (('"' :: jsonEscStr s ++ ['"']) ++ rest)
    have hform : ('"' :: jsonEscStr s ++ ['"']) ++ rest = '"' :: jsonEscStr s ++ '"' :: rest := by
      simp
    rw [hform]
    exact .dstr (jsonEscStr s) rest (jsonEscStr_strBody s) hr
  | .arr xs, h, rest, _, hr => by
    have hx : WFList xs = true := by simpa [WF] using h
    show NiceTxt (('[' :: serJsonItems xs ++ [']']) ++ rest)
    have hform : ('[' :: serJsonItems xs ++ [']']) ++ rest
        = '[' :: (serJsonItems xs ++ (']' :: rest)) := by simp
    rw [hform]
    exact .plain '[' _ (by decide)
      (niceTxt_serJson_items xs hx rest (.plain ']' rest (by decide) hr))
  | .obj kvs, h, rest, _, hr => by
    have hk : WFKvs kvs = true := by
      simp only [WF, Bool.and_eq_true] at h
      exact h.2
    show NiceTxt (('{' :: serJsonMembers kvs ++ ['}']) ++ rest)
    have hform : ('{' :: serJsonMembers kvs ++ ['}']) ++ rest
        = '{' :: (serJsonMembers kvs ++ ('}' :: rest)) := by simp
    rw [hform]
    exact .plain '{' _ (by decide)
      (niceTxt_serJson_members kvs hk rest (.plain '}' rest (by decide) hr))

/-- Strict-JSON serialized items with their closing bracket are normalized
text. -/
theorem niceTxt_serJson_items : ∀ (xs : List Value), WFList xs = true →
    ∀ (rest : List Char), NiceTxt (']' :: rest) → NiceTxt (serJsonItems xs ++ (']' :: rest))
  | [], _, rest, hr => hr
  | [v], h, rest, hr => by
    have hv : WF v = true := by simpa [WFList, Bool.and_eq_true] using h
    show NiceTxt (serJson v ++ (']' :: rest))
    exact niceTxt_serJson_val v hv (']' :: rest) (head_all (by decide) rest) hr
  | v :: v2 :: xs, h, rest, hr => by
    have hv : WF v = true ∧ WFList (v2 :: xs) = true := by
      simpa [WFList, Bool.and_eq_true] using h
    show NiceTxt ((serJson v ++ ',' :: serJsonItems (v2 :: xs)) ++ (']' :: rest))
    have hform : (serJson v ++ ',' :: serJsonItems (v2 :: xs)) ++ (']' :: rest)
        = serJson v ++ (',' :: (serJsonItems (v2 :: xs) ++ (']' :: rest))) := by simp
    rw [hform]
    refine niceTxt_serJson_val v hv.1 _ (head_all (by decide) _) (.comma _ ?_ ?_)
    · intro d hd
      obtain ⟨c, t, hct, hst⟩ := serJsonItems_head (v2 :: xs) (by simp)
      have hshape : serJsonItems (v2 :: xs) ++ (']' :: rest) = c :: (t ++ (']' :: rest)) := by
        rw [hct]
        rfl
      rw [hshape] at hd
      have hsp : pyIsSpace c = false := by
        have := hst; simp only [startChar, Bool.and_eq_true, Bool.not_eq_true'] at this
        exact this.1.1.2
      rw [head_neg_cons hsp _] at hd
      have hdc : c = d := by simpa using hd
      subst hdc
      constructor
      · have := hst; simp only [startChar, Bool.and_eq_true, Bool.not_eq_true'] at this
        exact this.1.2
      · have := hst; simp only [startChar, Bool.and_eq_true, Bool.not_eq_true'] at this
        exact this.2
    · exact niceTxt_serJson_items (v2 :: xs) hv.2 rest hr

/-- Strict-JSON serialized members with their closing brace are normalized
text. -/
theorem niceTxt_serJson_members : ∀ (kvs : List (List Char × Value)), WFKvs kvs = true →
    ∀ (rest : List Char), NiceTxt ('}' :: rest) →
    NiceTxt (serJsonMembers kvs ++ ('}' :: rest))
  | [], _, rest, hr => hr
  | [(k, v)], h, rest, hr => by
    have hv : isIdentStr k = true ∧ WF v = true := by
      simpa [WFKvs, Bool.and_eq_true] using h
    show NiceTxt (('"' :: jsonEscStr k ++ '"' :: ':' :: serJson v) ++ ('}' :: rest))
    have hform : ('"' :: jsonEscStr k ++ '"' :: ':' :: serJson v) ++ ('}' :: rest)
        = '"' :: jsonEscStr k ++ '"' :: (':' :: (serJson v ++ ('}' :: rest))) := by simp
    rw [hform]
    exact .dstr (jsonEscStr k) _ (jsonEscStr_strBody k)
      (.plain ':' _ (by decide)
        (niceTxt_serJson_val v hv.2 _ (head_all (by decide) rest) hr))
  | (k, v) :: q :: kvs, h, rest, hr => by
    have hv : isIdentStr k = true ∧ WF v = true ∧ WFKvs (q :: kvs) = true := by
      simpa [WFKvs, Bool.and_eq_true, and_assoc] using h
    show NiceTxt (('"' :: jsonEscStr k ++ '"' :: ':' :: serJson v
        ++ ',' :: serJsonMembers (q :: kvs)) ++ ('}' :: rest))
    have hform : ('"' :: jsonEscStr k ++ '"' :: ':' :: serJson v
          ++ ',' :: serJsonMembers (q :: kvs)) ++ ('}' :: rest)
        = '"' :: jsonEscStr k ++ '"' :: (':' :: (serJson v
            ++ (',' :: (serJsonMembers (q :: kvs) ++ ('}' :: rest))))) := by simp
    rw [hform]
    refine .dstr (jsonEscStr k) _ (jsonEscStr_strBody k)
      (.plain ':' _ (by decide)
        (niceTxt_serJson_val v hv.2.1 _ (head_all (by decide) _) (.comma _ ?_ ?_)))
    · intro d hd
      obtain ⟨q1, q2⟩ := q
      have hm : ∃ t, serJsonMembers ((q1, q2) :: kvs) = '"' :: t := by
        cases kvs with
        | nil => exact ⟨_, rfl⟩
        | cons q3 qs => exact ⟨_, rfl⟩
      obtain ⟨t, hmt⟩ := hm
      have hshape : serJsonMembers ((q1, q2) :: kvs) ++ ('}' :: rest)
          = '"' :: (t ++ ('}' :: rest)) := by
        rw [hmt]
        rfl
      rw [hshape, head_neg_cons (show pyIsSpace '"' = false by decide) _] at hd
      have hdc : '"' = d := by simpa using hd
      subst hdc
      exact ⟨by decide, by decide⟩
    · exact niceTxt_serJson_members (q :: kvs) hv.2.2 rest hr
end

/-- The whole normalizer pipeline is the identity on strict-JSON
serializations of well-formed values. -/
theorem js_object_to_json_text_serJson (v : Value) (h : WF v = true) :
    js_object_to_json_text (serJson v) = serJson v := by
  have hn : NiceTxt (serJson v) := by
    have := niceTxt_serJson_val v h [] (fun c hc => by cases hc) .nil
    rwa [List.append_nil] at this
  unfold js_object_to_json_text
  have h1 : quote_unquoted_keys (serJson v) = serJson v := by
    unfold quote_unquoted_keys
    rw [qk_niceTxt hn [] false ' ']
    rfl
  have h2 : single_quotes_to_double (serJson v) = serJson v := by
    unfold single_quotes_to_double
    rw [s2_niceTxt hn []]
    rfl
  have h3 : strip_object_freeze (serJson v) = serJson v :=
    strip_object_freeze_nice3 (niceTxt_nice3 hn)
  have h4 : remove_trailing_commas (serJson v) = serJson v := by
    unfold remove_trailing_commas
    rw [rtc_niceTxt hn [] false ' ']
    rfl
  rw [h1, h2, h3, h4]

/-- C1 (amended): Round trip through Locator, Normalizer and strict Decoder.
For every well-formed map — identifier-shaped, duplicate-free keys, strings
over characters at or above the space character and free of the single
quote — serialized as a JavaScript-style object literal with unquoted
identifier keys, single-quoted strings and a trailing comma after every
element, wrapped in `Object.freeze(...)` and prefixed with the marker,
running `extract_object_literal` followed by `js_object_to_json_text` and a
strict JSON decode yields a decoded tree structurally equal to the original
value.  (The claim's unrestricted "every well-formed data value" fails at
strings containing a single quote, see the counterexample.) -/
theorem claim_C1 (kvs : List (List Char × Value)) (h : WF (.obj kvs) = true) :
    pipelineDecode (wrapDoc (.obj kvs)) = some (.obj kvs) := by
  unfold pipelineDecode
  rw [extract_wrapDoc kvs h]
  show parseJson (js_object_to_json_text (serJs (.obj kvs))) = some (.obj kvs)
  rw [js_object_to_json_text_serJs kvs h, parseJson_serJson _ h]

/-- C1 counterexample: the value `{a: 'x'y'}` — a map with the string value
`x'y` — serializes with the single quote escaped as a backslash-quote pair,
which the quote-conversion pass keeps; strict JSON rejects that escape, so
the pipeline decodes the wrapped document to nothing rather than to the
original value. -/
theorem claim_C1_cex :
    pipelineDecode (wrapDoc (Value.obj [(['a'], Value.str ['x', '\'', 'y'])])) = none ∧
    pipelineDecode (wrapDoc (Value.obj [(['a'], Value.str ['x', '\'', 'y'])]))
      ≠ some (Value.obj [(['a'], Value.str ['x', '\'', 'y'])]) := by
  constructor
  · decide
  · decide

/-- Witness for C1 at the concrete map `{a: 7}`. -/
theorem claim_C1_witness :
    WF (Value.obj [(['a'], Value.int 7)]) = true ∧
    pipelineDecode (wrapDoc (Value.obj [(['a'], Value.int 7)]))
      = some (Value.obj [(['a'], Value.int 7)]) :=
  ⟨by decide, claim_C1 [(['a'], Value.int 7)] (by decide)⟩

/-- C2 (amended): Normalizer idempotence on its contract's domain.  The
composed four-pass pipeline applied to the serialized literal of a
well-formed map yields fully-normalized strict JSON, and applying the whole
pipeline a second time to that output returns it byte-identically.  (The
claim's "for every input string" fails, e.g. on `,,}`, where each
application deletes one newly-trailing comma; see the counterexample.) -/
theorem claim_C2 (kvs : List (List Char × Value)) (h : WF (.obj kvs) = true) :
    js_object_to_json_text (js_object_to_json_text (serJs (.obj kvs)))
      = js_object_to_json_text (serJs (.obj kvs)) := by
  rw [js_object_to_json_text_serJs kvs h]
  exact js_object_to_json_text_serJson _ h

/-- C2 counterexample: on the input `,,}` the first application keeps the
first comma (its next non-space character is a comma) and deletes the
second; the second application then deletes the first comma, so the pipeline
is not idempotent on arbitrary strings. -/
theorem claim_C2_cex :
    js_object_to_json_text (js_object_to_json_text [',', ',', '}'])
      ≠ js_object_to_json_text [',', ',', '}'] := by decide

/-- Witness for C2 at the concrete map `{b: true}`. -/
theorem claim_C2_witness :
    WF (Value.obj [(['b'], Value.bool true)]) = true ∧
    js_object_to_json_text
        (js_object_to_json_text (serJs (Value.obj [(['b'], Value.bool true)])))
      = js_object_to_json_text (serJs (Value.obj [(['b'], Value.bool true)])) :=
  ⟨by decide, claim_C2 [(['b'], Value.bool true)] (by decide)⟩

end Calendar
